import Mathlib

/-!
# Verification of the résumé-extraction engine (`src/app.py`)

This file shallowly embeds the extraction engine of the repository's
`app.py` into Lean: the contact extractor (name from filename, e-mail,
phone, location), the generic section locator, the education and
experience extractors, the skills extractor and the ATS scorer.  Text is
modelled as `List Char` (Python `str` on the ASCII fragment exercised by
the code); Python regular-expression calls are modelled by bespoke
matchers, or by a small backtracking token engine (`Tok`) whose
preference order mirrors Python `re` (leftmost start position, greedy
quantifiers, alternatives in written order).  Python `\w`, `\s`, and
case mapping are modelled on their ASCII fragment.

The external `phonenumbers` library (used as a wrapped fallback in
`extract_contact_details`) is not part of the repository; it enters the
embedding as an explicit function parameter.

Definitions first, then the theorems about them.
-/

namespace ARS

/-! ## Character classes and basic string utilities -/

/-- Python `\s` (ASCII fragment): space, tab, newline, carriage return,
vertical tab, form feed. -/
def isPySpace (c : Char) : Bool :=
  c = ' ' || c = '\t' || c = '\n' || c = '\r' || c = '\x0b' || c = '\x0c'

/-- Python `\w` (ASCII fragment): letters, digits, underscore. -/
def isWordChar (c : Char) : Bool :=
  c.isAlphanum || c = '_'

/-- Python `str.lower` (ASCII fragment), one character. -/
def lowerChar (c : Char) : Char := c.toLower

/-- Python `str.lower` (ASCII fragment). -/
def lowerStr (s : List Char) : List Char := s.map lowerChar

/-- Python `str.upper` style mapping for one character (ASCII). -/
def upperChar (c : Char) : Char := c.toUpper

/-- The character at an index, if in range. -/
def charAt (s : List Char) (i : Nat) : Option Char := s.get? i

/-- Whether the character at index `i` exists and is a word character. -/
def wordAt (s : List Char) (i : Nat) : Bool :=
  match charAt s i with
  | none => false
  | some c => isWordChar c

/-- Python's `\b` at position `p` (a position is between characters,
`0 ≤ p ≤ s.length`): word-character-ness changes at `p`, out-of-range
counting as non-word. -/
def boundaryAt (s : List Char) (p : Nat) : Bool :=
  (match p with
   | 0 => false
   | q + 1 => wordAt s q) != wordAt s p

/-- The slice `s[a:b]` (clamped, as in Python). -/
def slice (s : List Char) (a b : Nat) : List Char := (s.drop a).take (b - a)

/-- Case-sensitive occurrence of `w` at index `i` of `s`. -/
def exAt (w s : List Char) (i : Nat) : Bool := (s.drop i).take w.length == w

/-- Case-insensitive occurrence of `w` at index `i` of `s`. -/
def ciAt (w s : List Char) (i : Nat) : Bool :=
  lowerStr ((s.drop i).take w.length) == lowerStr w

/-- Occurrence of `w` at or after index `i` (case choice by flag). -/
def litAt (w s : List Char) (i : Nat) (ci : Bool) : Bool :=
  if ci then ciAt w s i else exAt w s i

/-- Python `str.find` style substring test, case-sensitive. -/
def containsSub (w s : List Char) : Bool :=
  (List.range (s.length + 1)).any fun i => exAt w s i

/-- Substring test after lowering both sides (used for Python
`x.lower() in y.lower()` and `re.IGNORECASE` literal searches). -/
def containsSubCI (w s : List Char) : Bool :=
  (List.range (s.length + 1)).any fun i => ciAt w s i

/-- `re.search(r'\b' + re.escape(w) + r'\b', s, re.IGNORECASE)` as a
Boolean: some occurrence of the literal `w` flanked by `\b` boundaries. -/
def containsWordCI (w s : List Char) : Bool :=
  (List.range (s.length + 1)).any fun i =>
    ciAt w s i && boundaryAt s i && boundaryAt s (i + w.length)

/-- Python `str.lstrip()`. -/
def pyLstrip (s : List Char) : List Char := s.dropWhile isPySpace

/-- Python `str.rstrip()`. -/
def pyRstrip (s : List Char) : List Char := (s.reverse.dropWhile isPySpace).reverse

/-- Python `str.strip()`. -/
def pyStrip (s : List Char) : List Char := pyRstrip (pyLstrip s)

/-! ## Lines: `str.split("\n")` and re-joining -/

/-- Python `s.split("\n")` (always at least one piece). -/
def splitNl : List Char → List (List Char)
  | [] => [[]]
  | c :: t =>
    if c = '\n' then [] :: splitNl t
    else
      match splitNl t with
      | [] => [[c]]
      | h :: r => (c :: h) :: r

/-- Python `"\n".join(lines)`. -/
def joinNl : List (List Char) → List Char
  | [] => []
  | [l] => l
  | l :: l2 :: r => l ++ '\n' :: joinNl (l2 :: r)


/-! ## Leftmost scans -/

/-- The first index `k` with `start ≤ k < start + fuel` satisfying `p`,
scanning left to right. -/
def firstHit (p : Nat → Bool) : Nat → Nat → Option Nat
  | _, 0 => none
  | start, fuel + 1 => if p start then some start else firstHit p (start + 1) fuel


/-! ## A small backtracking engine for the source's regex patterns

A Python pattern is modelled as an alternation (in written preference
order) of flat token sequences.  `tryToks` returns the possible end
positions of a match starting at `p`, in Python's backtracking
preference order (greedy quantifiers: longest first; optional items:
present first). -/

/-- Run length of class `f` starting at index `i`. -/
def countWhile (f : Char → Bool) (s : List Char) (i : Nat) : Nat :=
  ((s.drop i).takeWhile f).length

/-- `[hi, hi-1, ..., mn]` (empty when `hi < mn`): greedy preference. -/
def descRange (mn hi : Nat) : List Nat :=
  (List.range (hi + 1 - mn)).map fun k => hi - k

/-- One token of a (flattened) Python regex. -/
inductive Tok where
  /-- a literal, with case-insensitivity flag -/
  | lit (w : List Char) (ci : Bool)
  /-- an optional (greedy) literal -/
  | opt (w : List Char) (ci : Bool)
  /-- a repeated character class with bounds (`none` = unbounded), greedy -/
  | cls (f : Char → Bool) (mn : Nat) (mx : Option Nat)
  /-- `\b` -/
  | bnd
  /-- `^` without `re.MULTILINE` (start of string) -/
  | bos
  /-- `$` without `re.MULTILINE` (end, or just before a final newline) -/
  | eosPlain
  /-- `$` with `re.MULTILINE` (end, or before any newline) -/
  | eolMulti
  /-- `^` with `re.MULTILINE` (start, or right after any newline) -/
  | bolMulti

/-- Candidate end positions of one token matched at `p`, in preference
order. -/
def candEnds (s : List Char) (p : Nat) : Tok → List Nat
  | .lit w ci => if litAt w s p ci then [p + w.length] else []
  | .opt w ci => if litAt w s p ci then [p + w.length, p] else [p]
  | .cls f mn mx =>
    let run := countWhile f s p
    let hi := match mx with | none => run | some m => min run m
    (descRange mn hi).map fun k => p + k
  | .bnd => if boundaryAt s p then [p] else []
  | .bos => if p = 0 then [p] else []
  | .eosPlain =>
    if p = s.length then [p]
    else if p + 1 = s.length ∧ charAt s p = some '\n' then [p] else []
  | .eolMulti =>
    if p = s.length then [p]
    else if charAt s p = some '\n' then [p] else []
  | .bolMulti =>
    if p = 0 then [p]
    else if charAt s (p - 1) = some '\n' then [p] else []

/-- All end positions of the token sequence matched at `p`, in
backtracking preference order. -/
def tryToks (s : List Char) : List Tok → Nat → List Nat
  | [], p => [p]
  | t :: rest, p => (candEnds s p t).flatMap (tryToks s rest)

/-- A pattern: alternatives (each a flat token sequence) in written
preference order. -/
abbrev RePat : Type := List (List Tok)

/-- End of the preferred match of `pat` anchored at `p`, if any. -/
def reMatchEnd (s : List Char) (pat : RePat) (p : Nat) : Option Nat :=
  pat.findSome? fun ts => (tryToks s ts p).head?

/-- `re.search`: the leftmost start position with a match, and the
corresponding (preference-first) end position. -/
def reSearchFrom (s : List Char) (pat : RePat) (start : Nat) : Option (Nat × Nat) :=
  match firstHit (fun p => (reMatchEnd s pat p).isSome) start (s.length + 1 - start) with
  | none => none
  | some p =>
    match reMatchEnd s pat p with
    | none => none
    | some e => some (p, e)

/-- `re.search` from the beginning. -/
def reSearch (s : List Char) (pat : RePat) : Option (Nat × Nat) :=
  reSearchFrom s pat 0

/-- `bool(re.search(...))`. -/
def reTest (s : List Char) (pat : RePat) : Bool :=
  (reSearch s pat).isSome

/-- All non-overlapping matches (start, end), leftmost first, advancing
by one on an empty match, fuelled by the string length. -/
def reFindAllAux (s : List Char) (pat : RePat) : Nat → Nat → List (Nat × Nat)
  | 0, _ => []
  | fuel + 1, pos =>
    match reSearchFrom s pat pos with
    | none => []
    | some (a, e) =>
      if e ≤ a then (a, e) :: reFindAllAux s pat fuel (a + 1)
      else (a, e) :: reFindAllAux s pat fuel e

/-- `re.finditer` as a list of (start, end) spans. -/
def reFindAll (s : List Char) (pat : RePat) : List (Nat × Nat) :=
  reFindAllAux s pat (s.length + 1) 0

/-- `re.split(pat, s)`: the pieces between non-overlapping matches. -/
def reSplitAux (s : List Char) (pat : RePat) : Nat → Nat → List (List Char)
  | 0, pos => [slice s pos s.length]
  | fuel + 1, pos =>
    match reSearchFrom s pat pos with
    | none => [slice s pos s.length]
    | some (a, e) =>
      if e ≤ a then [slice s pos s.length]
      else slice s pos a :: reSplitAux s pat fuel e

/-- `re.split` (no zero-width delimiters arise in the source's calls). -/
def reSplit (s : List Char) (pat : RePat) : List (List Char) :=
  reSplitAux s pat (s.length + 1) 0

end ARS

namespace ARS

/-! ## Python string helpers used by `extract_contact_details` -/

/-- Index of the last occurrence of `c` in `s`, if any. -/
def lastIdx (c : Char) (s : List Char) : Option Nat :=
  (s.reverse.findIdx? fun x => x = c).map fun i => s.length - 1 - i

/-- `os.path.splitext(p)[0]` (POSIX): split off the extension at the
last dot, unless every character of the basename before that dot is a
dot (leading-dot files keep their name). -/
def splitextBase (p : List Char) : List Char :=
  let sepIdx : Nat := match lastIdx '/' p with | none => 0 | some i => i + 1
  match lastIdx '.' p with
  | none => p
  | some dotIdx =>
    if sepIdx ≤ dotIdx ∧ (slice p sepIdx dotIdx).any (fun c => c ≠ '.') then
      p.take dotIdx
    else p

/-- `str.replace(a, b)` for single characters. -/
def replaceChar (a b : Char) (s : List Char) : List Char :=
  s.map fun c => if c = a then b else c

/-- `text.replace('\r', '\n')`. -/
def crToLf (s : List Char) : List Char := replaceChar '\r' '\n' s

/-- `re.sub(r'\b' + word + r'\b', '', name, flags=re.IGNORECASE)`:
remove every non-overlapping boundary-delimited occurrence of `w`,
scanning left to right on the original string. -/
def removeWordCIGo (w s : List Char) (i : Nat) : List Char :=
  if h : i < s.length then
    if 0 < w.length ∧ ciAt w s i = true ∧ boundaryAt s i = true ∧
        boundaryAt s (i + w.length) = true then
      removeWordCIGo w s (i + w.length)
    else s.get ⟨i, h⟩ :: removeWordCIGo w s (i + 1)
  else []
termination_by s.length - i
decreasing_by
  · omega
  · omega

/-- Remove all `\b`-delimited case-insensitive occurrences of `w`. -/
def removeWordCI (w s : List Char) : List Char := removeWordCIGo w s 0

/-- The fixed filename stop-word list of `extract_contact_details`. -/
def wordsToOmit : List (List Char) :=
  [['r','e','s','u','m','e'], ['u','p','d','a','t','e','d'], ['u','p','d','a','t','e'],
   ['p','r','o','f','i','l','e'], ['c','v'], ['l','a','t','e','s','t'],
   ['f','i','n','a','l'], ['n','e','w'], ['p','d','f'], ['u','p','l','o','a','d','e','d']]

/-- The sequential stop-word removal loop. -/
def removeStops (s : List Char) : List Char :=
  wordsToOmit.foldl (fun acc w => removeWordCI w acc) s

/-- `re.sub(r'\b\d+\b', '', name)`: remove maximal digit runs that are
boundary-delimited (a shorter sub-run can never end at a boundary). -/
def removeDigitTokGo (s : List Char) (i : Nat) : List Char :=
  if h : i < s.length then
    if 0 < countWhile Char.isDigit s i ∧ boundaryAt s i = true ∧
        boundaryAt s (i + countWhile Char.isDigit s i) = true then
      removeDigitTokGo s (i + countWhile Char.isDigit s i)
    else s.get ⟨i, h⟩ :: removeDigitTokGo s (i + 1)
  else []
termination_by s.length - i
decreasing_by
  · omega
  · omega

/-- Remove standalone digit tokens. -/
def removeDigitTok (s : List Char) : List Char := removeDigitTokGo s 0

/-- `re.sub(r'[-()]', '', name)`. -/
def removeSymbols (s : List Char) : List Char :=
  s.filter fun c => !(c = '-' || c = '(' || c = ')')

/-- `re.sub(r'\s+', ' ', name)`: collapse every whitespace run to one
space. -/
def collapseWs : List Char → List Char
  | [] => []
  | c :: t =>
    if isPySpace c then ' ' :: collapseWs (t.dropWhile isPySpace)
    else c :: collapseWs t
termination_by s => s.length
decreasing_by
  · simpa using Nat.lt_succ_of_le (List.IsSuffix.length_le (List.dropWhile_suffix _))
  · simp

/-- Python `str.title()` (ASCII): a letter is uppercased when the
previous character is not a letter, lowercased otherwise. -/
def pyTitleGo : Bool → List Char → List Char
  | _, [] => []
  | prevAlpha, c :: t =>
    (if prevAlpha then lowerChar c else upperChar c) :: pyTitleGo c.isAlpha t

/-- Python `str.title()`. -/
def pyTitle (s : List Char) : List Char := pyTitleGo false s

/-- The name-derivation pipeline of `extract_contact_details` (lines
52–71 of `app.py`): strip extension, separators to spaces, drop
stop-words and standalone digits, drop `-()`, collapse whitespace,
strip, title-case. -/
def extractName (filename : List Char) : List Char :=
  pyTitle (pyStrip (collapseWs (removeSymbols (removeDigitTok
    (removeStops (replaceChar '-' ' ' (replaceChar '_' ' '
      (splitextBase filename))))))))

/-! ## E-mail extraction -/

/-- `re.sub(r'(?<!\s)(www\.)', r' \1', text)`: insert a space before
each non-overlapping occurrence of `www.` whose preceding character is
absent or not whitespace. -/
def wwwFixGo (prev : Option Char) : List Char → List Char
  | [] => []
  | c :: t =>
    if ['w','w','w','.'].isPrefixOf (c :: t) &&
        (match prev with | none => true | some pc => !isPySpace pc) then
      ' ' :: 'w' :: 'w' :: 'w' :: '.' :: wwwFixGo (some '.') (t.drop 3)
    else c :: wwwFixGo (some c) t
termination_by s => s.length
decreasing_by
  · simp only [List.length_cons, List.length_drop]
    omega
  · simp

/-- The `www.`-spacing preprocessing applied before e-mail search. -/
def wwwFix (s : List Char) : List Char := wwwFixGo none s

/-- The class `[a-zA-Z0-9._%+-]` (e-mail local part). -/
def localChar (c : Char) : Bool :=
  c.isAlphanum || c = '.' || c = '_' || c = '%' || c = '+' || c = '-'

/-- The class `[a-zA-Z0-9.-]` (e-mail domain part). -/
def domainChar (c : Char) : Bool :=
  c.isAlphanum || c = '.' || c = '-'

/-- Largest dot position `d ≥ 1` in the maximal domain run `M` whose
following letter run has length at least 2 (the backtracking of
`[a-zA-Z0-9.-]+\.[a-zA-Z]{2,}` after the greedy run), together with
that letter run.  The argument counts the candidate position down. -/
def findDomDot (M : List Char) : Nat → Option (Nat × List Char)
  | 0 => none
  | d + 1 =>
    let run := (M.drop (d + 2)).takeWhile Char.isAlpha
    if charAt M (d + 1) = some '.' ∧ 2 ≤ run.length then some (d + 1, run)
    else findDomDot M d

/-- Match of `[a-zA-Z0-9._%+-]+@[a-zA-Z0-9.-]+\.[a-zA-Z]{2,}` anchored
at the head of `s`, returning the matched characters (Python `re`
semantics: greedy with backtracking; since `@` is not a local character
the local part is exactly the maximal local run). -/
def emailHere (s : List Char) : Option (List Char) :=
  let a := s.takeWhile localChar
  if a.isEmpty then none
  else
    match s.drop a.length with
    | c :: rest =>
      if c = '@' then
        let M := rest.takeWhile domainChar
        match findDomDot M (M.length - 1) with
        | some (d, run) => some (a ++ '@' :: (M.take d ++ '.' :: run))
        | none => none
      else none
    | [] => none

/-- `re.findall(email_pattern, text)[0]`: the leftmost match. -/
def findEmail : List Char → Option (List Char)
  | [] => none
  | c :: t =>
    match emailHere (c :: t) with
    | some m => some m
    | none => findEmail t

/-! ## Phone extraction -/

/-- The class `[-.\s]`. -/
def sepChar (c : Char) : Bool := c = '-' || c = '.' || isPySpace c

/-- `(?:\+\d{1,3}[-.\s]?)?\(?\d{3}\)?[-.\s]?\d{3}[-.\s]?\d{4}`. -/
def phonePat1 : RePat :=
  [[.lit ['+'] false, .cls Char.isDigit 1 (some 3), .cls sepChar 0 (some 1),
    .opt ['('] false, .cls Char.isDigit 3 (some 3), .opt [')'] false,
    .cls sepChar 0 (some 1), .cls Char.isDigit 3 (some 3),
    .cls sepChar 0 (some 1), .cls Char.isDigit 4 (some 4)],
   [.opt ['('] false, .cls Char.isDigit 3 (some 3), .opt [')'] false,
    .cls sepChar 0 (some 1), .cls Char.isDigit 3 (some 3),
    .cls sepChar 0 (some 1), .cls Char.isDigit 4 (some 4)]]

/-- `(?:\+\d{1,3}[-.\s]?)?\d{3}[-.\s]?\d{3}[-.\s]?\d{4}`. -/
def phonePat2 : RePat :=
  [[.lit ['+'] false, .cls Char.isDigit 1 (some 3), .cls sepChar 0 (some 1),
    .cls Char.isDigit 3 (some 3), .cls sepChar 0 (some 1),
    .cls Char.isDigit 3 (some 3), .cls sepChar 0 (some 1),
    .cls Char.isDigit 4 (some 4)],
   [.cls Char.isDigit 3 (some 3), .cls sepChar 0 (some 1),
    .cls Char.isDigit 3 (some 3), .cls sepChar 0 (some 1),
    .cls Char.isDigit 4 (some 4)]]

/-- `(?:\+\d{1,3}[-.\s]?)?\d{10,}`. -/
def phonePat3 : RePat :=
  [[.lit ['+'] false, .cls Char.isDigit 1 (some 3), .cls sepChar 0 (some 1),
    .cls Char.isDigit 10 none],
   [.cls Char.isDigit 10 none]]

/-- `re.findall(pattern, text)[0]` for the phone patterns: the matched
substring of the leftmost match. -/
def firstMatchStr (s : List Char) (pat : RePat) : Option (List Char) :=
  (reSearch s pat).map fun ae => slice s ae.1 ae.2

end ARS

namespace ARS

/-! ## The generic section locator `extract_section` -/

/-- Python `str.lower` on `String`. -/
def pyLowerStr (s : String) : String := String.mk (lowerStr s.data)

/-- Whether a line contains one of the headers as a `\b`-delimited
case-insensitive match. -/
def lineHasHeader (headers : List String) (line : List Char) : Bool :=
  headers.any fun h => containsWordCI h.data line

/-- The line at index `i` (total, only queried in range). -/
def lineAt (lines : List (List Char)) (i : Nat) : List Char := lines.getD i []

/-- The fixed "next section" header list of `extract_section`. -/
def nextSectionHeadersSec : List String :=
  ["Education", "Experience", "Work Experience", "Employment",
   "Skills", "Technical Skills", "Projects", "Certifications",
   "Awards", "Publications", "Languages", "Interests", "References"]

/-- First line index at or after `from_` containing one of `headers`. -/
def headerLineFrom (lines : List (List Char)) (headers : List String)
    (from_ : Nat) : Option Nat :=
  firstHit (fun i => lineHasHeader headers (lineAt lines i)) from_
    (lines.length - from_)

/-- The "next section" headers with the requested headers removed
case-insensitively (the removal loop of lines 314–318). -/
def remainingNextHeaders (section_headers : List String) : List String :=
  nextSectionHeadersSec.filter fun nh =>
    !(section_headers.any fun h => pyLowerStr h = pyLowerStr nh)

/-- `extract_section(text, section_headers)` (lines 292–326 of
`app.py`): the body between the first header-bearing line and the first
later line bearing a "next section" header not itself requested, plus
the end line index. -/
def extract_section (text : String) (section_headers : List String) :
    String × Nat :=
  let lines := splitNl text.data
  match headerLineFrom lines section_headers 0 with
  | none => ("", lines.length)
  | some s =>
    let e := (headerLineFrom lines (remainingNextHeaders section_headers)
      (s + 1)).getD lines.length
    (String.mk (joinNl ((lines.drop (s + 1)).take (e - (s + 1)))), e)

/-! ## The skills extractor -/

/-- The fixed taxonomy of `extract_skills` (category to keywords,
exactly as in the source, including cross-category duplicates). -/
def skill_categories : List (String × List String) :=
  [("Programming Languages",
    ["python", "java", "c++", "c#", "javascript", "typescript",
     "ruby", "php", "swift", "kotlin", "go", "rust", "scala"]),
   ("Web Technologies",
    ["html", "css", "react", "angular", "vue", "django",
     "flask", "nodejs", "express", "spring", ".net", "asp.net"]),
   ("Databases",
    ["mysql", "postgresql", "mongodb", "sqlite", "oracle",
     "sql", "nosql", "redis", "cassandra", "power bi", "Excel", "Tableau"]),
   ("Cloud Platforms",
    ["aws", "azure", "google cloud", "heroku", "digital ocean",
     "amazon web services", "cloud computing"]),
   ("DevOps & Tools",
    ["docker", "kubernetes", "jenkins", "git", "github",
     "gitlab", "ansible", "terraform", "ci/cd"]),
   ("Machine Learning & AI",
    ["tensorflow", "pytorch", "scikit-learn", "keras",
     "machine learning", "deep learning", "nlp", "computer vision"]),
   ("Frameworks",
    ["spring boot", "django", "flask", "react", "angular",
     "vue", "laravel", "symfony", "express"])]

/-- The flattened lowercased keyword list. -/
def all_keywords : List String :=
  ((skill_categories.map Prod.snd).flatten).map pyLowerStr

/-- `extract_skills(text)` (lines 1052–1110): whole-word keyword matches
within the located skills section, else over the whole document.  The
Python `set` has unspecified iteration order; the embedding returns the
matched keywords deduplicated in taxonomy order (same set). -/
def extract_skills (text : String) : List String :=
  let sec := (extract_section text
    ["Skills", "Technical Skills", "Competencies", "Expertise"]).1
  let fromSec :=
    if sec ≠ "" then
      (all_keywords.filter fun k =>
        containsWordCI k.data (lowerStr sec.data)).dedup
    else []
  if fromSec ≠ [] then fromSec
  else
    (all_keywords.filter fun k =>
      containsWordCI k.data (lowerStr text.data)).dedup

end ARS

namespace ARS

/-! ## The city gazetteer and `extract_contact_details` -/

/-- The state-to-cities gazetteer of `extract_contact_details`
(lines 111–265 of `app.py`), transcribed verbatim (including repeats
such as `Roorkee` and cross-state duplicates such as `Srinagar`). -/
def indian_cities_states : List (String × List String) :=
  [("Karnataka",
    ["Bangalore", "Bengaluru", "Mysore", "Mysuru", "Hubli", "Hubballi", "Dharwad", "Hospet",
     "Mangalore", "Mangaluru", "Belgaum", "Belagavi", "Davanagere", "Davangere",
     "Bellary", "Ballari", "Gulbarga", "Kalaburagi", "Bijapur", "Vijayapura", "Shimoga", "Shivamogga",
     "Tumkur", "Tumakuru", "Raichur", "Bidar", "Hassan", "Udupi", "Chitradurga", "Bagalkot", "Gadag", "Koppal"]),
   ("Maharashtra",
    ["Mumbai", "Pune", "Nagpur", "Thane", "Nashik", "Aurangabad", "Solapur",
     "Kolhapur", "Amravati", "Navi Mumbai", "Sangli", "Satara", "Ratnagiri", "Akola",
     "Ahmednagar", "Jalgaon", "Dhule", "Nanded", "Latur", "Chandrapur", "Parbhani", "Yavatmal",
     "Buldhana", "Jalna", "Beed", "Osmanabad", "Hingoli", "Washim", "Gadchiroli", "Wardha"]),
   ("Tamil Nadu",
    ["Chennai", "Coimbatore", "Madurai", "Tiruchirappalli", "Trichy", "Salem",
     "Tirunelveli", "Tiruppur", "Erode", "Vellore", "Thanjavur", "Dindigul", "Kanchipuram",
     "Cuddalore", "Thoothukudi", "Tuticorin", "Karur", "Namakkal", "Virudhunagar", "Krishnagiri",
     "Tiruvannamalai", "Nagapattinam", "Theni", "Perambalur", "Ariyalur", "Sivaganga", "Ramanathapuram"]),
   ("Kerala",
    ["Thiruvananthapuram", "Trivandrum", "Kochi", "Cochin", "Kozhikode", "Calicut",
     "Thrissur", "Trichur", "Kollam", "Quilon", "Palakkad", "Palghat", "Kannur", "Cannanore",
     "Alappuzha", "Alleppey", "Malappuram", "Pathanamthitta", "Kottayam", "Idukki", "Kasaragod", "Wayanad"]),
   ("Andhra Pradesh",
    ["Visakhapatnam", "Vizag", "Vijayawada", "Guntur", "Nellore", "Kurnool", "Nandyal",
     "Rajahmundry", "Tirupati", "Eluru", "Ongole", "Anantapur", "Kakinada",
     "Kadapa", "Cuddapah", "Chittoor", "Srikakulam", "Vizianagaram", "Prakasam", "Parvathipuram Manyam"]),
   ("Telangana",
    ["Hyderabad", "Secunderabad", "Warangal", "Nizamabad", "Karimnagar", "Khammam",
     "Ramagundam", "Mahbubnagar", "Nalgonda", "Adilabad", "Suryapet",
     "Siddipet", "Medak", "Sangareddy", "Kamareddy", "Vikarabad", "Jagitial", "Peddapalli",
     "Jangaon", "Bhadradri Kothagudem", "Nagarkurnool", "Wanaparthy", "Mahabubabad", "Mancherial"]),
   ("Delhi",
    ["Delhi", "New Delhi", "South Delhi", "North Delhi", "East Delhi", "West Delhi",
     "Central Delhi", "North West Delhi", "South West Delhi", "North East Delhi", "Shahdara", "South East Delhi"]),
   ("Gujarat",
    ["Ahmedabad", "Surat", "Vadodara", "Baroda", "Rajkot", "Bhavnagar", "Jamnagar",
     "Gandhinagar", "Junagadh", "Gandhidham", "Anand", "Navsari", "Morbi", "Nadiad",
     "Kutch", "Mehsana", "Bharuch", "Valsad", "Porbandar", "Patan", "Amreli", "Dahod",
     "Sabarkantha", "Surendranagar", "Banaskantha", "Tapi", "Kheda", "Botad"]),
   ("Uttar Pradesh",
    ["Lucknow", "Kanpur", "Agra", "Varanasi", "Kashi", "Prayagraj", "Allahabad", "Gorakhpur",
     "Ghaziabad", "Meerut", "Noida", "Bareilly", "Aligarh", "Moradabad", "Saharanpur",
     "Jhansi", "Mathura", "Ayodhya", "Faizabad", "Firozabad", "Muzaffarnagar", "Sultanpur",
     "Mirzapur", "Azamgarh", "Bijnor", "Sitapur", "Hardoi", "Jaunpur", "Rampur", "Unnao",
     "Rae Bareli", "Barabanki", "Etawah", "Bulandshahr", "Amroha", "Ghazipur"]),
   ("West Bengal",
    ["Kolkata", "Calcutta", "Howrah", "Durgapur", "Asansol", "Siliguri",
     "Bardhaman", "Burdwan", "Malda", "Kharagpur", "Haldia", "Darjeeling",
     "Jalpaiguri", "Cooch Behar", "Bankura", "Birbhum", "Purulia", "Nadia", "Hooghly",
     "North 24 Parganas", "South 24 Parganas", "Murshidabad", "Paschim Medinipur", "Purba Medinipur"]),
   ("Rajasthan",
    ["Jaipur", "Jodhpur", "Udaipur", "Kota", "Bikaner", "Ajmer", "Bhilwara",
     "Alwar", "Sikar", "Bharatpur", "Sri Ganganagar", "Pali", "Chittorgarh",
     "Nagaur", "Banswara", "Bundi", "Tonk", "Jhunjhunu", "Hanumangarh", "Dausa",
     "Jhalawar", "Dungarpur", "Sawai Madhopur", "Churu", "Dholpur", "Jalore", "Baran", "Pratapgarh"]),
   ("Punjab",
    ["Ludhiana", "Amritsar", "Jalandhar", "Patiala", "Bathinda", "Mohali",
     "SAS Nagar", "Hoshiarpur", "Pathankot", "Moga", "Firozpur", "Phagwara",
     "Gurdaspur", "Kapurthala", "Sangrur", "Fatehgarh Sahib", "Faridkot", "Muktsar",
     "Mansa", "Rupnagar", "Ropar", "Barnala", "Nawanshahr", "Tarn Taran", "Malerkotla"]),
   ("Haryana",
    ["Gurgaon", "Gurugram", "Faridabad", "Ambala", "Panipat", "Rohtak",
     "Hisar", "Karnal", "Sonipat", "Panchkula", "Yamunanagar", "Bhiwani",
     "Sirsa", "Kurukshetra", "Rewari", "Palwal", "Fatehabad", "Jhajjar", "Kaithal",
     "Jind", "Mahendragarh", "Nuh", "Mewat", "Charkhi Dadri"]),
   ("Madhya Pradesh",
    ["Indore", "Bhopal", "Jabalpur", "Gwalior", "Ujjain", "Sagar",
     "Ratlam", "Satna", "Rewa", "Dewas", "Khandwa", "Chhatarpur",
     "Vidisha", "Morena", "Chhindwara", "Guna", "Shivpuri", "Mandsaur",
     "Neemuch", "Dhar", "Khargone", "Hoshangabad", "Katni", "Bhind",
     "Betul", "Narsinghpur", "Damoh", "Shahdol", "Shajapur", "Burhanpur"]),
   ("Bihar",
    ["Patna", "Gaya", "Muzaffarpur", "Bhagalpur", "Darbhanga", "Purnia",
     "Arrah", "Begusarai", "Chhapra", "Katihar", "Munger", "Saharsa",
     "Bettiah", "Motihari", "Samastipur", "Sitamarhi", "Madhubani", "Hajipur",
     "Araria", "Kishanganj", "Madhepura", "Jehanabad", "Nawada", "Buxar", "Siwan",
     "Aurangabad", "Jamui", "Nalanda", "Supaul", "Banka", "Lakhisarai"]),
   ("Odisha",
    ["Bhubaneswar", "Cuttack", "Rourkela", "Berhampur", "Sambalpur",
     "Puri", "Balasore", "Bhadrak", "Baripada", "Jharsuguda", "Angul",
     "Balangir", "Bargarh", "Jeypore", "Kendrapara", "Koraput", "Sundargarh",
     "Rayagada", "Dhenkanal", "Paradip", "Jagatsinghpur", "Jajpur", "Kendujhar", "Keonjhar"]),
   ("Assam",
    ["Guwahati", "Dibrugarh", "Silchar", "Jorhat", "Tezpur", "Nagaon",
     "Tinsukia", "Karimganj", "Hailakandi", "Sivasagar", "Golaghat",
     "Diphu", "Dhubri", "Bongaigaon", "North Lakhimpur", "Mangaldoi", "Nalbari",
     "Barpeta", "Kokrajhar", "Goalpara", "Dhemaji", "Majuli", "Hamren", "Hojai"]),
   ("Jharkhand",
    ["Ranchi", "Jamshedpur", "Dhanbad", "Bokaro", "Hazaribagh",
     "Deoghar", "Giridih", "Ramgarh", "Dumka", "Chas", "Phusro",
     "Garhwa", "Godda", "Koderma", "Chaibasa", "Lohardaga", "Pakur",
     "Sahebganj", "Latehar", "Simdega", "Khunti", "Gumla", "Jamtara", "Chatra"]),
   ("Chhattisgarh",
    ["Raipur", "Bhilai", "Bilaspur", "Korba", "Durg",
     "Rajnandgaon", "Jagdalpur", "Ambikapur", "Mahasamund", "Dhamtari",
     "Raigarh", "Janjgir", "Kanker", "Bemetara", "Kondagaon", "Balod",
     "Sukma", "Balrampur", "Dantewada", "Baloda Bazar", "Bijapur", "Mungeli",
     "Surajpur", "Gariaband", "Narayanpur", "Kabirdham", "Kawardha"]),
   ("Uttarakhand",
    ["Dehradun", "Haridwar", "Roorkee", "Haldwani", "Rudrapur",
     "Kashipur", "Rishikesh", "Nainital", "Mussoorie", "Pithoragarh",
     "Almora", "Srinagar", "Kotdwar", "Tehri", "Champawat", "Roorkee",
     "Uttarkashi", "Bageshwar", "Chamoli", "Rudraprayag"]),
   ("Himachal Pradesh",
    ["Shimla", "Dharamshala", "Mandi", "Solan", "Palampur",
     "Kullu", "Baddi", "Nahan", "Kangra", "Bilaspur", "Hamirpur",
     "Una", "Chamba", "Kinnaur", "Lahaul and Spiti", "Sirmaur", "Keylong"]),
   ("Goa",
    ["Panaji", "Panjim", "Margao", "Vasco da Gama", "Vasco", "Mapusa",
     "Ponda", "Bicholim", "Curchorem", "Cuncolim", "Canacona",
     "Pernem", "Quepem", "Sanguem", "Sanquelim", "Valpoi", "Calangute", "Candolim"]),
   ("Jammu and Kashmir",
    ["Srinagar", "Jammu", "Anantnag", "Baramulla", "Udhampur",
     "Kathua", "Sopore", "Kupwara", "Pulwama", "Poonch", "Rajouri",
     "Budgam", "Bandipore", "Ganderbal", "Kulgam", "Kishtwar", "Ramban",
     "Reasi", "Doda", "Samba", "Shopian"]),
   ("Ladakh",
    ["Leh", "Kargil", "Zanskar", "Nubra", "Drass", "Khalatse", "Alchi", "Diskit",
     "Hanle", "Nyoma", "Chushul", "Durbuk", "Pangong", "Khaltse", "Sankoo"]),
   ("Arunachal Pradesh",
    ["Itanagar", "Naharlagun", "Pasighat", "Tawang", "Ziro", "Bomdila", "Aalo",
     "Tezu", "Namsai", "Roing", "Changlang", "Khonsa", "Seppa", "Daporijo", "Yingkiong",
     "Anini", "Koloriang", "Hawai", "Longding"]),
   ("Manipur",
    ["Imphal", "Thoubal", "Kakching", "Ukhrul", "Chandel", "Churachandpur", "Senapati",
     "Bishnupur", "Tamenglong", "Jiribam", "Kangpokpi", "Tengnoupal", "Pherzawl", "Noney",
     "Kamjong"]),
   ("Meghalaya",
    ["Shillong", "Tura", "Jowai", "Nongstoin", "Williamnagar", "Baghmara", "Resubelpara",
     "Ampati", "Khliehriat", "Mawkyrwat", "Nongpoh", "Mairang", "Dadenggre"]),
   ("Mizoram",
    ["Aizawl", "Lunglei", "Saiha", "Champhai", "Kolasib", "Serchhip", "Mamit", "Lawngtlai",
     "Khawzawl", "Saitual", "Hnahthial"]),
   ("Nagaland",
    ["Kohima", "Dimapur", "Mokokchung", "Tuensang", "Wokha", "Zunheboto", "Mon", "Phek",
     "Kiphire", "Longleng", "Peren", "Noklak"]),
   ("Sikkim",
    ["Gangtok", "Namchi", "Jorethang", "Gyalshing", "Mangan", "Rangpo", "Singtam", "Ravangla",
     "Soreng", "Pakyong"]),
   ("Tripura",
    ["Agartala", "Udaipur", "Dharmanagar", "Kailasahar", "Belonia", "Ambassa", "Khowai",
     "Teliamura", "Sabroom", "Santirbazar", "Kamalpur", "Kumarghat"]),
   ("Andaman and Nicobar Islands",
    ["Port Blair", "Mayabunder", "Diglipur", "Rangat", "Little Andaman",
     "Car Nicobar", "Campbell Bay", "Havelock Island", "Neil Island", "Kamorta"]),
   ("Chandigarh",
    ["Chandigarh", "Mani Majra", "Attawa", "Daria", "Hallomajra", "Maloya", "Palsora", "Kajheri"]),
   ("Dadra and Nagar Haveli and Daman and Diu",
    ["Silvassa", "Daman", "Diu", "Naroli", "Vapi", "Amli",
     "Kachigam", "Moti Daman", "Nani Daman", "Dunetha"]),
   ("Lakshadweep",
    ["Kavaratti", "Agatti", "Amini", "Andrott", "Bangaram", "Bitra", "Chetlat", "Kadmat",
     "Kalpeni", "Kiltan", "Minicoy"]),
   ("Puducherry",
    ["Puducherry", "Pondicherry", "Karaikal", "Yanam", "Mahe", "Ozhukarai", "Villianur",
     "Ariyankuppam", "Bahour", "Mannadipet"])]

/-- Insertion into the flattened lookup with Python-dict semantics:
a repeated key keeps its first position but takes the new value. -/
def insertCity (m : List (String × String)) (city state : String) :
    List (String × String) :=
  if m.any fun kv => kv.1 = city then
    m.map fun kv => if kv.1 = city then (kv.1, state) else kv
  else m ++ [(city, state)]

/-- The flattened lowercase city-to-state lookup, in Python dict
iteration (first-insertion) order. -/
def city_to_state : List (String × String) :=
  indian_cities_states.foldl
    (fun m st => st.2.foldl (fun m2 c => insertCity m2 (pyLowerStr c) st.1) m) []

/-- The line-by-line city scan of `extract_contact_details`: first
matching city (in lookup order) on the first line containing any. -/
def findCity (lines : List (List Char)) : Option (String × String) :=
  lines.findSome? fun line =>
    city_to_state.findSome? fun kv =>
      if containsWordCI kv.1.data (lowerStr line) then some kv else none

/-- The contact record (the four keys of the result dict). -/
structure Contact where
  Name : String
  Email : String
  Phone : String
  Location : String
deriving Repr, DecidableEq

/-- `extract_contact_details(text, filename)` (lines 31–290).  The
wrapped `phonenumbers` fallback (an external library) is passed in as
`phoneLib`; its `try/except` downgrade-to-nothing is the `Option`.
Note the source's order of operations: `\r` is replaced first, the
location lines are taken before the `www.` spacing, and the spaced text
is used for both the e-mail and the phone patterns. -/
def extract_contact_details (phoneLib : String → Option String)
    (text filename : String) : Contact :=
  let name := extractName filename.data
  let nameF := if name.isEmpty then "Not Found" else String.mk name
  let t1 := crToLf text.data
  let lines := ((splitNl t1).map pyStrip).filter fun l => !l.isEmpty
  let t2 := wwwFix t1
  let emailF := match findEmail t2 with
    | some m => String.mk m
    | none => "Not Found"
  let phoneF :=
    match firstMatchStr t2 phonePat1 with
    | some m => String.mk m
    | none =>
      match firstMatchStr t2 phonePat2 with
      | some m => String.mk m
      | none =>
        match firstMatchStr t2 phonePat3 with
        | some m => String.mk m
        | none =>
          match phoneLib (String.mk t2) with
          | some f => f
          | none => "Not Found"
  let locF := match findCity lines with
    | some kv => String.mk (pyTitle kv.1.data) ++ ", " ++ kv.2
    | none => "Not Found"
  ⟨nameF, emailF, phoneF, locF⟩

end ARS

namespace ARS

/-! ## The experience extractor -/

/-- `re.sub(r'\r\n|\r', '\n', text)` (leftmost-first: `\r\n` preferred). -/
def normalizeNl : List Char → List Char
  | [] => []
  | '\r' :: '\n' :: t => '\n' :: normalizeNl t
  | '\r' :: t => '\n' :: normalizeNl t
  | c :: t => c :: normalizeNl t

/-- `re.sub(r'\n+', '\n', text)`. -/
def collapseNlRuns : List Char → List Char
  | [] => []
  | c :: t =>
    if c = '\n' then '\n' :: collapseNlRuns (t.dropWhile fun d => d = '\n')
    else c :: collapseNlRuns t
termination_by s => s.length
decreasing_by
  · simpa using Nat.lt_succ_of_le (List.IsSuffix.length_le (List.dropWhile_suffix _))
  · simp

/-- `str.split(sep)` for a one-character separator. -/
def splitCh (sep : Char) : List Char → List (List Char)
  | [] => [[]]
  | c :: t =>
    if c = sep then [] :: splitCh sep t
    else
      match splitCh sep t with
      | [] => [[c]]
      | h :: r => (c :: h) :: r

/-- `s.replace(sub, '')` for a non-empty `sub`: remove non-overlapping
occurrences left to right. -/
def replaceAllSubGo (sub s : List Char) (i : Nat) : List Char :=
  if h : i < s.length then
    if 0 < sub.length ∧ exAt sub s i = true then
      replaceAllSubGo sub s (i + sub.length)
    else s.get ⟨i, h⟩ :: replaceAllSubGo sub s (i + 1)
  else []
termination_by s.length - i
decreasing_by
  · omega
  · omega

/-- `header_line.replace(duration, '')`. -/
def replaceAllSub (sub s : List Char) : List Char := replaceAllSubGo sub s 0

/-- `re.sub(r'[...]+$', '', s)`: drop the maximal trailing run of
characters satisfying `p`. -/
def dropTrailingWhile (p : Char → Bool) (s : List Char) : List Char :=
  (s.reverse.dropWhile p).reverse

/-- Cartesian product of alternative lists, left alternation outermost
(Python's backtracking order for a concatenation of groups). -/
def patCross (a b : List (List Tok)) : List (List Tok) :=
  a.flatMap fun x => b.map fun y => x ++ y

/-- An optional alternation group `(?:w1|w2|...)?` (case-insensitive):
each alternative, in order, then the empty choice. -/
def optAlts (ws : List String) : List (List Tok) :=
  (ws.map fun w => [Tok.lit w.data true]) ++ [[]]

/-- `(?:^|\n)\s*HDR\s*(?:$|\n)` with `re.IGNORECASE` (no `re.MULTILINE`),
used for the experience section headers. -/
def wholeLinePat (hdr : String) : RePat :=
  [[.bos, .cls isPySpace 0 none, .lit hdr.data true, .cls isPySpace 0 none, .eosPlain],
   [.bos, .cls isPySpace 0 none, .lit hdr.data true, .cls isPySpace 0 none, .lit ['\n'] false],
   [.lit ['\n'] false, .cls isPySpace 0 none, .lit hdr.data true, .cls isPySpace 0 none, .eosPlain],
   [.lit ['\n'] false, .cls isPySpace 0 none, .lit hdr.data true, .cls isPySpace 0 none, .lit ['\n'] false]]

/-- The experience header phrases (lines 797–807 and 999–1009). -/
def experience_headers : List String :=
  ["WORK EXPERIENCE", "EMPLOYMENT HISTORY", "EXPERIENCE",
   "PROFESSIONAL EXPERIENCE", "WORK HISTORY", "RELEVANT EXPERIENCE",
   "CAREER HISTORY", "EMPLOYMENT", "PROFESSIONAL BACKGROUND"]

/-- The "next section" phrases of the experience extractor (809–824). -/
def exp_next_section_headers : List String :=
  ["EDUCATION", "SKILLS", "CERTIFICATIONS", "AWARDS", "PROJECTS",
   "ACHIEVEMENTS", "PUBLICATIONS", "REFERENCES", "LANGUAGES", "INTERESTS",
   "VOLUNTEER", "ADDITIONAL INFORMATION", "PERSONAL PROJECTS",
   "EXTRACURRICULAR"]

/-- Month abbreviations used in the date patterns. -/
def monthsShort : List String :=
  ["Jan", "Feb", "Mar", "Apr", "May", "Jun", "Jul", "Aug", "Sep", "Oct",
   "Nov", "Dec"]

/-- The class `[\s,-]`. -/
def sepWsComma (c : Char) : Bool := isPySpace c || c = ',' || c = '-'

/-- The class `[-–—]` (hyphen, en dash, em dash). -/
def isDashChar (c : Char) : Bool := c = '-' || c = '–' || c = '—'

/-- `r'\d{10}'`. -/
def d10Pat : RePat := [[.cls Char.isDigit 10 (some 10)]]

/-- The class `[a-zA-Z0-9_-]`. -/
def linkChar (c : Char) : Bool := c.isAlphanum || c = '_' || c = '-'

/-- `r'linkedin\.com\/in\/[a-zA-Z0-9_-]+'` (under `re.IGNORECASE`). -/
def linkedinPat : RePat :=
  [[.lit "linkedin.com/in/".data true, .cls linkChar 1 none]]

/-- `r'[a-zA-Z]+\s*\|\s*LinkedIn'` (under `re.IGNORECASE`). -/
def pipeLinkedinPat : RePat :=
  [[.cls Char.isAlpha 1 none, .cls isPySpace 0 none, .lit ['|'] false,
    .cls isPySpace 0 none, .lit "LinkedIn".data true]]

/-- `r'linkedin\.com'` (the entry-validation contact alternative). -/
def linkedinSubPat : RePat := [[.lit "linkedin.com".data true]]

/-- `r'\b(20\d{2}|19\d{2})[\s,-]+(?:present|current|20\d{2}|19\d{2})\b'`
(under `re.IGNORECASE`). -/
def yearRangeIndPat : RePat :=
  patCross
    [[Tok.bnd, Tok.lit ['2','0'] true, Tok.cls Char.isDigit 2 (some 2)],
     [Tok.bnd, Tok.lit ['1','9'] true, Tok.cls Char.isDigit 2 (some 2)]]
    ([[Tok.lit "present".data true], [Tok.lit "current".data true],
      [Tok.lit ['2','0'] true, Tok.cls Char.isDigit 2 (some 2)],
      [Tok.lit ['1','9'] true, Tok.cls Char.isDigit 2 (some 2)]].map
      fun r => Tok.cls sepWsComma 1 none :: r ++ [Tok.bnd])

/-- `r'\b(?:Jan|...|Dec)[a-z]*[\s,-]+\d{4}'` (under `re.IGNORECASE`,
so `[a-z]` matches any letter). -/
def monthYearIndPat : RePat :=
  monthsShort.map fun m =>
    [Tok.bnd, Tok.lit m.data true, Tok.cls Char.isAlpha 0 none,
     Tok.cls sepWsComma 1 none, Tok.cls Char.isDigit 4 (some 4)]

/-- The job-verb list of the content guard and entry validation. -/
def jobVerbs : List String :=
  ["managed", "led", "developed", "implemented", "created", "designed",
   "responsible for", "collaborated", "worked with"]

/-- `r'\b(?:managed|led|...)\b'` (under `re.IGNORECASE`). -/
def jobVerbsPat : RePat :=
  jobVerbs.map fun w => [Tok.bnd, Tok.lit w.data true, Tok.bnd]

/-- `r'\b(?:Manager|Engineer|...)\b'` (the content guard's title nouns). -/
def jobNounsPat : RePat :=
  (["Manager", "Engineer", "Developer", "Analyst", "Consultant",
    "Specialist", "Director", "Coordinator", "Supervisor"] : List String).map
    fun w => [Tok.bnd, Tok.lit w.data true, Tok.bnd]

/-- The `date_pattern` of `parse_experience_entries` (line 883):
month-with-optional-dot-year or bare year, dash, month-year, bare year
or `Present`/`Current`/`Now` (under `re.IGNORECASE`). -/
def date_pattern : RePat :=
  patCross
    ((monthsShort.map fun m =>
       [Tok.bnd, Tok.lit m.data true, Tok.cls Char.isAlpha 0 none,
        Tok.opt ['.'] false, Tok.cls isPySpace 1 none,
        Tok.cls Char.isDigit 4 (some 4), Tok.bnd]) ++
     [[Tok.lit ['1','9'] true, Tok.cls Char.isDigit 2 (some 2)],
      [Tok.lit ['2','0'] true, Tok.cls Char.isDigit 2 (some 2)]])
    (((monthsShort.map fun m =>
        [Tok.bnd, Tok.lit m.data true, Tok.cls Char.isAlpha 0 none,
         Tok.opt ['.'] false, Tok.cls isPySpace 1 none,
         Tok.cls Char.isDigit 4 (some 4), Tok.bnd]) ++
      [[Tok.lit ['1','9'] true, Tok.cls Char.isDigit 2 (some 2)],
       [Tok.lit ['2','0'] true, Tok.cls Char.isDigit 2 (some 2)],
       [Tok.lit "Present".data true], [Tok.lit "Current".data true],
       [Tok.lit "Now".data true]]).map
      fun r => Tok.cls isPySpace 0 none :: Tok.cls isDashChar 1 (some 1) ::
        Tok.cls isPySpace 0 none :: r)

/-- The `job_title_pattern` (line 884): optional seniority, optional
domain, mandatory role noun, `\b`-delimited (under `re.IGNORECASE`). -/
def job_title_pattern : RePat :=
  patCross
    ((optAlts ["Senior", "Junior", "Lead", "Chief", "Principal",
       "Associate", "Assistant"]).map
      fun x => Tok.bnd :: x ++ [Tok.cls isPySpace 0 none])
    (patCross
      ((optAlts ["Software", "Systems", "Data", "Project", "Product",
         "Marketing", "Sales", "HR", "Human Resources", "Financial",
         "Finance", "Web", "UI/UX", "Frontend", "Backend", "Full Stack",
         "Full-Stack", "DevOps", "QA", "Test"]).map
        fun x => x ++ [Tok.cls isPySpace 0 none])
      ((["Engineer", "Developer", "Analyst", "Manager", "Consultant",
         "Coordinator", "Specialist", "Director", "Designer", "Architect",
         "Intern", "Administrator", "Officer", "Executive",
         "Representative", "Associate"] : List String).map
        fun w => [Tok.lit w.data true, Tok.bnd]))

/-- The class `[A-Za-z0-9\s,\.&\'-]`. -/
def ccChar (c : Char) : Bool :=
  c.isAlphanum || isPySpace c || c = ',' || c = '.' || c = '&' ||
    c = '\'' || c = '-'

/-- The `company_pattern` (line 885); searched under `re.IGNORECASE`, so
its `[A-Z]` head matches any letter. -/
def company_pattern : RePat :=
  (optAlts ["Inc", "LLC", "Ltd", "Corporation", "Corp", "Company", "Co",
    "Group", "GmbH"]).map
    fun sfx => [Tok.bnd, Tok.cls Char.isAlpha 1 (some 1),
      Tok.cls ccChar 1 none] ++ sfx ++ [Tok.bnd]

/-- `r'\n\s*\n'` (the blank-line splitter). -/
def nlWsNlPat : RePat :=
  [[.lit ['\n'] false, .cls isPySpace 0 none, .lit ['\n'] false]]

/-- `r'[.,:;]$'`. -/
def endPunctPat : RePat :=
  [[.cls (fun c => c = '.' || c = ',' || c = ':' || c = ';') 1 (some 1),
    .eosPlain]]

/-- `r'^[a-z]'` (case-sensitive). -/
def startLowerPat : RePat :=
  [[.bos, .cls (fun c => 'a' ≤ c && c ≤ 'z') 1 (some 1)]]

/-- `extract_experience_section(text)` (lines 792–873): normalize line
breaks, find the first header pattern with a match (section starts at
its end), cut at the first later "next section" match, then apply the
contact-leakage and content-plausibility guards. -/
def extract_experience_section (text : List Char) : List Char :=
  let t := pyStrip (collapseNlRuns (normalizeNl text))
  match experience_headers.findSome?
      (fun h => (reSearch t (wholeLinePat h)).map Prod.snd) with
  | none => []
  | some st =>
    let e := match exp_next_section_headers.findSome?
        (fun h => (reSearch (t.drop st) (wholeLinePat h)).map Prod.fst) with
      | some ms => st + ms
      | none => t.length
    let sec := pyStrip (slice t st e)
    let contactHit := (findEmail sec).isSome || reTest sec phonePat1 ||
      reTest sec d10Pat || reTest sec linkedinPat || reTest sec pipeLinkedinPat
    if (decide (sec.length < 20) || decide (sec.count '\n' < 2)) && contactHit
    then []
    else if !(reTest sec yearRangeIndPat || reTest sec monthYearIndPat ||
        reTest sec jobVerbsPat || reTest sec jobNounsPat) then []
    else sec

/-- Approach 2 of `parse_experience_entries`: a new entry starts at a
date-bearing line whose predecessor bears no date. -/
def splitByDateAnchorsGo : Bool → List (List Char) → List (List Char) →
    List (List (List Char))
  | _, current, [] => if current.isEmpty then [] else [current]
  | prevM, current, line :: rest =>
    let m := reTest line date_pattern
    if m && !prevM then
      (if current.isEmpty then [] else [current]) ++
        splitByDateAnchorsGo m [line] rest
    else splitByDateAnchorsGo m (current ++ [line]) rest

/-- Approach 2, producing newline-joined entries. -/
def splitByDateAnchors (sec : List Char) : List (List Char) :=
  (splitByDateAnchorsGo false [] (splitNl sec)).map joinNl

/-- Approach 3 of `parse_experience_entries`: a new entry starts at a
short title/company line, not first, whose predecessor does not end in
punctuation and which does not start lowercase. -/
def splitByTitleAnchorsGo : Option (List Char) → List (List Char) →
    List (List Char) → List (List (List Char))
  | _, current, [] => if current.isEmpty then [] else [current]
  | prev, current, line :: rest =>
    if (reTest line job_title_pattern || reTest line company_pattern) &&
        decide (line.length < 100) && prev.isSome then
      match prev with
      | some pl =>
        if !reTest pl endPunctPat && !reTest line startLowerPat then
          (if current.isEmpty then [] else [current]) ++
            splitByTitleAnchorsGo (some line) [line] rest
        else splitByTitleAnchorsGo (some line) (current ++ [line]) rest
      | none => splitByTitleAnchorsGo (some line) (current ++ [line]) rest
    else splitByTitleAnchorsGo (some line) (current ++ [line]) rest

/-- Approach 3, producing newline-joined entries. -/
def splitByTitleAnchors (sec : List Char) : List (List Char) :=
  (splitByTitleAnchorsGo none [] (splitNl sec)).map joinNl

/-- The entry-validation filter (lines 927–942): keep stripped nonempty
entries bearing a date, job title or job verb and no contact pattern. -/
def validEntriesFilter (entries : List (List Char)) : List (List Char) :=
  entries.filterMap fun e =>
    let e2 := pyStrip e
    if e2.isEmpty then none
    else if (reTest e2 date_pattern || reTest e2 job_title_pattern ||
        reTest e2 jobVerbsPat) &&
      !((findEmail e2).isSome || reTest e2 phonePat1 || reTest e2 d10Pat ||
        reTest e2 linkedinSubPat) then some e2
    else none

/-- `parse_experience_entries(experience_section)` (lines 875–942). -/
def parse_experience_entries (sec : List Char) : List (List Char) :=
  if sec.isEmpty then []
  else
    let entries1 := reSplit sec nlWsNlPat
    let entries2 :=
      if entries1.length ≤ 1 then
        let a := splitByDateAnchors sec
        if 1 < a.length then a else entries1
      else entries1
    let entries3 :=
      if entries2.length ≤ 1 then
        let a := splitByTitleAnchors sec
        if 1 < a.length then a else entries2
      else entries2
    validEntriesFilter entries3

/-- The `date_range_pattern` of `parse_experience_details` (line 950):
month-year, dash, then month-year, `Present`/`Current`/`Now` or bare
year (under `re.IGNORECASE`). -/
def dateRangePat : RePat :=
  patCross
    (monthsShort.map fun m =>
      [Tok.lit m.data true, Tok.cls Char.isAlpha 0 none,
       Tok.cls isPySpace 1 none, Tok.cls Char.isDigit 4 (some 4)])
    (((monthsShort.map fun m =>
        [Tok.lit m.data true, Tok.cls Char.isAlpha 0 none,
         Tok.cls isPySpace 1 none, Tok.cls Char.isDigit 4 (some 4)]) ++
      [[Tok.lit "Present".data true], [Tok.lit "Current".data true],
       [Tok.lit "Now".data true],
       [Tok.lit ['1','9'] true, Tok.cls Char.isDigit 2 (some 2)],
       [Tok.lit ['2','0'] true, Tok.cls Char.isDigit 2 (some 2)]]).map
      fun r => Tok.cls isPySpace 0 none :: Tok.cls isDashChar 1 (some 1) ::
        Tok.cls isPySpace 0 none :: r)

/-- `" | ".join` of the nonempty pieces. -/
def joinDetails (pieces : List (List Char)) : List Char :=
  List.intercalate [' ', '|', ' '] (pieces.filter fun x => !x.isEmpty)

/-- `parse_experience_details(entry)` (lines 944–993). -/
def parse_experience_details (entry : List Char) : List Char :=
  let duration0 := match reSearch entry dateRangePat with
    | some ae => slice entry ae.1 ae.2
    | none => []
  let lines := splitNl entry
  let header := pyStrip (lineAt lines 0)
  if header.contains '|' then
    let toks := (splitCh '|' header).map pyStrip
    let role := if 2 ≤ toks.length then lineAt toks 0 else []
    let company := if 2 ≤ toks.length then lineAt toks 1 else []
    let duration := match toks.getLast? with
      | some lt => if reTest lt dateRangePat then lt else duration0
      | none => duration0
    joinDetails [company, role, duration]
  else
    let duration := if duration0.isEmpty then
        match reSearch header dateRangePat with
        | some ae => slice header ae.1 ae.2
        | none => []
      else duration0
    let company := if !duration.isEmpty then
        dropTrailingWhile (fun c => isPySpace c || c = ',' || c = '-')
          (pyStrip (replaceAllSub duration header))
      else header
    let role := if 1 < lines.length then pyStrip (lineAt lines 1) else []
    joinDetails [company, role, duration]

/-- `extract_experience(text)` (lines 767–790). -/
def extract_experience (text : String) : List String :=
  let sec := extract_experience_section text.data
  if sec.isEmpty then []
  else
    let entries := parse_experience_entries sec
    if entries.isEmpty then []
    else
      ((entries.map parse_experience_details).filter fun d =>
        !d.isEmpty).map String.mk

/-- `has_work_experience_section(text)` (lines 995–1014): does any
experience header pattern match the raw text? -/
def has_work_experience_section (text : String) : Bool :=
  experience_headers.any fun h => reTest text.data (wholeLinePat h)

/-- `process_resume(text)` (lines 1016–1029): a string message or the
experience list. -/
def process_resume (text : String) : Sum String (List String) :=
  if has_work_experience_section text then
    let experiences := extract_experience text
    if experiences.isEmpty then
      Sum.inl "No work experience entries found in the resume."
    else Sum.inr experiences
  else Sum.inl "No experience section found in the resume."

end ARS

namespace ARS

/-! ## The education extractor: patterns and helpers -/

/-- Match anchored at position 0 (`re.match`). -/
def reMatchHere (s : List Char) (pat : RePat) : Bool :=
  (reMatchEnd s pat 0).isSome

/-- First case-sensitive occurrence of `w` at or after `from_`
(Python `str.find(w, from_)`). -/
def findSubFrom (w s : List Char) (from_ : Nat) : Option Nat :=
  firstHit (fun i => exAt w s i) from_ (s.length + 1 - from_)

/-- The eight education section header patterns (lines 331–340),
searched with `re.MULTILINE | re.IGNORECASE`, in order. -/
def education_start_patterns : List RePat :=
  [[[.lit "EDUCATION".data true, .cls isPySpace 0 none, .opt [':'] false,
     .eolMulti]],
   [[.lit "EDUCATION".data true, .cls isPySpace 0 none, .opt [':'] false]],
   [[.lit "EDUCATION".data true, .bnd]],
   [[.lit "ACADEMIC BACKGROUND".data true, .cls isPySpace 0 none,
     .opt [':'] false]],
   [[.lit "QUALIFICATION".data true, .opt ['S'] true, .cls isPySpace 0 none,
     .opt [':'] false]],
   [[.lit "ACADEMIC".data true, .cls isPySpace 0 none, .lit "RECORD".data true,
     .bnd]],
   [[.lit "Education".data true, .cls isPySpace 0 none, .lit "Details".data true,
     .bnd]],
   [[.lit "Education".data true, .cls isPySpace 0 none,
     .lit "background".data true, .bnd]]]

/-- The degree/certificate keyword fallback patterns (lines 352–356),
searched with `re.IGNORECASE`, in order. -/
def eduDegreeFallbackPats : List RePat :=
  [[[.lit "B.E".data true, .opt ['.'] false],
    [.lit "B.Tech".data true, .opt ['.'] false],
    [.lit "M.Tech".data true, .opt ['.'] false],
    [.lit "Bachelor of Engineering".data true],
    [.lit "Bachelor of Technology".data true]],
   [[.lit "SSLC".data true], [.lit "SSC".data true], [.lit "CBSE".data true],
    [.lit "ICSE".data true], [.lit "Higher Secondary".data true],
    [.lit "Pre-University".data true]],
   [[.lit "CGPA".data true], [.lit "Cumulative".data true],
    [.lit "Grade".data true], [.lit "Percentage".data true]]]

/-- The synthetic section start: the start of the line containing
position `b` (`text.rfind('\n', 0, b)` plus one, or zero). -/
def lineStartBefore (text : List Char) (b : Nat) : Nat :=
  match lastIdx '\n' (text.take b) with
  | none => 0
  | some k => k + 1

/-- The position after the located education-section start: the end of
the first matching header pattern, or the start of the line holding the
first degree-keyword match (a synthetic zero-width match), if either
exists (lines 342–375). -/
def eduStartEnd (text : List Char) : Option Nat :=
  match education_start_patterns.findSome? (fun pat => reSearch text pat) with
  | some ae => some ae.2
  | none =>
    match eduDegreeFallbackPats.findSome? (fun pat => reSearch text pat) with
    | some ae => some (lineStartBefore text ae.1)
    | none => none

/-- One alternation branch of the education "next section" headers. -/
def eduNextAlts : List (List Tok) :=
  [[.lit "SKILLS".data true], [.lit "TECHNICAL SKILLS".data true],
   [.lit "PROJECTS".data true], [.lit "INTERNSHIP".data true],
   [.lit "INTERNSHIPS".data true], [.lit "EXPERIENCE".data true],
   [.lit "WORK EXPERIENCE".data true], [.lit "ORGANIZATIONS".data true],
   [.lit "CERTIFICATION".data true], [.lit "CERTIFICATIONS".data true],
   [.lit "PUBLICATIONS".data true], [.lit "ACHIEVEMENTS".data true],
   [.lit "LANGUAGES".data true], [.lit "SUMMARY".data true],
   [.lit "COURSES".data true], [.lit "COURSEWORK".data true],
   [.lit "AREA OF INTERESTS".data true], [.lit "PRESENTATIONS".data true],
   [.lit "TECH".data true, .opt "NICAL".data true, .cls isPySpace 0 none,
    .lit "SKILL".data true, .opt ['S'] true],
   [.lit "DECLARATION".data true], [.lit "PROFESSIONAL EXPERIENCE".data true],
   [.lit "EXTRACURRICULAR".data true], [.lit "LEADERSHIP".data true],
   [.lit "VOLUNTEER".data true], [.lit "AWARDS".data true],
   [.lit "WORKSHOP".data true, .opt ['S'] true],
   [.lit "PERSONAL DETAILS".data true], [.lit "KEY SKILLS".data true],
   [.lit "CAREER OBJECTIVE".data true], [.lit "HARD SKILL".data true],
   [.lit "LANGUAGES KNOWN".data true]]

/-- The four "next section after education" patterns (lines 381–394),
searched with `re.MULTILINE | re.IGNORECASE`. -/
def eduNextSectionPats : List RePat :=
  [eduNextAlts.map fun alt =>
     Tok.bolMulti :: Tok.cls isPySpace 0 none :: alt ++
       [Tok.cls isPySpace 0 none, Tok.opt [':'] false, Tok.eolMulti],
   eduNextAlts.map fun alt =>
     Tok.bolMulti :: alt ++ [Tok.cls isPySpace 0 none, Tok.opt [':'] false],
   [[.bolMulti, .cls isPySpace 0 none, .lit "COURSEWORK".data true,
     .cls isPySpace 0 none, .lit ['/'] false, .cls isPySpace 0 none,
     .lit "SKILLS".data true]],
   [[.lit "MY CONTACT".data true]]]

/-- The visual-break patterns (lines 413–417): blank-line triple,
dash rule, underscore rule. -/
def eduBreakPats : List RePat :=
  [[[.lit ['\n'] false, .cls isPySpace 0 none, .lit ['\n'] false,
     .cls isPySpace 0 none, .lit ['\n'] false]],
   [[.lit ['\n'] false, .cls isPySpace 0 none, .cls (fun c => c = '-') 3 none]],
   [[.lit ['\n'] false, .cls isPySpace 0 none, .cls (fun c => c = '_') 3 none]]]

/-- Full month names. -/
def monthsFull : List String :=
  ["January", "February", "March", "April", "May", "June", "July", "August",
   "September", "October", "November", "December"]

/-- The timeline marker pattern (line 430): full month name, year, dash
(under `re.IGNORECASE`). -/
def eduTimelinePat : RePat :=
  monthsFull.map fun m =>
    [Tok.lit m.data true, Tok.cls isPySpace 1 none,
     Tok.cls Char.isDigit 4 (some 4), Tok.cls isPySpace 0 none,
     Tok.cls (fun c => c = '-' || c = '–') 1 (some 1),
     Tok.cls isPySpace 0 none]

/-- The bounded 20-line fallback (lines 441–458): stop before a second
consecutive blank line. -/
def eduTwentyGo : List (List Char) → Nat → List (List Char)
  | [], _ => []
  | l :: rest, blank =>
    if (pyStrip l).isEmpty then
      if 2 ≤ blank + 1 then []
      else l :: eduTwentyGo rest (blank + 1)
    else l :: eduTwentyGo rest 0

/-- The minimum start position over a pattern list (ties and priority
are immaterial: only the position is used). -/
def minStart (s : List Char) (pats : List RePat) : Option Nat :=
  (pats.filterMap fun pat => (reSearch s pat).map Prod.fst).min?

/-- The education-section carving after the start (lines 396–458). -/
def eduSection (et : List Char) : List Char :=
  match minStart et eduNextSectionPats with
  | some pos => pyStrip (et.take pos)
  | none =>
    match minStart et eduBreakPats with
    | some brk => pyStrip (et.take brk)
    | none =>
      match reSearch et eduTimelinePat with
      | some ae =>
        let endPos := match findSubFrom ['\n', '\n'] et ae.1 with
          | some k => k
          | none => min (ae.1 + 250) et.length
        pyStrip (et.take endPos)
      | none =>
        let lines := splitNl et
        pyStrip (joinNl (eduTwentyGo (lines.take (min 20 lines.length)) 0))

/-- The education keyword list (lines 461–470). -/
def education_keywords : List String :=
  ["B.E", "B.Tech", "M.Tech", "Bachelor", "Master", "Ph.D", "Degree",
   "University", "Institute", "College", "School", "GPA", "CGPA",
   "Engineering", "Sciences", "Arts", "Commerce", "Diploma", "H.S.C", "S.S.C",
   "Secondary", "HSC", "SSLC", "Class 12", "Class 10", "High School",
   "ICSE", "CBSE", "State Board", "Percentage", "Sr. Secondary", "Grade",
   "Jyothi high school", "Government polytechnic", "CREC", "DMI College",
   "Pre-University Course", "Mvj college", "St. Jhon's English Medium",
   "Cumulative", "Pass percentage"]

end ARS

namespace ARS

/-! ## Education entry segmentation: strategies and special cases -/

/-- `re.search(r"B\.E\..*Engineering.*\d{4}\s*-\s*\d{4}", s,
re.IGNORECASE | re.DOTALL)` as existence: in-order occurrences. -/
def yrDashYrPat : RePat :=
  [[.cls Char.isDigit 4 (some 4), .cls isPySpace 0 none, .lit ['-'] false,
    .cls isPySpace 0 none, .cls Char.isDigit 4 (some 4)]]

/-- Existence of the `B.E. ... Engineering ... YYYY - YYYY` chain. -/
def eduSpecialFormat (s : List Char) : Bool :=
  match firstHit (fun i => ciAt "B.E.".data s i) 0 (s.length + 1) with
  | none => false
  | some a =>
    match firstHit (fun i => ciAt "Engineering".data s i) (a + 4)
        (s.length + 1 - (a + 4)) with
    | none => false
    | some b => (reSearchFrom s yrDashYrPat (b + 11)).isSome

/-- The class `[A-Za-z\. &]`. -/
def degG1Char (c : Char) : Bool :=
  c.isAlpha || c = '.' || c = ' ' || c = '&'

/-- The class `[A-Za-z\d ]`. -/
def degG2Char (c : Char) : Bool := c.isAlphanum || c = ' '

/-- `(?:January|...|December)?` as a case-sensitive alternation with an
empty final choice. -/
def optMonthAltsCS : List (List Tok) :=
  (monthsFull.map fun m => [Tok.lit m.data false]) ++ ([[]] : List (List Tok))

/-- Group 3 of the degree-triple pattern (line 479): optional full
month, year, dash, optional full month, year; or a bare year range
(case-sensitive: the `findall` has no `re.IGNORECASE`). -/
def degG3Pat : RePat :=
  (patCross optMonthAltsCS
    (optMonthAltsCS.map
      fun m2 =>
        Tok.cls isPySpace 0 none :: Tok.cls Char.isDigit 4 (some 4) ::
          Tok.cls isPySpace 0 none :: Tok.lit ['-'] false ::
          Tok.cls isPySpace 0 none :: m2 ++
          [Tok.cls isPySpace 0 none, Tok.cls Char.isDigit 4 (some 4)])) ++
  [[Tok.cls Char.isDigit 4 (some 4), Tok.cls isPySpace 0 none,
    Tok.lit ['-'] false, Tok.cls isPySpace 0 none,
    Tok.cls Char.isDigit 4 (some 4)]]

/-- One degree triple `([A-Za-z\. &]+)\n([A-Za-z\d ]+)\n(dates)` matched
at `i` (deterministic: newline terminates each greedy run). -/
def degTripleAt (s : List Char) (i : Nat) :
    Option (List Char × List Char × List Char × Nat) :=
  let r1 := countWhile degG1Char s i
  if r1 = 0 then none
  else if charAt s (i + r1) = some '\n' then
    let j := i + r1 + 1
    let r2 := countWhile degG2Char s j
    if r2 = 0 then none
    else if charAt s (j + r2) = some '\n' then
      let k := j + r2 + 1
      match reMatchEnd s degG3Pat k with
      | some e => some (slice s i (i + r1), slice s j (j + r2), slice s k e, e)
      | none => none
    else none
  else none

/-- `re.findall` of the degree-triple pattern: non-overlapping matches
left to right. -/
def degTriplesAux (s : List Char) : Nat → Nat →
    List (List Char × List Char × List Char)
  | 0, _ => []
  | fuel + 1, pos =>
    match firstHit (fun i => (degTripleAt s i).isSome) pos
        (s.length + 1 - pos) with
    | none => []
    | some i =>
      match degTripleAt s i with
      | some (g1, g2, g3, e) =>
        (g1, g2, g3) :: degTriplesAux s fuel (max e (i + 1))
      | none => []

/-- All degree triples of a section. -/
def degTriples (s : List Char) : List (List Char × List Char × List Char) :=
  degTriplesAux s (s.length + 1) 0

/-- The class `[\d\.]`. -/
def digitDot (c : Char) : Bool := c.isDigit || c = '.'

/-- `re.search(r"(CGPA|Percentage|Pass percentage)[^\d]*([\d\.]+)(?:\/(\d+))?",
s, re.IGNORECASE)` at position `p`: the keyword, greedy non-digits with
backtracking, the score run, and an optional `/denominator`. -/
def scoreMatchAt (s : List Char) (p : Nat) :
    Option (List Char × List Char × Option (List Char)) :=
  (["CGPA", "Percentage", "Pass percentage"].map String.data).findSome?
    fun kw =>
      if ciAt kw s p then
        let q := p + kw.length
        let nd := countWhile (fun c => !c.isDigit) s q
        (descRange 0 nd).findSome? fun k =>
          let dd := countWhile digitDot s (q + k)
          if dd = 0 then none
          else
            let score := slice s (q + k) (q + k + dd)
            let denom :=
              if charAt s (q + k + dd) = some '/' then
                let d2 := countWhile Char.isDigit s (q + k + dd + 1)
                if d2 = 0 then none
                else some (slice s (q + k + dd + 1) (q + k + dd + 1 + d2))
              else none
            some (slice s p (p + kw.length), score, denom)
      else none

/-- The leftmost score match of a section. -/
def scoreMatch (s : List Char) :
    Option (List Char × List Char × Option (List Char)) :=
  match firstHit (fun p => (scoreMatchAt s p).isSome) 0 (s.length + 1) with
  | none => none
  | some p => scoreMatchAt s p

/-- The `" with {type} of {score}[/{denom}]"` suffix (lines 484–492). -/
def eduScoreSuffix (s : List Char) : List Char :=
  if containsSubCI "CGPA".data s || containsSubCI "Percentage".data s then
    match scoreMatch s with
    | some (ty, sc, de) =>
      " with ".data ++ ty ++ " of ".data ++ sc ++
        (match de with | some d => '/' :: d | none => [])
    | none => []
  else []

/-- Strategy (a): the structured degree/institution/date triples, each
with the score suffix (lines 476–493). -/
def eduDateEntries (sec : List Char) : List (List Char) :=
  (degTriples sec).map fun g =>
    g.1 ++ " from ".data ++ g.2.1 ++ ", ".data ++ g.2.2 ++ eduScoreSuffix sec

/-- The generic entry markers (lines 498–501), anchored by `re.match`. -/
def entry_markers : List RePat :=
  [[[.cls isPySpace 0 none, .lit ['•'] false]],
   [[.cls isPySpace 0 none, .lit ['-'] false]],
   [[.cls isPySpace 0 none, .lit ['*'] false]],
   [[.cls isPySpace 0 none, .cls Char.isDigit 1 none, .lit ['.'] false]],
   [[.cls (fun c => c.isAlpha || isPySpace c) 1 none, .lit " — ".data false]],
   [[.cls (fun c => c.isAlpha || isPySpace c) 1 none, .lit " - ".data false]]]

/-- `re.match(rf"^\s*{keyword}\b", line, re.IGNORECASE)` for the degree
keywords of line 524. -/
def eduDegreeLineStart (line : List Char) : Bool :=
  (["Bachelor", "Master", "Ph.D", "B.E", "B.Tech", "M.Tech", "HSC", "SSLC",
    "Higher Secondary"] : List String).any fun kw =>
    reMatchHere line [[.cls isPySpace 0 none, .lit kw.data true, .bnd]]

/-- `r"(19|20)\d{2}\s*[-–—]\s*((19|20)\d{2}|present|current|ongoing)"`,
case-sensitive (lines 527 and 614 pass no flags). -/
def yearRangeCS : RePat :=
  patCross
    [[Tok.lit ['1','9'] false, Tok.cls Char.isDigit 2 (some 2)],
     [Tok.lit ['2','0'] false, Tok.cls Char.isDigit 2 (some 2)]]
    ([[Tok.lit ['1','9'] false, Tok.cls Char.isDigit 2 (some 2)],
      [Tok.lit ['2','0'] false, Tok.cls Char.isDigit 2 (some 2)],
      [Tok.lit "present".data false], [Tok.lit "current".data false],
      [Tok.lit "ongoing".data false]].map
      fun r => Tok.cls isPySpace 0 none :: Tok.cls isDashChar 1 (some 1) ::
        Tok.cls isPySpace 0 none :: r)

/-- Case-insensitive substring test of any education keyword
(`kw.lower() in line.lower()`). -/
def eduKwSubstr (line : List Char) : Bool :=
  education_keywords.any fun kw => containsSubCI kw.data line

/-- `" ".join(l.strip() for l in current)`. -/
def joinSpStrip (current : List (List Char)) : List Char :=
  List.intercalate [' '] (current.map pyStrip)

/-- Strategy (b): the marker/degree/year/indent segmentation loop
(lines 503–546).  Blank lines are skipped without touching the state. -/
def eduMarkerGo : List (List Char) → Nat → Int → List (List Char) →
    List (List Char)
  | [], _, _, current =>
    let e := joinSpStrip current
    if current.isEmpty then [] else if e.isEmpty then [] else [e]
  | line :: rest, i, prevInd, current =>
    if (pyStrip line).isEmpty then eduMarkerGo rest (i + 1) prevInd current
    else
      let indent : Int := (line.length : Int) - ((pyLstrip line).length : Int)
      let newE := entry_markers.any (fun m => reMatchHere line m) ||
        eduDegreeLineStart line || reTest line yearRangeCS ||
        (decide (0 ≤ prevInd) && decide (indent ≤ prevInd) && decide (0 < i) &&
          eduKwSubstr line)
      if newE && !current.isEmpty then
        let e := joinSpStrip current
        (if e.isEmpty then [] else [e]) ++ eduMarkerGo rest (i + 1) indent [line]
      else eduMarkerGo rest (i + 1) indent (current ++ [line])

/-- Strategy (b) applied to a section. -/
def eduMarkerEntries (sec : List Char) : List (List Char) :=
  eduMarkerGo (splitNl sec) 0 (-1) []

/-- The Anbarasan-format state loop (lines 551–587): degree lines,
institution lines (`College`/`School`), percentage/CGPA lines. -/
def anbarasanFlush (deg inst perc : List Char) : List (List Char) :=
  if deg.isEmpty then []
  else [deg ++ " from ".data ++ inst ++
    (if perc.isEmpty then [] else " with ".data ++ perc)]

/-- The Anbarasan loop body. -/
def anbarasanGo : List (List Char) → List Char → List Char → List Char →
    List (List Char)
  | [], deg, inst, perc => anbarasanFlush deg inst perc
  | line :: rest, deg, inst, perc =>
    if (pyStrip line).isEmpty then anbarasanGo rest deg inst perc
    else if containsSub "Bachelor".data line ||
        containsSub "Engineering".data line ||
        containsSub "Higher Secondary".data line ||
        containsSub "SSLC".data line then
      anbarasanFlush deg inst perc ++ anbarasanGo rest (pyStrip line) [] []
    else if containsSub "College".data line || containsSub "School".data line
    then anbarasanGo rest deg (pyStrip line) perc
    else if containsSubCI "percentage".data line ||
        containsSubCI "cgpa".data line then
      anbarasanGo rest deg inst (pyStrip line)
    else anbarasanGo rest deg inst perc

/-- Strategy (c): the Anbarasan format (lines 548–587). -/
def anbarasanEntries (sec : List Char) : List (List Char) :=
  anbarasanGo (splitNl sec) [] [] []

/-- A line bearing some education keyword as a `\b`-delimited
case-insensitive match. -/
def eduKwLine (line : List Char) : Bool :=
  education_keywords.any fun kw => containsWordCI kw.data line

/-- Entry validation (lines 608–617): education keyword, institution
word, year range, or score keyword. -/
def eduValidEntry (entry : List Char) : Bool :=
  eduKwLine entry ||
  (containsSubCI "university".data entry ||
   containsSubCI "college".data entry ||
   containsSubCI "institute".data entry ||
   containsSubCI "school".data entry) ||
  reTest entry yearRangeCS ||
  (containsSubCI "percentage".data entry || containsSubCI "cgpa".data entry)

/-- The keyword-adjacency reconstruction loop (lines 624–638). -/
def reconstructGo : List (List Char) → List (List Char) → List (List Char)
  | [], current => if current.isEmpty then [] else [joinSpStrip current]
  | line :: rest, current =>
    if eduKwSubstr line then
      if !current.isEmpty && eduKwSubstr (joinSpStrip current) then
        joinSpStrip current :: reconstructGo rest [pyStrip line]
      else reconstructGo rest (current ++ [pyStrip line])
    else if !current.isEmpty then reconstructGo rest (current ++ [pyStrip line])
    else reconstructGo rest current

/-- The reconstruction pass on the section's nonblank lines. -/
def reconstructEntries (sec : List Char) : List (List Char) :=
  reconstructGo ((splitNl sec).filter fun l => !(pyStrip l).isEmpty) []

end ARS

namespace ARS

/-! ## Education special cases (lines 643–760) and the main extractor -/

/-- `r"\d{4}\s*[-–]\s*\d{4}"` (line 723). -/
def yearRange2Pat : RePat :=
  [[.cls Char.isDigit 4 (some 4), .cls isPySpace 0 none,
    .cls (fun c => c = '-' || c = '–') 1 (some 1), .cls isPySpace 0 none,
    .cls Char.isDigit 4 (some 4)]]

/-- The Mounesh degree patterns (lines 645–649, `re.IGNORECASE`). -/
def mouneshPats : List RePat :=
  [[[.lit "BE".data true, .cls isPySpace 0 none,
     .cls (fun c => c = '–' || c = '-') 1 (some 1), .cls isPySpace 0 none,
     .cls isWordChar 1 none, .cls isPySpace 0 none,
     .lit "Engineering".data true]],
   [[.lit "Pre-University Course".data true]],
   [[.lit "SSLC".data true]]]

/-- One Mounesh entry from a match span (lines 653–681). -/
def mouneshEntryOf (sec : List Char) (span : Nat × Nat) : List Char :=
  let degreeLine := slice sec span.1 span.2
  let endPos := match findSubFrom ['\n', '\n'] sec span.1 with
    | some k => k
    | none => min (span.1 + 200) sec.length
  let ctx := slice sec span.1 endPos
  let lines3 := (((splitNl ctx).map pyStrip).filter fun l => !l.isEmpty).take 3
  let ip := (lines3.drop 1).foldl
    (fun (ip : List Char × List Char) line =>
      if containsSub "college".data (lowerStr line) ||
          containsSub "school".data (lowerStr line) ||
          containsSub "university".data (lowerStr line) then (line, ip.2)
      else if containsSub "percentage".data (lowerStr line) ||
          containsSub "cgpa".data (lowerStr line) ||
          containsSub ['%'] line then (ip.1, line)
      else ip) ([], [])
  degreeLine ++ (if ip.1.isEmpty then [] else " from ".data ++ ip.1) ++
    (if ip.2.isEmpty then [] else " with ".data ++ ip.2)

/-- The Mounesh pass: all matches of all three patterns. -/
def mouneshEntries (sec : List Char) : List (List Char) :=
  mouneshPats.flatMap fun pat => (reFindAll sec pat).map (mouneshEntryOf sec)

/-- The `ACADEMIC RECORD` pass (lines 683–734). -/
def academicRecordEntries (text : List Char) : List (List Char) :=
  let pieces := reSplit text [[Tok.lit "ACADEMIC RECORD".data true]]
  let acad0 := pieces.getD 1 []
  let cuts := [findSubFrom "MY CONTACT".data acad0 0,
    findSubFrom "CERTIFICATION".data acad0 0,
    findSubFrom "PROJECT".data acad0 0].filterMap id
  let endPos := cuts.foldl min acad0.length
  let acad := pyStrip (acad0.take endPos)
  (["Bachelor of Engineering", "Higher Secondary", "SSLC"] :
      List String).filterMap fun degree =>
    match findSubFrom degree.data acad 0 with
    | none => none
    | some dpos =>
      let edp := match findSubFrom ['\n', '\n'] acad dpos with
        | some k => k
        | none => min (dpos + 200) acad.length
      let dlines := (((splitNl (pyStrip (slice acad dpos edp))).map
        pyStrip).filter fun l => !l.isEmpty)
      let ipy := (dlines.drop 1).foldl
        (fun (ipy : List Char × List Char × List Char) line =>
          if containsSub "college".data (lowerStr line) ||
              containsSub "school".data (lowerStr line) then
            (line, ipy.2.1, ipy.2.2)
          else if containsSub "percentage".data (lowerStr line) ||
              containsSub "grade".data (lowerStr line) ||
              containsSub ['%'] line then (ipy.1, line, ipy.2.2)
          else if reTest line yearRange2Pat then (ipy.1, ipy.2.1, line)
          else ipy) ([], [], [])
      some (degree.data ++
        (if ipy.1.isEmpty then [] else " from ".data ++ ipy.1) ++
        (if ipy.2.2.isEmpty then [] else " (".data ++ ipy.2.2 ++ [')']) ++
        (if ipy.2.1.isEmpty then [] else " with ".data ++ ipy.2.1))

/-- `([A-Za-z]+\s+\d{4}\s*-\s*[A-Za-z]+\s+\d{4})` anchored at `q`
(deterministic: the classes are disjoint), returning the end. -/
def pvgPeriodAt (t : List Char) (q : Nat) : Option Nat :=
  let a1 := countWhile Char.isAlpha t q
  if a1 = 0 then none
  else
    let w1 := countWhile isPySpace t (q + a1)
    if w1 = 0 then none
    else
      let p1 := q + a1 + w1
      if countWhile Char.isDigit t p1 < 4 then none
      else
        let p2 := p1 + 4
        let w2 := countWhile isPySpace t p2
        if charAt t (p2 + w2) = some '-' then
          let p3 := p2 + w2 + 1
          let w3 := countWhile isPySpace t p3
          let a2 := countWhile Char.isAlpha t (p3 + w3)
          if a2 = 0 then none
          else
            let w4 := countWhile isPySpace t (p3 + w3 + a2)
            if w4 = 0 then none
            else
              let p4 := p3 + w3 + a2 + w4
              if countWhile Char.isDigit t p4 < 4 then none
              else some (p4 + 4)
        else none

/-- The PV Guru `B.E.` pattern (line 742) at position `p`, with Python's
backtracking over `\w+\s*&?\s*\w*` and `[^0-9]*`, returning the groups
(branch, college, period, cgpa, scale). -/
def pvgBeAt (t : List Char) (p : Nat) :
    Option (List Char × List Char × List Char × List Char × List Char) :=
  if exAt "B.E.".data t p then
    let q0 := p + 4
    (descRange 1 (countWhile isWordChar t q0)).findSome? fun k1 =>
      let q1 := q0 + k1
      (descRange 0 (countWhile isPySpace t q1)).findSome? fun w1 =>
        let q2 := q1 + w1
        ((if charAt t q2 = some '&' then [1, 0] else [0]) :
            List Nat).findSome? fun amp =>
          let q3 := q2 + amp
          (descRange 0 (countWhile isPySpace t q3)).findSome? fun w2 =>
            let q4 := q3 + w2
            (descRange 0 (countWhile isWordChar t q4)).findSome? fun k2 =>
              let q5 := q4 + k2
              (descRange 0 (countWhile isPySpace t q5)).findSome? fun w3 =>
                let q6 := q5 + w3
                if exAt "Engineering\n".data t q6 then
                  let q7 := q6 + 12
                  (descRange 1 (countWhile
                    (fun c => c.isAlpha || isPySpace c) t q7)).findSome?
                    fun k3 =>
                    if charAt t (q7 + k3) = some '\n' then
                      let q8 := q7 + k3 + 1
                      (pvgPeriodAt t q8).bind fun pe =>
                        if exAt "\nCumulative CGPA".data t pe then
                          let q9 := pe + 16
                          (descRange 0 (countWhile (fun c => !c.isDigit) t
                              q9)).findSome? fun k4 =>
                            let dd := countWhile digitDot t (q9 + k4)
                            if dd = 0 then none
                            else if charAt t (q9 + k4 + dd) = some '/' then
                              let d2 := countWhile digitDot t (q9 + k4 + dd + 1)
                              if d2 = 0 then none
                              else some (slice t q0 q5,
                                slice t q7 (q7 + k3), slice t q8 pe,
                                slice t (q9 + k4) (q9 + k4 + dd),
                                slice t (q9 + k4 + dd + 1)
                                  (q9 + k4 + dd + 1 + d2))
                            else none
                        else none
                    else none
                else none
  else none

/-- The PV Guru `Diploma` pattern (line 749) at `p`. -/
def pvgDiplomaAt (t : List Char) (p : Nat) :
    Option (List Char × List Char) :=
  if exAt "Diploma\n".data t p then
    let q := p + 8
    (descRange 1 (countWhile (fun c => c.isAlpha || isPySpace c) t
        q)).findSome? fun k =>
      if exAt "\nPass percentage of ".data t (q + k) then
        let q2 := q + k + 20
        let dd := countWhile digitDot t q2
        if dd = 0 then none
        else if charAt t (q2 + dd) = some '%' then
          some (slice t q (q + k), slice t q2 (q2 + dd))
        else none
      else none
  else none

/-- The PV Guru `SSLC` pattern (line 756) at `p`. -/
def pvgSslcAt (t : List Char) (p : Nat) :
    Option (List Char × List Char × List Char) :=
  if exAt "SSLC\n".data t p then
    let q := p + 5
    (descRange 1 (countWhile
        (fun c => c.isAlpha || isPySpace c || c = ',') t q)).findSome? fun k =>
      if exAt "\nWith CGPA of ".data t (q + k) then
        let q2 := q + k + 14
        let dd := countWhile digitDot t q2
        if dd = 0 then none
        else if charAt t (q2 + dd) = some '/' then
          let d2 := countWhile digitDot t (q2 + dd + 1)
          if d2 = 0 then none
          else some (slice t q (q + k), slice t q2 (q2 + dd),
            slice t (q2 + dd + 1) (q2 + dd + 1 + d2))
        else none
      else none
  else none

/-- The leftmost match of a positional matcher. -/
def firstPos (f : Nat → Bool) (len : Nat) : Option Nat :=
  firstHit f 0 (len + 1)

/-- The PV Guru pass (lines 736–760). -/
def pvgEntries (text : List Char) : List (List Char) :=
  let be := match firstPos (fun p => (pvgBeAt text p).isSome) text.length with
    | some p =>
      match pvgBeAt text p with
      | some g => ["B.E. ".data ++ g.1 ++ " Engineering from ".data ++ g.2.1 ++
          " (".data ++ g.2.2.1 ++ ") with CGPA ".data ++ g.2.2.2.1 ++ ['/'] ++
          g.2.2.2.2]
      | none => []
    | none => []
  let dip := match firstPos (fun p => (pvgDiplomaAt text p).isSome)
      text.length with
    | some p =>
      match pvgDiplomaAt text p with
      | some g => ["Diploma from ".data ++ g.1 ++
          " with Pass percentage of ".data ++ g.2 ++ ['%']]
      | none => []
    | none => []
  let ss := match firstPos (fun p => (pvgSslcAt text p).isSome) text.length with
    | some p =>
      match pvgSslcAt text p with
      | some g => ["SSLC from ".data ++ g.1 ++ " with CGPA of ".data ++
          g.2.1 ++ ['/'] ++ g.2.2]
      | none => []
    | none => []
  be ++ dip ++ ss

/-- `extract_education(text)` (lines 328–763): section discovery with
degree-keyword fallback, section carving, the strategy waterfall,
validation, and the special-case passes. -/
def extract_education (textS : String) : List String :=
  let text := textS.data
  match eduStartEnd text with
  | none => []
  | some stEnd =>
    let education_section := eduSection (text.drop stEnd)
    let e1 := if eduSpecialFormat education_section then
        eduDateEntries education_section
      else []
    let e2 := if e1.isEmpty then eduMarkerEntries education_section else e1
    let e3 := if e2.isEmpty &&
        (containsSubCI "Bachelor of Engineering".data education_section ||
         containsSubCI "Higher Secondary".data education_section ||
         containsSubCI "SSLC".data education_section) then
        let a := anbarasanEntries education_section
        if a.isEmpty then e2 else a
      else e2
    let e4 := if e3.isEmpty then
        (splitNl education_section).filterMap fun l =>
          if eduKwLine l then some (pyStrip l) else none
      else e3
    let e5 := if e4.isEmpty then
        ((reSplit education_section nlWsNlPat).filterMap fun p =>
          let p2 := pyStrip p
          if p2.isEmpty then none
          else if eduKwLine p2 then
            some (pyStrip (replaceChar '\n' ' ' p2))
          else none)
      else e4
    let e6 := if e5.isEmpty then
        [pyStrip (replaceChar '\n' ' ' education_section)]
      else e5
    let v1 := e6.filter eduValidEntry
    let v2 := if v1.isEmpty && !education_section.isEmpty then
        let c := reconstructEntries education_section
        if c.isEmpty then v1 else c
      else v1
    let v3 := if v2.isEmpty then v2 ++ mouneshEntries education_section else v2
    let v4 := if v3.isEmpty && containsSubCI "ACADEMIC RECORD".data text then
        v3 ++ academicRecordEntries text
      else v3
    let pvg := v4.isEmpty && containsSub "B.E.Electrical".data text
    let v5 := if pvg then pvgEntries text else v4
    if v5.isEmpty then
      if pvg then [] else e6.map String.mk
    else v5.map String.mk

end ARS

namespace ARS

/-! ## The parsed profile and the ATS scorer -/

/-- The `parsed_data` dict assembled by the upload handler
(lines 1173–1178). -/
structure ParsedData where
  contact_details : Contact
  education : List String
  experience : List String
  skills : List String
deriving Repr, DecidableEq

/-- The score report returned by `generate_ats_score`. -/
structure AtsScore where
  score : Nat
  max_score : Nat
  percentage : String
deriving Repr, DecidableEq

/-- `generate_ats_score(parsed_data)` (lines 1112–1141): sequential
accumulation, then the fixed maximum and the percentage string. -/
def generate_ats_score (parsed_data : ParsedData) : AtsScore :=
  let score0 : Nat := 0
  let score1 := if parsed_data.contact_details.Name ≠ "Not Found" then
    score0 + 10 else score0
  let score2 := if parsed_data.contact_details.Email ≠ "Not Found" then
    score1 + 10 else score1
  let score3 := if parsed_data.contact_details.Phone ≠ "Not Found" then
    score2 + 10 else score2
  let score4 := if parsed_data.education ≠ [] ∧
    0 < parsed_data.education.length then score3 + 20 else score3
  let score5 := if parsed_data.experience ≠ [] ∧
    0 < parsed_data.experience.length then score4 + 25 else score4
  let score6 := if parsed_data.skills ≠ [] ∧
    0 < parsed_data.skills.length then score5 + 25 else score5
  { score := score6, max_score := 100, percentage := toString score6 ++ "%" }

/-- The per-document analysis of the upload handler (lines 1173–1178):
the four extractors applied independently to the same text. -/
def analyze (phoneLib : String → Option String) (text filename : String) :
    ParsedData :=
  { contact_details := extract_contact_details phoneLib text filename
    education := extract_education text
    experience := extract_experience text
    skills := extract_skills text }

/-- Specification-side predicate: an instance of the e-mail pattern
`[a-zA-Z0-9._%+-]+@[a-zA-Z0-9.-]+\.[a-zA-Z]{2,}` begins at position `i`
of `s`: a nonempty local-character run `[i, j)`, an `@` at `j`, a
nonempty domain-character run `(j, k)`, a dot at `k`, and at least two
letters right after the dot. -/
def emailShapeAt (s : List Char) (i : Nat) : Bool :=
  (List.range (s.length + 1)).any fun j =>
    decide (i < j) && (slice s i j).all localChar && (charAt s j == some '@') &&
    ((List.range (s.length + 1)).any fun k =>
      decide (j + 1 < k) && (slice s (j + 1) k).all domainChar &&
      (charAt s k == some '.') &&
      decide (2 ≤ ((s.drop (k + 1)).takeWhile Char.isAlpha).length))

/-- Exactly one field upgraded from absent (`"Not Found"` / empty list)
to present, all others unchanged. -/
def FieldUpgrade (p q : ParsedData) : Prop :=
  (∃ v, v ≠ "Not Found" ∧ p.contact_details.Name = "Not Found" ∧
    q = { p with contact_details := { p.contact_details with Name := v } }) ∨
  (∃ v, v ≠ "Not Found" ∧ p.contact_details.Email = "Not Found" ∧
    q = { p with contact_details := { p.contact_details with Email := v } }) ∨
  (∃ v, v ≠ "Not Found" ∧ p.contact_details.Phone = "Not Found" ∧
    q = { p with contact_details := { p.contact_details with Phone := v } }) ∨
  (∃ v, v ≠ "Not Found" ∧ p.contact_details.Location = "Not Found" ∧
    q = { p with contact_details :=
      { p.contact_details with Location := v } }) ∨
  (∃ l, l ≠ ([] : List String) ∧ p.education = [] ∧
    q = { p with education := l }) ∨
  (∃ l, l ≠ ([] : List String) ∧ p.experience = [] ∧
    q = { p with experience := l }) ∨
  (∃ l, l ≠ ([] : List String) ∧ p.skills = [] ∧
    q = { p with skills := l })

/-- Minimal number of characters one token consumes. -/
def minTok : Tok → Nat
  | .lit w _ => w.length
  | .opt _ _ => 0
  | .cls _ mn _ => mn
  | _ => 0

/-- Minimal number of characters a token sequence consumes. -/
def minToks (ts : List Tok) : Nat := (ts.map minTok).sum

end ARS

namespace ARS

/-! ## Basic lemmas about the string utilities -/

theorem splitNl_ne_nil (s : List Char) : splitNl s ≠ [] := by
  induction s with
  | nil => simp [splitNl]
  | cons c t ih =>
    simp only [splitNl]
    split
    · simp
    · cases h : splitNl t <;> simp

theorem joinNl_splitNl (s : List Char) : joinNl (splitNl s) = s := by
  induction s with
  | nil => rfl
  | cons c t ih =>
    simp only [splitNl]
    split
    · rename_i hc
      subst hc
      cases h : splitNl t with
      | nil => exact absurd h (splitNl_ne_nil t)
      | cons a r => rw [h] at ih; simp [joinNl, ih]
    · cases h : splitNl t with
      | nil => exact absurd h (splitNl_ne_nil t)
      | cons a r =>
        rw [h] at ih
        cases r with
        | nil => simpa [joinNl] using ih
        | cons b r2 => simpa [joinNl] using ih

theorem firstHit_eq_none {p : Nat → Bool} {start fuel : Nat}
    (h : firstHit p start fuel = none) :
    ∀ k, start ≤ k → k < start + fuel → p k = false := by
  induction fuel generalizing start with
  | zero => omega
  | succ n ih =>
    intro k hk1 hk2
    simp only [firstHit] at h
    split at h
    · exact absurd h (by simp)
    · rename_i hp
      rcases Nat.eq_or_lt_of_le hk1 with rfl | hlt
      · simpa using hp
      · exact ih h k hlt (by omega)

theorem firstHit_eq_some {p : Nat → Bool} {start fuel i : Nat}
    (h : firstHit p start fuel = some i) :
    p i = true ∧ start ≤ i ∧ i < start + fuel ∧
      ∀ k, start ≤ k → k < i → p k = false := by
  induction fuel generalizing start with
  | zero => simp [firstHit] at h
  | succ n ih =>
    simp only [firstHit] at h
    split at h
    · rename_i hp
      cases h
      exact ⟨hp, Nat.le_refl _, by omega, fun k hk1 hk2 => by omega⟩
    · rename_i hp
      obtain ⟨h1, h2, h3, h4⟩ := ih h
      refine ⟨h1, by omega, by omega, fun k hk1 hk2 => ?_⟩
      rcases Nat.eq_or_lt_of_le hk1 with rfl | hlt
      · simpa using hp
      · exact h4 k hlt hk2

theorem firstHit_of_hit {p : Nat → Bool} {start fuel k : Nat}
    (hk1 : start ≤ k) (hk2 : k < start + fuel) (hp : p k = true) :
    ∃ i, firstHit p start fuel = some i := by
  cases h : firstHit p start fuel with
  | some i => exact ⟨i, rfl⟩
  | none => exact absurd hp (by simp [firstHit_eq_none h k hk1 hk2])
end ARS

namespace ARS

/-! ## The scorer: C2, C8 -/

/-- The accumulated score as a closed-form weighted sum. -/
theorem generate_ats_score_score (p : ParsedData) :
    (generate_ats_score p).score =
      (if p.contact_details.Name ≠ "Not Found" then 10 else 0) +
      (if p.contact_details.Email ≠ "Not Found" then 10 else 0) +
      (if p.contact_details.Phone ≠ "Not Found" then 10 else 0) +
      (if p.education ≠ [] then 20 else 0) +
      (if p.experience ≠ [] then 25 else 0) +
      (if p.skills ≠ [] then 25 else 0) := by
  unfold generate_ats_score
  by_cases h1 : p.contact_details.Name = "Not Found" <;>
    by_cases h2 : p.contact_details.Email = "Not Found" <;>
      by_cases h3 : p.contact_details.Phone = "Not Found" <;>
        by_cases h4 : p.education = [] <;>
          by_cases h5 : p.experience = [] <;>
            by_cases h6 : p.skills = [] <;>
              simp [h1, h2, h3, h4, h5, h6, List.length_pos]

/-- C2: for every parsed-data record, `generate_ats_score` returns the
weighted sum (+10 for each present contact Name/Email/Phone, +20 for a
nonempty education list, +25 each for nonempty experience and skills),
`max_score` is always 100, and `percentage` is the decimal score
followed by a percent sign. -/
theorem C2_ats_score_weighted_sum (p : ParsedData) :
    generate_ats_score p =
      { score :=
          (if p.contact_details.Name ≠ "Not Found" then 10 else 0) +
          (if p.contact_details.Email ≠ "Not Found" then 10 else 0) +
          (if p.contact_details.Phone ≠ "Not Found" then 10 else 0) +
          (if p.education ≠ [] then 20 else 0) +
          (if p.experience ≠ [] then 25 else 0) +
          (if p.skills ≠ [] then 25 else 0),
        max_score := 100,
        percentage := toString
          ((if p.contact_details.Name ≠ "Not Found" then 10 else 0) +
           (if p.contact_details.Email ≠ "Not Found" then 10 else 0) +
           (if p.contact_details.Phone ≠ "Not Found" then 10 else 0) +
           (if p.education ≠ [] then 20 else 0) +
           (if p.experience ≠ [] then 25 else 0) +
           (if p.skills ≠ [] then 25 else 0)) ++ "%" } := by
  have hs := generate_ats_score_score p
  have hshape : generate_ats_score p =
      ⟨(generate_ats_score p).score, 100,
        toString (generate_ats_score p).score ++ "%"⟩ := rfl
  rw [hshape, hs]

/-- C8: scoring is monotonic: upgrading exactly one field of a
parsed-data record from absent to present never decreases the score
returned by `generate_ats_score`. -/
theorem C8_ats_score_monotonic (p q : ParsedData) (h : FieldUpgrade p q) :
    (generate_ats_score p).score ≤ (generate_ats_score q).score := by
  have hp := generate_ats_score_score p
  have hq := generate_ats_score_score q
  rcases h with ⟨v, hv, hnf, rfl⟩ | ⟨v, hv, hnf, rfl⟩ | ⟨v, hv, hnf, rfl⟩ |
    ⟨v, hv, hnf, rfl⟩ | ⟨v, hv, hnf, rfl⟩ | ⟨v, hv, hnf, rfl⟩ |
    ⟨v, hv, hnf, rfl⟩ <;>
  · rw [hp, hq]
    try simp only [hnf]
    try simp [hv]
    try omega

/-- C8 applied at a concrete pair: adding an education entry to an
otherwise-empty profile raises the score (10 stays ≤ 30). -/
theorem C8_ats_score_monotonic_witness :
    (generate_ats_score
      ⟨⟨"Jane Doe", "Not Found", "Not Found", "Not Found"⟩, [], [], []⟩).score ≤
    (generate_ats_score
      ⟨⟨"Jane Doe", "Not Found", "Not Found", "Not Found"⟩,
        ["BSc"], [], []⟩).score :=
  C8_ats_score_monotonic _ _
    (Or.inr (Or.inr (Or.inr (Or.inr (Or.inl ⟨["BSc"], by decide, rfl, rfl⟩)))))

/-! ## `process_resume`: C9 -/

/-- C9 (implicit): `process_resume` returns exactly one of three
shapes: the no-section sentinel string, the no-entries sentinel string
(the undocumented second terminal state), or a nonempty list of
experience strings — never an empty list. -/
theorem C9_process_resume_trichotomy (text : String) :
    process_resume text = Sum.inl "No experience section found in the resume."
    ∨ process_resume text =
        Sum.inl "No work experience entries found in the resume."
    ∨ ∃ l, l ≠ [] ∧ process_resume text = Sum.inr l := by
  unfold process_resume
  by_cases hw : has_work_experience_section text = true
  · rw [if_pos hw]
    cases hx : extract_experience text with
    | nil => right; left; rfl
    | cons a t =>
      right; right
      exact ⟨a :: t, by simp, rfl⟩
  · rw [if_neg hw]
    left
    rfl

end ARS

namespace ARS

/-! ## The section locator: C6 -/

/-- `firstHit` returns exactly the least in-window index satisfying
the predicate. -/
theorem firstHit_eq_of {p : Nat → Bool} {start fuel k : Nat}
    (hk1 : start ≤ k) (hk2 : k < start + fuel) (hp : p k = true)
    (hmin : ∀ j, start ≤ j → j < k → p j = false) :
    firstHit p start fuel = some k := by
  cases h : firstHit p start fuel with
  | none => exact absurd hp (by simp [firstHit_eq_none h k hk1 hk2])
  | some i =>
    obtain ⟨h1, h2, h3, h4⟩ := firstHit_eq_some h
    rcases Nat.lt_trichotomy i k with hlt | rfl | hgt
    · exact absurd h1 (by simp [hmin i h2 hlt])
    · rfl
    · exact absurd hp (by simp [h4 k hk1 hgt])

/-- `lineAt` is a member for in-range indices. -/
theorem lineAt_mem {lines : List (List Char)} {i : Nat}
    (h : i < lines.length) : lineAt lines i ∈ lines := by
  unfold lineAt
  rw [List.getD_eq_getElem lines [] h]
  exact List.getElem_mem h

/-- C6: the section locator contract: with no header-bearing line,
`extract_section` returns the empty body and the line count as a
"not found" sentinel; otherwise it returns exactly the lines strictly
between the first header-bearing line and the first subsequent line
bearing a remaining "next section" header (the fixed list minus the
requested headers, compared case-insensitively), rejoined with
newlines — to the end of the document when no such boundary exists. -/
theorem C6_extract_section_contract (text : String)
    (section_headers : List String) :
    ((∀ l ∈ splitNl text.data,
        lineHasHeader section_headers l = false) →
      extract_section text section_headers =
        ("", (splitNl text.data).length)) ∧
    (∀ s, s < (splitNl text.data).length →
      lineHasHeader section_headers (lineAt (splitNl text.data) s) = true →
      (∀ k, k < s →
        lineHasHeader section_headers (lineAt (splitNl text.data) k) = false) →
      ((∀ j, j < (splitNl text.data).length → s < j →
          lineHasHeader (remainingNextHeaders section_headers)
            (lineAt (splitNl text.data) j) = false) →
        extract_section text section_headers =
          (String.mk (joinNl ((splitNl text.data).drop (s + 1))),
            (splitNl text.data).length)) ∧
      (∀ j, s < j → j < (splitNl text.data).length →
        lineHasHeader (remainingNextHeaders section_headers)
          (lineAt (splitNl text.data) j) = true →
        (∀ k, k < j → s < k →
          lineHasHeader (remainingNextHeaders section_headers)
            (lineAt (splitNl text.data) k) = false) →
        extract_section text section_headers =
          (String.mk (joinNl
            (((splitNl text.data).drop (s + 1)).take (j - (s + 1)))), j))) := by
  constructor
  · intro hall
    have hnone : headerLineFrom (splitNl text.data) section_headers 0 = none := by
      cases h : headerLineFrom (splitNl text.data) section_headers 0 with
      | none => rfl
      | some i =>
        obtain ⟨h1, _, h3, _⟩ := firstHit_eq_some h
        have hi : i < (splitNl text.data).length := by omega
        exact absurd h1 (by simp [hall _ (lineAt_mem hi)])
    unfold extract_section
    simp only [hnone]
  · intro s hs hhit hmin
    have hsome : headerLineFrom (splitNl text.data) section_headers 0 = some s :=
      firstHit_eq_of (Nat.zero_le s) (by omega) hhit
        (fun j _ hj => hmin j hj)
    constructor
    · intro hnoend
      have hnone : headerLineFrom (splitNl text.data)
          (remainingNextHeaders section_headers) (s + 1) = none := by
        cases h : headerLineFrom (splitNl text.data)
            (remainingNextHeaders section_headers) (s + 1) with
        | none => rfl
        | some i =>
          obtain ⟨h1, h2, h3, _⟩ := firstHit_eq_some h
          have hi : i < (splitNl text.data).length := by omega
          exact absurd h1 (by simp [hnoend i hi (by omega)])
      unfold extract_section
      simp only [hsome, hnone, Option.getD_none]
      rw [List.take_of_length_le (by simp)]
    · intro j hj1 hj2 hjhit hjmin
      have hsome2 : headerLineFrom (splitNl text.data)
          (remainingNextHeaders section_headers) (s + 1) = some j :=
        firstHit_eq_of (by omega) (by omega) hjhit
          (fun k hk1 hk2 => hjmin k hk2 hk1)
      unfold extract_section
      simp only [hsome, hsome2, Option.getD_some]

/-- C6 applied at concrete inputs: a located section ending at a later
`Education` header, and the not-found sentinel. -/
theorem C6_extract_section_contract_witness :
    extract_section "Intro\nSkills\npython, java\nEducation\nBSc" ["Skills"] =
      ("python, java", 3) ∧
    extract_section "nothing here" ["Skills"] = ("", 1) := by
  constructor
  · have h := ((C6_extract_section_contract
      "Intro\nSkills\npython, java\nEducation\nBSc" ["Skills"]).2 1
      (by decide) (by decide) (by decide)).2 3 (by decide) (by decide)
      (by decide) (by decide)
    exact h.trans (by decide)
  · have h := (C6_extract_section_contract "nothing here" ["Skills"]).1
      (by decide)
    exact h.trans (by decide)

end ARS

namespace ARS

/-! ## The skills extractor: C4 -/

/-- C4: every string returned by `extract_skills` is drawn from the
fixed flattened lowercase keyword taxonomy (the union of the seven
predefined categories); nothing outside the taxonomy is ever
returned. -/
theorem C4_skills_subset_taxonomy (text s : String)
    (h : s ∈ extract_skills text) : s ∈ all_keywords := by
  unfold extract_skills at h
  simp only at h
  split at h <;> (try split at h) <;>
    first
      | exact List.mem_filter.mp (List.mem_dedup.mp h) |>.1
      | exact absurd h (List.not_mem_nil s)

/-- C4 applied at a concrete input: the matched keyword `python` is in
the taxonomy. -/
theorem C4_skills_subset_taxonomy_witness :
    "python" ∈ all_keywords :=
  C4_skills_subset_taxonomy "Skills\nPython" "python" (by decide)

end ARS

namespace ARS

/-! ## Character-case lemmas (ASCII fragment) -/

theorem toNat_ofNat_lt {n : Nat} (h : n < 55296) : (Char.ofNat n).toNat = n := by
  rw [Char.ofNat, dif_pos (Or.inl h)]
  unfold Char.ofNatAux Char.toNat
  rfl

theorem char_eq_iff_toNat {c d : Char} : c = d ↔ c.toNat = d.toNat :=
  ⟨fun h => by rw [h], fun h => Char.ext (UInt32.ext h)⟩

theorem isUpper_iff {c : Char} :
    c.isUpper = true ↔ 65 ≤ c.toNat ∧ c.toNat ≤ 90 := by
  simp only [Char.isUpper, Bool.and_eq_true, decide_eq_true_eq]
  exact ⟨fun h => h, fun h => h⟩

theorem isLower_iff {c : Char} :
    c.isLower = true ↔ 97 ≤ c.toNat ∧ c.toNat ≤ 122 := by
  simp only [Char.isLower, Bool.and_eq_true, decide_eq_true_eq]
  exact ⟨fun h => h, fun h => h⟩

theorem isDigit_iff {c : Char} :
    c.isDigit = true ↔ 48 ≤ c.toNat ∧ c.toNat ≤ 57 := by
  simp only [Char.isDigit, Bool.and_eq_true, decide_eq_true_eq]
  exact ⟨fun h => h, fun h => h⟩

theorem isAlpha_iff {c : Char} :
    c.isAlpha = true ↔
      (65 ≤ c.toNat ∧ c.toNat ≤ 90) ∨ (97 ≤ c.toNat ∧ c.toNat ≤ 122) := by
  simp only [Char.isAlpha, Bool.or_eq_true, isUpper_iff, isLower_iff]

theorem isPySpace_iff {c : Char} :
    isPySpace c = true ↔ c.toNat = 32 ∨ c.toNat = 9 ∨ c.toNat = 10 ∨
      c.toNat = 13 ∨ c.toNat = 11 ∨ c.toNat = 12 := by
  unfold isPySpace
  simp only [Bool.or_eq_true, decide_eq_true_eq, char_eq_iff_toNat]
  rw [show (' ').toNat = 32 from rfl, show ('\t').toNat = 9 from rfl,
    show ('\n').toNat = 10 from rfl, show ('\r').toNat = 13 from rfl,
    show ('\x0b').toNat = 11 from rfl, show ('\x0c').toNat = 12 from rfl]
  tauto

theorem isWordChar_iff {c : Char} :
    isWordChar c = true ↔ (65 ≤ c.toNat ∧ c.toNat ≤ 90) ∨
      (97 ≤ c.toNat ∧ c.toNat ≤ 122) ∨ (48 ≤ c.toNat ∧ c.toNat ≤ 57) ∨
      c.toNat = 95 := by
  unfold isWordChar
  simp only [Bool.or_eq_true, Char.isAlphanum, isAlpha_iff, isDigit_iff,
    decide_eq_true_eq, char_eq_iff_toNat]
  rw [show ('_').toNat = 95 from rfl]
  tauto

theorem lowerChar_spec (c : Char) :
    (65 ≤ c.toNat ∧ c.toNat ≤ 90 ∧ (lowerChar c).toNat = c.toNat + 32) ∨
    (¬(65 ≤ c.toNat ∧ c.toNat ≤ 90) ∧ lowerChar c = c) := by
  unfold lowerChar Char.toLower
  by_cases h : Char.toNat c ≥ 65 ∧ Char.toNat c ≤ 90
  · rw [if_pos h]
    exact Or.inl ⟨h.1, h.2, toNat_ofNat_lt (by omega)⟩
  · rw [if_neg h]
    exact Or.inr ⟨fun hc => h ⟨hc.1, hc.2⟩, rfl⟩

theorem upperChar_spec (c : Char) :
    (97 ≤ c.toNat ∧ c.toNat ≤ 122 ∧ (upperChar c).toNat = c.toNat - 32) ∨
    (¬(97 ≤ c.toNat ∧ c.toNat ≤ 122) ∧ upperChar c = c) := by
  unfold upperChar Char.toUpper
  by_cases h : Char.toNat c ≥ 97 ∧ Char.toNat c ≤ 122
  · rw [if_pos h]
    exact Or.inl ⟨h.1, h.2, toNat_ofNat_lt (by omega)⟩
  · rw [if_neg h]
    exact Or.inr ⟨fun hc => h ⟨hc.1, hc.2⟩, rfl⟩

theorem isPySpace_lowerChar (c : Char) : isPySpace (lowerChar c) = isPySpace c := by
  rcases lowerChar_spec c with ⟨h1, h2, h3⟩ | ⟨h1, h2⟩
  · have hl : isPySpace (lowerChar c) = false := by
      rw [← Bool.not_eq_true]
      intro hx
      rw [isPySpace_iff] at hx
      omega
    have hr : isPySpace c = false := by
      rw [← Bool.not_eq_true]
      intro hx
      rw [isPySpace_iff] at hx
      omega
    rw [hl, hr]
  · rw [h2]

theorem isWordChar_lowerChar (c : Char) :
    isWordChar (lowerChar c) = isWordChar c := by
  rcases lowerChar_spec c with ⟨h1, h2, h3⟩ | ⟨h1, h2⟩
  · have hl : isWordChar (lowerChar c) = true := by
      rw [isWordChar_iff]
      omega
    have hr : isWordChar c = true := by
      rw [isWordChar_iff]
      omega
    rw [hl, hr]
  · rw [h2]

theorem isAlpha_lowerChar (c : Char) : (lowerChar c).isAlpha = c.isAlpha := by
  rcases lowerChar_spec c with ⟨h1, h2, h3⟩ | ⟨h1, h2⟩
  · have hl : (lowerChar c).isAlpha = true := by
      rw [isAlpha_iff]
      omega
    have hr : c.isAlpha = true := by
      rw [isAlpha_iff]
      omega
    rw [hl, hr]
  · rw [h2]

theorem isAlpha_upperChar (c : Char) : (upperChar c).isAlpha = c.isAlpha := by
  rcases upperChar_spec c with ⟨h1, h2, h3⟩ | ⟨h1, h2⟩
  · have hl : (upperChar c).isAlpha = true := by
      rw [isAlpha_iff]
      omega
    have hr : c.isAlpha = true := by
      rw [isAlpha_iff]
      omega
    rw [hl, hr]
  · rw [h2]

theorem lowerChar_idem (c : Char) : lowerChar (lowerChar c) = lowerChar c := by
  rcases lowerChar_spec c with ⟨h1, h2, h3⟩ | ⟨h1, h2⟩
  · rcases lowerChar_spec (lowerChar c) with ⟨g1, g2, g3⟩ | ⟨g1, g2⟩
    · omega
    · exact g2
  · simp [h2]

theorem upperChar_idem (c : Char) : upperChar (upperChar c) = upperChar c := by
  rcases upperChar_spec c with ⟨h1, h2, h3⟩ | ⟨h1, h2⟩
  · rcases upperChar_spec (upperChar c) with ⟨g1, g2, g3⟩ | ⟨g1, g2⟩
    · omega
    · exact g2
  · simp [h2]

theorem lowerStr_idem (s : List Char) : lowerStr (lowerStr s) = lowerStr s := by
  unfold lowerStr
  rw [List.map_map]
  exact List.map_congr_left fun c _ => lowerChar_idem c

theorem isPySpace_of_lowerStr_eq {a b : List Char}
    (h : lowerStr a = lowerStr b) {i : Nat} {ca cb : Char}
    (ha : a.get? i = some ca) (hb : b.get? i = some cb) :
    isPySpace ca = isPySpace cb := by
  have hm : (lowerStr a).get? i = (lowerStr b).get? i := by rw [h]
  unfold lowerStr at hm
  rw [List.get?_map, List.get?_map, ha, hb] at hm
  simp only [Option.map_some', Option.some.injEq] at hm
  rw [← isPySpace_lowerChar ca, ← isPySpace_lowerChar cb, hm]

end ARS

namespace ARS

/-! ## Bounds for the token engine -/

theorem litAt_le {w s : List Char} {p : Nat} {ci : Bool}
    (hp : p ≤ s.length) (h : litAt w s p ci = true) :
    p + w.length ≤ s.length := by
  unfold litAt at h
  have hlen : ((s.drop p).take w.length).length = w.length := by
    cases ci with
    | true =>
      simp only [if_true, ciAt] at h
      have := congrArg List.length (eq_of_beq h)
      simpa [lowerStr] using this
    | false =>
      simp only [if_false, Bool.false_eq_true, exAt] at h
      exact congrArg List.length (eq_of_beq h)
  rw [List.length_take, List.length_drop] at hlen
  omega

theorem mem_descRange {mn hi k : Nat} (h : k ∈ descRange mn hi) :
    mn ≤ k ∧ k ≤ hi := by
  unfold descRange at h
  obtain ⟨j, hj, rfl⟩ := List.mem_map.mp h
  rw [List.mem_range] at hj
  omega

theorem countWhile_le (f : Char → Bool) (s : List Char) (i : Nat) :
    countWhile f s i ≤ s.length - i := by
  unfold countWhile
  calc ((s.drop i).takeWhile f).length ≤ (s.drop i).length :=
        (List.takeWhile_prefix f).length_le
    _ = s.length - i := List.length_drop i s

theorem mem_candEnds_ge {s : List Char} {p : Nat} {t : Tok} {q : Nat}
    (h : q ∈ candEnds s p t) : p + minTok t ≤ q := by
  cases t <;> simp only [candEnds, minTok] at h ⊢
  case lit w ci =>
    split at h
    · simp only [List.mem_singleton] at h
      omega
    · exact absurd h (List.not_mem_nil q)
  case opt w ci =>
    split at h <;> simp only [List.mem_cons, List.mem_singleton,
      List.not_mem_nil, or_false] at h
    · rcases h with rfl | rfl <;> omega
    · omega
  case cls f mn mx =>
    obtain ⟨k, hk, rfl⟩ := List.mem_map.mp h
    have := mem_descRange hk
    omega
  all_goals
    split at h <;> try split at h
  all_goals simp_all

theorem mem_candEnds_le {s : List Char} {p : Nat} {t : Tok} {q : Nat}
    (hp : p ≤ s.length) (h : q ∈ candEnds s p t) : q ≤ s.length := by
  cases t <;> simp only [candEnds] at h
  case lit w ci =>
    split at h
    · rename_i hlit
      simp only [List.mem_singleton] at h
      subst h
      exact litAt_le hp hlit
    · exact absurd h (List.not_mem_nil q)
  case opt w ci =>
    split at h <;> simp only [List.mem_cons, List.mem_singleton,
      List.not_mem_nil, or_false] at h
    · rename_i hlit
      rcases h with rfl | rfl
      · exact litAt_le hp hlit
      · exact hp
    · subst h; exact hp
  case cls f mn mx =>
    obtain ⟨k, hk, rfl⟩ := List.mem_map.mp h
    have h1 := mem_descRange hk
    have h2 := countWhile_le f s p
    cases mx <;> simp only at h1 <;> omega
  all_goals
    split at h <;> try split at h
  all_goals simp_all

theorem mem_tryToks_ge {s : List Char} {ts : List Tok} {p e : Nat}
    (h : e ∈ tryToks s ts p) : p + minToks ts ≤ e := by
  induction ts generalizing p with
  | nil =>
    simp only [tryToks, List.mem_singleton] at h
    simp [h, minToks]
  | cons t rest ih =>
    simp only [tryToks] at h
    obtain ⟨q, hq, he⟩ := List.mem_flatMap.mp h
    have h1 := mem_candEnds_ge hq
    have h2 := ih he
    simp only [minToks, List.map_cons, List.sum_cons] at h2 ⊢
    omega

theorem mem_tryToks_le {s : List Char} {ts : List Tok} {p e : Nat}
    (hp : p ≤ s.length) (h : e ∈ tryToks s ts p) : e ≤ s.length := by
  induction ts generalizing p with
  | nil =>
    simp only [tryToks, List.mem_singleton] at h
    omega
  | cons t rest ih =>
    simp only [tryToks] at h
    obtain ⟨q, hq, he⟩ := List.mem_flatMap.mp h
    exact ih (mem_candEnds_le hp hq) he

/-- Extracting a matching alternative from `reMatchEnd`. -/
theorem reMatchEnd_elim {s : List Char} {pat : RePat} {p e : Nat}
    (h : reMatchEnd s pat p = some e) :
    ∃ ts ∈ pat, e ∈ tryToks s ts p := by
  unfold reMatchEnd at h
  obtain ⟨ts, hts, hsome⟩ := List.exists_of_findSome?_eq_some h
  exact ⟨ts, hts, by
    cases hl : tryToks s ts p with
    | nil => rw [hl] at hsome; simp at hsome
    | cons a t =>
      rw [hl] at hsome
      simp only [List.head?_cons, Option.some.injEq] at hsome
      simp [hsome]⟩

/-- `reSearch` spans: the match starts in range, consumes at least the
least alternative length, and ends within the string. -/
theorem reSearch_span {s : List Char} {pat : RePat} {a e : Nat}
    (h : reSearch s pat = some (a, e)) :
    a ≤ s.length ∧ e ≤ s.length ∧
      ∃ ts ∈ pat, e ∈ tryToks s ts a := by
  unfold reSearch reSearchFrom at h
  cases hf : firstHit (fun p => (reMatchEnd s pat p).isSome) 0
      (s.length + 1 - 0) with
  | none => rw [hf] at h; simp at h
  | some p =>
    rw [hf] at h
    simp only at h
    obtain ⟨h1, h2, h3, h4⟩ := firstHit_eq_some hf
    cases hm : reMatchEnd s pat p with
    | none => rw [hm] at h; simp at h
    | some e2 =>
      rw [hm] at h
      simp only [Option.some.injEq, Prod.mk.injEq] at h
      obtain ⟨rfl, rfl⟩ := h
      obtain ⟨ts, hts, hmem⟩ := reMatchEnd_elim hm
      exact ⟨by omega, mem_tryToks_le (by omega) hmem, ts, hts, hmem⟩

end ARS

namespace ARS

/-! ## Occurrence and boundary transfer through appends -/

theorem charAt_lt {s : List Char} {j : Nat} {c : Char}
    (h : charAt s j = some c) : j < s.length :=
  (List.get?_eq_some.mp h).1

theorem wordAt_lt {s : List Char} {j : Nat} (h : wordAt s j = true) :
    j < s.length := by
  unfold wordAt at h
  cases hc : charAt s j with
  | none => rw [hc] at h; simp at h
  | some c => exact charAt_lt hc

theorem slice_mid (A : List Char) {S : List Char} (B : List Char) {i n : Nat}
    (h : i + n ≤ S.length) :
    ((A ++ S ++ B).drop (A.length + i)).take n = (S.drop i).take n := by
  rw [List.append_assoc, List.drop_append_eq_append_drop,
    List.drop_eq_nil_of_le (by omega), List.nil_append,
    show A.length + i - A.length = i from by omega,
    List.drop_append_eq_append_drop, List.take_append_eq_append_take,
    show n - (S.drop i).length = 0 from by rw [List.length_drop]; omega,
    List.take_zero, List.append_nil]

theorem ciAt_le {w s : List Char} {i : Nat} (hp : i ≤ s.length)
    (h : ciAt w s i = true) : i + w.length ≤ s.length := by
  have hlen : ((s.drop i).take w.length).length = w.length := by
    unfold ciAt at h
    have := congrArg List.length (eq_of_beq h)
    simpa [lowerStr] using this
  rw [List.length_take, List.length_drop] at hlen
  omega

theorem exAt_le {w s : List Char} {i : Nat} (hp : i ≤ s.length)
    (h : exAt w s i = true) : i + w.length ≤ s.length := by
  have hlen : ((s.drop i).take w.length).length = w.length := by
    unfold exAt at h
    exact congrArg List.length (eq_of_beq h)
  rw [List.length_take, List.length_drop] at hlen
  omega

theorem exAt_charAt {w s : List Char} {i k : Nat} (h : exAt w s i = true)
    (hk : k < w.length) : charAt s (i + k) = w.get? k := by
  unfold exAt at h
  have he := eq_of_beq h
  have : ((s.drop i).take w.length).get? k = w.get? k := by rw [he]
  rw [List.get?_take hk, List.get?_drop] at this
  exact this

theorem ciAt_mid {w S : List Char} (A B : List Char) {i : Nat}
    (hle : i + w.length ≤ S.length) (h : ciAt w S i = true) :
    ciAt w (A ++ S ++ B) (A.length + i) = true := by
  unfold ciAt at h ⊢
  rw [slice_mid A B hle]
  exact h

theorem charAt_mid (A : List Char) {S : List Char} (B : List Char) {i : Nat}
    (hi : i < S.length) : charAt (A ++ S ++ B) (A.length + i) = charAt S i := by
  unfold charAt
  rw [List.append_assoc, List.get?_append_right (by omega)]
  have h2 : A.length + i - A.length = i := by omega
  rw [h2, List.get?_append hi]

theorem wordAt_mid (A : List Char) {S : List Char} (B : List Char) {i : Nat}
    (hi : i < S.length) : wordAt (A ++ S ++ B) (A.length + i) = wordAt S i := by
  unfold wordAt
  rw [charAt_mid A B hi]

theorem wordAt_end (A : List Char) {S : List Char} (B : List Char)
    (hB : B = [] ∨ B.head? = some '\n') :
    wordAt (A ++ S ++ B) (A.length + S.length) = false := by
  unfold wordAt charAt
  rw [List.append_assoc, List.get?_append_right (by omega)]
  have h2 : A.length + S.length - A.length = S.length := by omega
  rw [h2, List.get?_append_right (by omega)]
  rw [Nat.sub_self]
  rcases hB with rfl | hB
  · simp
  · cases B with
    | nil => simp
    | cons b B' =>
      simp only [List.head?_cons, Option.some.injEq] at hB
      subst hB
      simp [isWordChar, Char.isAlphanum]

theorem boundaryAt_eq (s : List Char) (p : Nat) :
    boundaryAt s p = ((decide (0 < p) && wordAt s (p - 1)) != wordAt s p) := by
  cases p <;> simp [boundaryAt]

theorem boundary_mid {S : List Char} (A B : List Char)
    (hA : A = [] ∨ A.getLast? = some '\n')
    (hB : B = [] ∨ B.head? = some '\n') {i : Nat} (hi : i ≤ S.length) :
    boundaryAt (A ++ S ++ B) (A.length + i) = boundaryAt S i := by
  have hword : wordAt (A ++ S ++ B) (A.length + i) = wordAt S i := by
    rcases Nat.lt_or_ge i S.length with hlt | hge
    · exact wordAt_mid A B hlt
    · have hi2 : i = S.length := by omega
      subst hi2
      rw [wordAt_end A B hB]
      unfold wordAt
      rw [show charAt S S.length = none from
        List.get?_eq_none.mpr (le_refl _)]
  have hprev : (decide (0 < A.length + i) && wordAt (A ++ S ++ B) (A.length + i - 1)) =
      (decide (0 < i) && wordAt S (i - 1)) := by
    cases i with
    | zero =>
      simp only [decide_eq_false (by omega : ¬ (0 < 0)), Bool.and_false, Bool.false_and]
      rcases hA with rfl | hA
      · simp
      · have hAne : A ≠ [] := by
          intro hc
          rw [hc] at hA
          simp at hA
        have hlen : 0 < A.length := List.length_pos.mpr hAne
        have hget : A.get? (A.length - 1) = some '\n' := by
          rw [← List.getLast?_eq_get?]
          exact hA
        have hw : wordAt (A ++ S ++ B) (A.length + 0 - 1) = false := by
          unfold wordAt charAt
          rw [List.append_assoc, Nat.add_zero, List.get?_append (by omega), hget]
          simp [isWordChar, Char.isAlphanum]
        rw [hw, Bool.and_false]
    | succ j =>
      have h1 : A.length + (j + 1) - 1 = A.length + j := by omega
      rw [h1, wordAt_mid A B (by omega),
        decide_eq_true (by omega : 0 < A.length + (j + 1)),
        decide_eq_true (by omega : 0 < j + 1), Bool.true_and, Bool.true_and]
      rfl
  rw [boundaryAt_eq, boundaryAt_eq, hword, hprev]

end ARS

namespace ARS

/-! ## Rejoining split lines and the section-body decomposition -/

theorem joinNl_append {X Y : List (List Char)} (hX : X ≠ []) (hY : Y ≠ []) :
    joinNl (X ++ Y) = joinNl X ++ '\n' :: joinNl Y := by
  induction X with
  | nil => exact absurd rfl hX
  | cons x X' ih =>
    cases X' with
    | nil =>
      cases Y with
      | nil => exact absurd rfl hY
      | cons y Y' => simp [joinNl]
    | cons x2 X'' =>
      have h2 := ih (by simp)
      calc joinNl ((x :: x2 :: X'') ++ Y)
          = x ++ '\n' :: joinNl ((x2 :: X'') ++ Y) := rfl
        _ = x ++ '\n' :: (joinNl (x2 :: X'') ++ '\n' :: joinNl Y) := by rw [h2]
        _ = (x ++ '\n' :: joinNl (x2 :: X'')) ++ '\n' :: joinNl Y := by simp

theorem joinNl_infix (pre post mid : List (List Char)) :
    ∃ A B, joinNl (pre ++ (mid ++ post)) = A ++ joinNl mid ++ B := by
  by_cases hm : mid = []
  · subst hm
    exact ⟨joinNl (pre ++ post), [], by simp [joinNl]⟩
  by_cases hpre : pre = []
  · subst hpre
    by_cases hpost : post = []
    · subst hpost
      exact ⟨[], [], by simp⟩
    · exact ⟨[], '\n' :: joinNl post, by simp [joinNl_append hm hpost]⟩
  · by_cases hpost : post = []
    · subst hpost
      refine ⟨joinNl pre ++ ['\n'], [], ?_⟩
      rw [List.append_nil, joinNl_append hpre hm]
      simp
    · have hmp : mid ++ post ≠ [] := by simp [hm]
      refine ⟨joinNl pre ++ ['\n'], '\n' :: joinNl post, ?_⟩
      rw [joinNl_append hpre hmp, joinNl_append hm hpost]
      simp

theorem mk_joinNl_sub (s : List Char) (a b : Nat) :
    ∃ A B, s = A ++ joinNl (((splitNl s).drop a).take b) ++ B := by
  obtain ⟨A, B, h⟩ := joinNl_infix ((splitNl s).take a)
    (((splitNl s).drop a).drop b) (((splitNl s).drop a).take b)
  refine ⟨A, B, ?_⟩
  conv_lhs => rw [← joinNl_splitNl s,
    show splitNl s = (splitNl s).take a ++
      ((((splitNl s).drop a).take b) ++ ((splitNl s).drop a).drop b) from by
        rw [List.take_append_drop, List.take_append_drop]]
  exact h

theorem extract_section_sub (text : String) (hdrs : List String) :
    ∃ A B, text.data = A ++ (extract_section text hdrs).1.data ++ B := by
  unfold extract_section
  cases hs : headerLineFrom (splitNl text.data) hdrs 0 with
  | none =>
    simp only [hs]
    exact ⟨text.data, [], by simp⟩
  | some s =>
    simp only [hs]
    exact mk_joinNl_sub text.data (s + 1) _

/-! ## Case-insensitive matching inside an already-lowered string -/

theorem ciAt_lowered {w : List Char} (hw : lowerStr w = w) (s : List Char)
    (i : Nat) : ciAt w (lowerStr s) i = exAt w (lowerStr s) i := by
  have h2 : lowerStr (((lowerStr s).drop i).take w.length) =
      ((lowerStr s).drop i).take w.length := by
    unfold lowerStr
    rw [List.map_take, List.map_drop, List.map_map,
      show lowerChar ∘ lowerChar = lowerChar from funext lowerChar_idem]
  unfold ciAt exAt
  rw [h2, hw]

/-! ## The trailing word boundary after a non-word final character -/

theorem cpp_hit_core {w S : List Char} (hw : lowerStr w = w) {c : Char}
    (hlast : w.getLast? = some c) (hcw : isWordChar c = false)
    (hc : containsWordCI w (lowerStr S) = true) :
    ∃ i, exAt w (lowerStr S) i = true ∧
      i + w.length < (lowerStr S).length ∧
      wordAt (lowerStr S) (i + w.length) = true := by
  unfold containsWordCI at hc
  obtain ⟨i, hi_mem, hconj⟩ := List.any_eq_true.mp hc
  rw [Bool.and_eq_true, Bool.and_eq_true] at hconj
  obtain ⟨⟨hci, hb1⟩, hb2⟩ := hconj
  have hlen : 0 < w.length := by
    cases w with
    | nil => simp at hlast
    | cons a t => simp
  have hEx : exAt w (lowerStr S) i = true := by
    rw [← ciAt_lowered hw S i]
    exact hci
  have hchar : charAt (lowerStr S) (i + (w.length - 1)) = some c := by
    rw [exAt_charAt hEx (by omega), ← List.getLast?_eq_get?]
    exact hlast
  have hprevf : wordAt (lowerStr S) (i + w.length - 1) = false := by
    rw [show i + w.length - 1 = i + (w.length - 1) from by omega]
    unfold wordAt
    rw [hchar]
    exact hcw
  rw [boundaryAt_eq, hprevf, Bool.and_false] at hb2
  have hwd : wordAt (lowerStr S) (i + w.length) = true := by
    cases hx : wordAt (lowerStr S) (i + w.length)
    · rw [hx] at hb2
      simp at hb2
    · rfl
  exact ⟨i, hEx, wordAt_lt hwd, hwd⟩

theorem skills_hit_transfer {w : List Char} (A S B : List Char)
    (hw : lowerStr w = w) {c : Char} (hlast : w.getLast? = some c)
    (hcw : isWordChar c = false)
    (hc : containsWordCI w (lowerStr S) = true) :
    ∃ j, exAt w (lowerStr (A ++ S ++ B)) j = true ∧
      wordAt (lowerStr (A ++ S ++ B)) (j + w.length) = true := by
  obtain ⟨i, hEx, hlt, hwd⟩ := cpp_hit_core hw hlast hcw hc
  have hsplit : lowerStr (A ++ S ++ B) = lowerStr A ++ lowerStr S ++ lowerStr B := by
    unfold lowerStr
    rw [List.map_append, List.map_append]
  refine ⟨(lowerStr A).length + i, ?_, ?_⟩
  · unfold exAt
    rw [hsplit, slice_mid (lowerStr A) (lowerStr B) (by omega)]
    unfold exAt at hEx
    exact hEx
  · rw [show (lowerStr A).length + i + w.length =
      (lowerStr A).length + (i + w.length) from by omega]
    rw [hsplit, wordAt_mid (lowerStr A) (lowerStr B) hlt]
    exact hwd

end ARS

namespace ARS

/-- C10: whenever every occurrence of `c++` (resp. `c#`) in the lowered
document text is followed by a non-word character or by the end of the
text — i.e. the keyword appears only as an ordinary standalone token —
`extract_skills` never returns that keyword: the trailing `\b` of the
whole-word matcher can only succeed if a letter, digit or underscore
follows the final `+`/`#`. -/
theorem C10_cpp_word_boundary_unmatchable (kw text : String)
    (hkw : kw = "c++" ∨ kw = "c#")
    (h : ∀ i, i < (lowerStr text.data).length →
      exAt kw.data (lowerStr text.data) i = true →
      wordAt (lowerStr text.data) (i + kw.data.length) = false) :
    kw ∉ extract_skills text := by
  intro hmem
  have hlow : lowerStr kw.data = kw.data := by
    rcases hkw with rfl | rfl <;> decide
  have hlastw : ∃ c, kw.data.getLast? = some c ∧ isWordChar c = false := by
    rcases hkw with rfl | rfl
    · exact ⟨'+', by decide, by decide⟩
    · exact ⟨'#', by decide, by decide⟩
  obtain ⟨c, hlast, hcw⟩ := hlastw
  have hhit : ∃ S A B, text.data = A ++ S ++ B ∧
      containsWordCI kw.data (lowerStr S) = true := by
    unfold extract_skills at hmem
    simp only at hmem
    split at hmem <;> (try split at hmem) <;>
      first
        | exact absurd hmem (List.not_mem_nil kw)
        | exact ⟨text.data, [], [], by simp,
            (List.mem_filter.mp (List.mem_dedup.mp hmem)).2⟩
        | (obtain ⟨A, B, hAB⟩ := extract_section_sub text
              ["Skills", "Technical Skills", "Competencies", "Expertise"]
           exact ⟨_, A, B, hAB, (List.mem_filter.mp (List.mem_dedup.mp hmem)).2⟩)
  obtain ⟨S, A, B, hAB, hc⟩ := hhit
  obtain ⟨j, hEx, hwd⟩ := skills_hit_transfer A S B hlow hlast hcw hc
  rw [← hAB] at hEx hwd
  have hj : j < (lowerStr text.data).length := by
    have hb := wordAt_lt hwd
    omega
  rw [h j hj hEx] at hwd
  simp at hwd

/-- C10 applied at a concrete input: in `"C++, Java"` the keyword `c++`
is followed by a comma, so it is not extracted. -/
theorem C10_cpp_word_boundary_unmatchable_witness :
    ("c++" : String) ∉ extract_skills "C++, Java" :=
  C10_cpp_word_boundary_unmatchable "c++" "C++, Java" (Or.inl rfl) (by decide)

end ARS

namespace ARS

/-! ## Eliminations for the regex engine: what a hit implies -/

theorem reTest_elim {s : List Char} {pat : RePat} (h : reTest s pat = true) :
    ∃ p ts, ts ∈ pat ∧ ∃ e, e ∈ tryToks s ts p := by
  unfold reTest at h
  cases hr : reSearch s pat with
  | none => rw [hr] at h; simp at h
  | some pe =>
    obtain ⟨a, e⟩ := pe
    obtain ⟨_, _, ts, hts, hm⟩ := reSearch_span hr
    exact ⟨a, ts, hts, e, hm⟩

theorem candEnds_bos_elim {s : List Char} {p q : Nat}
    (h : q ∈ candEnds s p .bos) : q = p ∧ p = 0 := by
  simp only [candEnds] at h
  split at h
  · next hc => exact ⟨List.mem_singleton.mp h, hc⟩
  · exact absurd h (List.not_mem_nil q)

theorem candEnds_lit_elim {w : List Char} {ci : Bool} {s : List Char} {p q : Nat}
    (h : q ∈ candEnds s p (.lit w ci)) :
    litAt w s p ci = true ∧ q = p + w.length := by
  simp only [candEnds] at h
  split at h
  · next hc => exact ⟨hc, List.mem_singleton.mp h⟩
  · exact absurd h (List.not_mem_nil q)

theorem candEnds_eos_elim {s : List Char} {p q : Nat}
    (h : q ∈ candEnds s p .eosPlain) :
    q = p ∧ (p = s.length ∨ charAt s p = some '\n') := by
  simp only [candEnds] at h
  split at h
  · next hc => exact ⟨List.mem_singleton.mp h, Or.inl hc⟩
  · split at h
    · next hc => exact ⟨List.mem_singleton.mp h, Or.inr hc.2⟩
    · exact absurd h (List.not_mem_nil q)

theorem candEnds_ws_elim {f : Char → Bool} {s : List Char} {p q : Nat}
    (h : q ∈ candEnds s p (.cls f 0 none)) :
    ∃ k, q = p + k ∧ k ≤ countWhile f s p := by
  simp only [candEnds, List.mem_map] at h
  obtain ⟨k, hk, rfl⟩ := h
  exact ⟨k, rfl, (mem_descRange hk).2⟩

theorem countWhile_sem {f : Char → Bool} {s : List Char} {i k : Nat}
    (hk : k ≤ countWhile f s i) (j : Nat) (hj : j < k) :
    ∃ c, charAt s (i + j) = some c ∧ f c = true := by
  unfold countWhile at hk
  have hjlen : j < ((s.drop i).takeWhile f).length := by omega
  have hc := List.get?_eq_get hjlen
  have hmem : ((s.drop i).takeWhile f).get ⟨j, hjlen⟩ ∈ (s.drop i).takeWhile f :=
    List.get_mem _ j hjlen
  have hf := List.mem_takeWhile_imp hmem
  obtain ⟨rest, hrest⟩ := (List.takeWhile_prefix f :
    (s.drop i).takeWhile f <+: s.drop i)
  have hdj : (s.drop i).get? j = some (((s.drop i).takeWhile f).get ⟨j, hjlen⟩) := by
    have h3 : ((s.drop i).takeWhile f ++ rest).get? j =
        ((s.drop i).takeWhile f).get? j := List.get?_append hjlen
    rw [hrest] at h3
    rw [h3]
    exact hc
  refine ⟨_, ?_, hf⟩
  rw [List.get?_drop] at hdj
  exact hdj

/-! ## Slices as list segments -/

theorem slice_append {s : List Char} {a b c : Nat} (h1 : a ≤ b) (h2 : b ≤ c) :
    slice s a c = slice s a b ++ slice s b c := by
  unfold slice
  rw [show c - a = (b - a) + (c - b) from by omega, List.take_add, List.drop_drop,
    show a + (b - a) = b from by omega]

theorem slice_get? {s : List Char} {u v jj : Nat} (h : jj < v - u) :
    (slice s u v).get? jj = charAt s (u + jj) := by
  unfold slice
  rw [List.get?_take h, List.get?_drop]
  rfl

theorem mem_slice_charAt {s : List Char} {u v : Nat} {x : Char}
    (h : x ∈ slice s u v) : ∃ j, u ≤ j ∧ j < v ∧ charAt s j = some x := by
  obtain ⟨n, hn⟩ := List.mem_iff_get?.mp h
  have hlen : n < (slice s u v).length := (List.get?_eq_some.mp hn).1
  have hlt : n < v - u := by
    unfold slice at hlen
    rw [List.length_take] at hlen
    omega
  refine ⟨u + n, by omega, by omega, ?_⟩
  rw [← slice_get? hlt]
  exact hn

/-! ## A delimited newline-free segment is one of the split lines -/

theorem slice_splitNl_get {s : List Char} {a b : Nat}
    (hab : a ≤ b) (hb : b ≤ s.length)
    (ha : a = 0 ∨ charAt s (a - 1) = some '\n')
    (hbn : b = s.length ∨ charAt s b = some '\n')
    (hin : ∀ j, a ≤ j → j < b → charAt s j ≠ some '\n') :
    ∃ k, (splitNl s).get? k = some (slice s a b) ∧ (a = 0 ↔ k = 0) := by
  induction s generalizing a b with
  | nil =>
    have hb0 : b = 0 := by simpa using hb
    have ha0 : a = 0 := by omega
    subst hb0
    subst ha0
    exact ⟨0, by simp [splitNl, slice], by simp⟩
  | cons c t ih =>
    by_cases hc : c = '\n'
    · subst hc
      cases a with
      | zero =>
        have hb0 : b = 0 := by
          by_contra hb0
          exact hin 0 (Nat.le_refl 0) (by omega) rfl
        subst hb0
        exact ⟨0, by simp [splitNl, slice], by simp⟩
      | succ a' =>
        obtain ⟨b', rfl⟩ : ∃ b', b = b' + 1 := ⟨b - 1, by omega⟩
        have hbarg : b' ≤ t.length := by
          simp only [List.length_cons] at hb
          omega
        have ha' : a' = 0 ∨ charAt t (a' - 1) = some '\n' := by
          cases a' with
          | zero => exact Or.inl rfl
          | succ a'' =>
            right
            rcases ha with h0 | hnl
            · omega
            · exact hnl
        have hbn' : b' = t.length ∨ charAt t b' = some '\n' := by
          rcases hbn with h0 | hnl
          · left
            simp only [List.length_cons] at h0
            omega
          · exact Or.inr hnl
        have hin' : ∀ j, a' ≤ j → j < b' → charAt t j ≠ some '\n' :=
          fun j h1 h2 => hin (j + 1) (by omega) (by omega)
        obtain ⟨k, hk, hk0⟩ := ih (by omega) hbarg ha' hbn' hin'
        refine ⟨k + 1, ?_, by omega⟩
        have hsl : slice ('\n' :: t) (a' + 1) (b' + 1) = slice t a' b' := by
          unfold slice
          rw [List.drop_succ_cons, Nat.succ_sub_succ]
        have hsp : splitNl ('\n' :: t) = [] :: splitNl t := by simp [splitNl]
        rw [hsp, hsl]
        exact hk
    · have hsp2 : splitNl (c :: t) ≠ [] := splitNl_ne_nil (c :: t)
      cases hst : splitNl t with
      | nil => exact absurd hst (splitNl_ne_nil t)
      | cons hd r =>
        have hsp : splitNl (c :: t) = (c :: hd) :: r := by
          simp only [splitNl, if_neg hc, hst]
        cases a with
        | zero =>
          have hb1 : 1 ≤ b := by
            rcases hbn with h0 | hnl
            · simp only [List.length_cons] at h0
              omega
            · by_contra hb0
              have hb00 : b = 0 := by omega
              subst hb00
              exact hc (by simpa [charAt] using hnl)
          obtain ⟨b', rfl⟩ : ∃ b', b = b' + 1 := ⟨b - 1, by omega⟩
          have hbarg : b' ≤ t.length := by
            simp only [List.length_cons] at hb
            omega
          have hbn' : b' = t.length ∨ charAt t b' = some '\n' := by
            rcases hbn with h0 | hnl
            · left
              simp only [List.length_cons] at h0
              omega
            · exact Or.inr hnl
          have hin' : ∀ j, 0 ≤ j → j < b' → charAt t j ≠ some '\n' :=
            fun j _ h2 => hin (j + 1) (by omega) (by omega)
          obtain ⟨k, hk, hk0⟩ := ih (Nat.zero_le b') hbarg (Or.inl rfl) hbn' hin'
          have hk00 : k = 0 := hk0.mp rfl
          subst hk00
          rw [hst] at hk
          have hhd : hd = slice t 0 b' := by simpa using hk
          have hslice : slice (c :: t) 0 (b' + 1) = c :: slice t 0 b' := by
            simp [slice, List.take_succ_cons]
          refine ⟨0, ?_, by simp⟩
          rw [hsp, hslice, ← hhd]
          rfl
        | succ a' =>
          cases a' with
          | zero =>
            exfalso
            rcases ha with h0 | hnl
            · omega
            · exact hc (by simpa [charAt] using hnl)
          | succ a'' =>
            have ha' : a'' + 1 = 0 ∨ charAt t (a'' + 1 - 1) = some '\n' := by
              right
              rcases ha with h0 | hnl
              · omega
              · exact hnl
            obtain ⟨b', rfl⟩ : ∃ b', b = b' + 1 := ⟨b - 1, by omega⟩
            have hbarg : b' ≤ t.length := by
              simp only [List.length_cons] at hb
              omega
            have hbn' : b' = t.length ∨ charAt t b' = some '\n' := by
              rcases hbn with h0 | hnl
              · left
                simp only [List.length_cons] at h0
                omega
              · exact Or.inr hnl
            have hin' : ∀ j, a'' + 1 ≤ j → j < b' → charAt t j ≠ some '\n' :=
              fun j h1 h2 => hin (j + 1) (by omega) (by omega)
            obtain ⟨k, hk, hk0⟩ := ih (by omega) hbarg ha' hbn' hin'
            obtain ⟨k', rfl⟩ : ∃ k', k = k' + 1 := ⟨k - 1, by
              rcases Nat.eq_zero_or_pos k with h0 | hpos
              · exact absurd (hk0.mpr h0) (by omega)
              · omega⟩
            refine ⟨k' + 1, ?_, by omega⟩
            have hsl : slice (c :: t) (a'' + 1 + 1) (b' + 1) = slice t (a'' + 1) b' := by
              unfold slice
              rw [List.drop_succ_cons, Nat.succ_sub_succ]
            rw [hsp, hsl]
            rw [hst] at hk
            simp only [List.get?_cons_succ] at hk ⊢
            exact hk

end ARS

namespace ARS

/-! ## Trimming a whitespace run to the enclosing line boundary -/

theorem refine_start {s : List Char} {L n : Nat}
    (hsp : ∀ j, j < n → ∃ c, charAt s (L + j) = some c ∧ isPySpace c = true)
    (hL : L = 0 ∨ charAt s (L - 1) = some '\n') :
    ∃ a, L ≤ a ∧ a ≤ L + n ∧ (a = 0 ∨ charAt s (a - 1) = some '\n') ∧
      (∀ j, a ≤ j → j < L + n → charAt s j ≠ some '\n') ∧
      (∀ j, a ≤ j → j < L + n → ∃ c, charAt s j = some c ∧ isPySpace c = true) := by
  induction n with
  | zero =>
    exact ⟨L, le_refl L, by omega, hL,
      fun j h1 h2 => absurd h2 (by omega),
      fun j h1 h2 => absurd h2 (by omega)⟩
  | succ m ih =>
    obtain ⟨a, ha1, ha2, ha3, ha4, ha5⟩ := ih (fun j hj => hsp j (by omega))
    obtain ⟨cm, hcm, hcsp⟩ := hsp m (by omega)
    by_cases hnl : cm = '\n'
    · subst hnl
      refine ⟨L + m + 1, by omega, by omega, Or.inr ?_, ?_, ?_⟩
      · rw [show L + m + 1 - 1 = L + m from by omega]
        exact hcm
      · intro j hj1 hj2
        exact absurd hj2 (by omega)
      · intro j hj1 hj2
        exact absurd hj2 (by omega)
    · refine ⟨a, ha1, by omega, ha3, ?_, ?_⟩
      · intro j hj1 hj2
        rcases Nat.lt_or_ge j (L + m) with hj | hj
        · exact ha4 j hj1 hj
        · have hje : j = L + m := by omega
          subst hje
          rw [hcm]
          exact fun hEq => hnl (Option.some.inj hEq)
      · intro j hj1 hj2
        rcases Nat.lt_or_ge j (L + m) with hj | hj
        · exact ha5 j hj1 hj
        · have hje : j = L + m := by omega
          subst hje
          exact ⟨cm, hcm, hcsp⟩

theorem refine_end {s : List Char} {R n : Nat}
    (hsp : ∀ j, j < n → ∃ c, charAt s (R + j) = some c ∧ isPySpace c = true)
    (hR : R + n = s.length ∨ charAt s (R + n) = some '\n') :
    ∃ b, R ≤ b ∧ b ≤ R + n ∧ (b = s.length ∨ charAt s b = some '\n') ∧
      (∀ j, R ≤ j → j < b → charAt s j ≠ some '\n') ∧
      (∀ j, R ≤ j → j < b → ∃ c, charAt s j = some c ∧ isPySpace c = true) := by
  induction n generalizing R with
  | zero =>
    exact ⟨R, le_refl R, by omega, by simpa using hR,
      fun j h1 h2 => absurd h2 (by omega),
      fun j h1 h2 => absurd h2 (by omega)⟩
  | succ m ih =>
    obtain ⟨c0, hc0, hc0sp⟩ := hsp 0 (by omega)
    by_cases hnl : c0 = '\n'
    · subst hnl
      refine ⟨R, le_refl R, by omega, Or.inr (by simpa using hc0), ?_, ?_⟩
      · intro j hj1 hj2
        exact absurd hj2 (by omega)
      · intro j hj1 hj2
        exact absurd hj2 (by omega)
    · obtain ⟨b, hb1, hb2, hb3, hb4, hb5⟩ := @ih (R + 1)
        (fun j hj => by
          have hx := hsp (j + 1) (by omega)
          rwa [show R + (j + 1) = R + 1 + j from by omega] at hx)
        (by rwa [show R + 1 + m = R + (m + 1) from by omega])
      refine ⟨b, by omega, by omega, hb3, ?_, ?_⟩
      · intro j hj1 hj2
        rcases Nat.lt_or_ge j (R + 1) with hj | hj
        · have hje : j = R := by omega
          rw [hje, (by simpa using hc0 : charAt s R = some c0)]
          exact fun hEq => hnl (Option.some.inj hEq)
        · exact hb4 j hj hj2
      · intro j hj1 hj2
        rcases Nat.lt_or_ge j (R + 1) with hj | hj
        · have hje : j = R := by omega
          rw [hje]
          exact ⟨c0, by simpa using hc0, hc0sp⟩
        · exact hb5 j hj hj2

/-! ## Stripping a whitespace-wrapped core -/

theorem dropWhile_all_append {f : Char → Bool} {xs : List Char} (ys : List Char)
    (h : ∀ x ∈ xs, f x = true) :
    (xs ++ ys).dropWhile f = ys.dropWhile f := by
  induction xs with
  | nil => rfl
  | cons x xt ih =>
    rw [List.cons_append, List.dropWhile_cons, if_pos (h x (by simp))]
    exact ih (fun y hy => h y (by simp [hy]))

theorem dropWhile_head_neg {f : Char → Bool} {l : List Char} {c : Char}
    (h : l.head? = some c) (hc : f c = false) : l.dropWhile f = l := by
  cases l with
  | nil => simp at h
  | cons a t =>
    simp only [List.head?_cons, Option.some.injEq] at h
    subst h
    rw [List.dropWhile_cons, if_neg (by simp [hc])]

theorem pyStrip_ws_wrap {W1 H W2 : List Char}
    (hW1 : ∀ x ∈ W1, isPySpace x = true) (hW2 : ∀ x ∈ W2, isPySpace x = true)
    (hne : H ≠ [])
    (hh : ∀ c, H.head? = some c → isPySpace c = false)
    (hl : ∀ c, H.getLast? = some c → isPySpace c = false) :
    pyStrip (W1 ++ (H ++ W2)) = H := by
  unfold pyStrip pyLstrip pyRstrip
  rw [dropWhile_all_append _ hW1]
  obtain ⟨c, H', rfl⟩ := List.exists_cons_of_ne_nil hne
  have hc : isPySpace c = false := hh c rfl
  rw [List.cons_append, List.dropWhile_cons, if_neg (by simp [hc]),
    List.reverse_cons, List.reverse_append, List.append_assoc,
    dropWhile_all_append _ (fun x hx => hW2 x (List.mem_reverse.mp hx))]
  have hhd : ∃ d, (H'.reverse ++ [c]).head? = some d ∧ isPySpace d = false := by
    cases hH' : H'.reverse with
    | nil => exact ⟨c, by simp [hH'], hc⟩
    | cons d rev' =>
      refine ⟨d, by simp [hH'], hl d ?_⟩
      rw [← List.head?_reverse, List.reverse_cons, hH']
      simp
  obtain ⟨d, hd1, hd2⟩ := hhd
  rw [dropWhile_head_neg hd1 hd2, List.reverse_append, List.reverse_reverse]
  simp

end ARS

namespace ARS

/-! ## A whole-line header match yields a split line equal to the header -/

theorem mid_hit {s : List Char} {hdr : String} {L e : Nat} {tend : Tok}
    (hend : tend = Tok.eosPlain ∨ tend = Tok.lit ['\n'] false)
    (h : e ∈ tryToks s
      [.cls isPySpace 0 none, .lit hdr.data true, .cls isPySpace 0 none, tend] L)
    (hL : L = 0 ∨ charAt s (L - 1) = some '\n')
    (h1 : hdr.data ≠ [])
    (h2 : ∀ c ∈ hdr.data, lowerChar c ≠ '\n')
    (h3 : ∀ c ∈ hdr.data.head?.toList, isPySpace (lowerChar c) = false)
    (h4 : ∀ c ∈ hdr.data.getLast?.toList, isPySpace (lowerChar c) = false) :
    ∃ l ∈ splitNl s, lowerStr (pyStrip l) = lowerStr hdr.data := by
  simp only [tryToks] at h
  obtain ⟨q2, hq2c, h⟩ := List.mem_flatMap.mp h
  obtain ⟨k1, rfl, hk1⟩ := candEnds_ws_elim hq2c
  obtain ⟨q3, hq3c, h⟩ := List.mem_flatMap.mp h
  obtain ⟨hlit, rfl⟩ := candEnds_lit_elim hq3c
  obtain ⟨q4, hq4c, h⟩ := List.mem_flatMap.mp h
  obtain ⟨k2, rfl, hk2⟩ := candEnds_ws_elim hq4c
  obtain ⟨q5, hq5c, _⟩ := List.mem_flatMap.mp h
  have hci : ciAt hdr.data s (L + k1) = true := by
    simpa [litAt] using hlit
  have hHeq : lowerStr (slice s (L + k1) (L + k1 + hdr.data.length)) =
      lowerStr hdr.data := by
    unfold ciAt at hci
    have h0 := eq_of_beq hci
    unfold slice
    rw [show L + k1 + hdr.data.length - (L + k1) = hdr.data.length from by omega]
    exact h0
  have hHlen : (slice s (L + k1) (L + k1 + hdr.data.length)).length =
      hdr.data.length := by
    have hx := congrArg List.length hHeq
    simpa [lowerStr] using hx
  have hendpos : L + k1 + hdr.data.length + k2 = s.length ∨
      charAt s (L + k1 + hdr.data.length + k2) = some '\n' := by
    rcases hend with rfl | rfl
    · exact (candEnds_eos_elim hq5c).2
    · obtain ⟨hl2, _⟩ := candEnds_lit_elim hq5c
      right
      have hEx : exAt ['\n'] s (L + k1 + hdr.data.length + k2) = true := by
        simpa [litAt] using hl2
      have hch := exAt_charAt hEx (by decide : (0:Nat) < 1)
      simpa using hch
  obtain ⟨a, ha1, ha2, ha3, ha4, ha5⟩ := refine_start
    (fun j hj => countWhile_sem hk1 j hj) hL
  obtain ⟨b, hb1, hb2, hb3, hb4, hb5⟩ := refine_end
    (fun j hj => countWhile_sem hk2 j hj) hendpos
  have hHnl : ∀ j, L + k1 ≤ j → j < L + k1 + hdr.data.length →
      charAt s j ≠ some '\n' := by
    intro j hj1 hj2 hEq
    have hg : (slice s (L + k1) (L + k1 + hdr.data.length)).get?
        (j - (L + k1)) = charAt s j := by
      rw [slice_get? (by omega)]
      rw [show L + k1 + (j - (L + k1)) = j from by omega]
    rw [hEq] at hg
    have hmem : '\n' ∈ slice s (L + k1) (L + k1 + hdr.data.length) :=
      List.get?_mem hg
    have hmem2 : '\n' ∈ lowerStr (slice s (L + k1) (L + k1 + hdr.data.length)) := by
      have hx := List.mem_map_of_mem lowerChar hmem
      rwa [show lowerChar '\n' = '\n' from by decide] at hx
    rw [hHeq] at hmem2
    unfold lowerStr at hmem2
    obtain ⟨d, hd, hde⟩ := List.mem_map.mp hmem2
    exact h2 d hd hde
  have hblen : b ≤ s.length := by
    rcases hb3 with hbe | hbc
    · omega
    · exact Nat.le_of_lt (charAt_lt hbc)
  have hab : a ≤ b := by omega
  have hin : ∀ j, a ≤ j → j < b → charAt s j ≠ some '\n' := by
    intro j hj1 hj2
    rcases Nat.lt_or_ge j (L + k1) with hj | hj
    · exact ha4 j hj1 hj
    · rcases Nat.lt_or_ge j (L + k1 + hdr.data.length) with hj' | hj'
      · exact hHnl j hj hj'
      · exact hb4 j hj' hj2
  obtain ⟨k, hk, _⟩ := slice_splitNl_get hab hblen ha3 hb3 hin
  refine ⟨slice s a b, List.get?_mem hk, ?_⟩
  have hd1 : slice s a b = slice s a (L + k1) ++ slice s (L + k1) b :=
    slice_append ha2 (by omega)
  have hd2 : slice s (L + k1) b =
      slice s (L + k1) (L + k1 + hdr.data.length) ++
        slice s (L + k1 + hdr.data.length) b :=
    slice_append (by omega) hb1
  have hw1 : ∀ x ∈ slice s a (L + k1), isPySpace x = true := by
    intro x hx
    obtain ⟨j, hj1, hj2, hj3⟩ := mem_slice_charAt hx
    obtain ⟨c', hc', hcsp⟩ := ha5 j hj1 hj2
    rw [hj3] at hc'
    obtain rfl : x = c' := Option.some.inj hc'
    exact hcsp
  have hw2 : ∀ x ∈ slice s (L + k1 + hdr.data.length) b, isPySpace x = true := by
    intro x hx
    obtain ⟨j, hj1, hj2, hj3⟩ := mem_slice_charAt hx
    obtain ⟨c', hc', hcsp⟩ := hb5 j hj1 hj2
    rw [hj3] at hc'
    obtain rfl : x = c' := Option.some.inj hc'
    exact hcsp
  have hne : slice s (L + k1) (L + k1 + hdr.data.length) ≠ [] := by
    intro h0
    rw [h0] at hHlen
    exact h1 (List.length_eq_zero.mp hHlen.symm)
  have hhh : ∀ c', (slice s (L + k1) (L + k1 + hdr.data.length)).head? = some c' →
      isPySpace c' = false := by
    intro c' hc'
    have hmap : (lowerStr (slice s (L + k1) (L + k1 + hdr.data.length))).head? =
        some (lowerChar c') := by
      unfold lowerStr
      rw [List.head?_map, hc']
      rfl
    rw [hHeq] at hmap
    unfold lowerStr at hmap
    rw [List.head?_map] at hmap
    cases hh0 : hdr.data.head? with
    | none => rw [hh0] at hmap; simp at hmap
    | some d =>
      rw [hh0] at hmap
      have hde : lowerChar d = lowerChar c' := by simpa using hmap
      have hx := h3 d (by simp [hh0])
      rw [hde, isPySpace_lowerChar] at hx
      exact hx
  have hll : ∀ c', (slice s (L + k1) (L + k1 + hdr.data.length)).getLast? = some c' →
      isPySpace c' = false := by
    intro c' hc'
    have hmap : (lowerStr (slice s (L + k1) (L + k1 + hdr.data.length))).getLast? =
        some (lowerChar c') := by
      unfold lowerStr
      rw [List.getLast?_map, hc']
      rfl
    rw [hHeq] at hmap
    unfold lowerStr at hmap
    rw [List.getLast?_map] at hmap
    cases hh0 : hdr.data.getLast? with
    | none => rw [hh0] at hmap; simp at hmap
    | some d =>
      rw [hh0] at hmap
      have hde : lowerChar d = lowerChar c' := by simpa using hmap
      have hx := h4 d (by simp [hh0])
      rw [hde, isPySpace_lowerChar] at hx
      exact hx
  rw [hd1, hd2, pyStrip_ws_wrap hw1 hw2 hne hhh hll]
  exact hHeq

theorem wholeLine_hit {s : List Char} {hdr : String}
    (h : reTest s (wholeLinePat hdr) = true)
    (h1 : hdr.data ≠ [])
    (h2 : ∀ c ∈ hdr.data, lowerChar c ≠ '\n')
    (h3 : ∀ c ∈ hdr.data.head?.toList, isPySpace (lowerChar c) = false)
    (h4 : ∀ c ∈ hdr.data.getLast?.toList, isPySpace (lowerChar c) = false) :
    ∃ l ∈ splitNl s, lowerStr (pyStrip l) = lowerStr hdr.data := by
  obtain ⟨p, ts, hts, e, hm⟩ := reTest_elim h
  simp only [wholeLinePat, List.mem_cons, List.not_mem_nil, or_false] at hts
  rcases hts with rfl | rfl | rfl | rfl
  · simp only [tryToks] at hm
    obtain ⟨q1, hq1c, hm2⟩ := List.mem_flatMap.mp hm
    obtain ⟨rfl, rfl⟩ := candEnds_bos_elim hq1c
    exact mid_hit (Or.inl rfl) hm2 (Or.inl rfl) h1 h2 h3 h4
  · simp only [tryToks] at hm
    obtain ⟨q1, hq1c, hm2⟩ := List.mem_flatMap.mp hm
    obtain ⟨rfl, rfl⟩ := candEnds_bos_elim hq1c
    exact mid_hit (Or.inr rfl) hm2 (Or.inl rfl) h1 h2 h3 h4
  · simp only [tryToks] at hm
    obtain ⟨q1, hq1c, hm2⟩ := List.mem_flatMap.mp hm
    obtain ⟨hl0, rfl⟩ := candEnds_lit_elim hq1c
    have hch : charAt s p = some '\n' := by
      have hEx : exAt ['\n'] s p = true := by simpa [litAt] using hl0
      have hch0 := exAt_charAt hEx (by decide : (0:Nat) < 1)
      simpa using hch0
    refine mid_hit (Or.inl rfl) hm2 (Or.inr ?_) h1 h2 h3 h4
    simpa using hch
  · simp only [tryToks] at hm
    obtain ⟨q1, hq1c, hm2⟩ := List.mem_flatMap.mp hm
    obtain ⟨hl0, rfl⟩ := candEnds_lit_elim hq1c
    have hch : charAt s p = some '\n' := by
      have hEx : exAt ['\n'] s p = true := by simpa [litAt] using hl0
      have hch0 := exAt_charAt hEx (by decide : (0:Nat) < 1)
      simpa using hch0
    refine mid_hit (Or.inr rfl) hm2 (Or.inr ?_) h1 h2 h3 h4
    simpa using hch

end ARS

namespace ARS

/-- C3: for every text in which no experience header phrase occurs as a
whole line (up to surrounding whitespace and letter case),
`has_work_experience_section` returns `false` and `process_resume`
returns the no-experience-section sentinel string. -/
theorem C3_no_experience_header_sentinel (text : String)
    (h : ∀ l ∈ splitNl text.data, ∀ hdr ∈ experience_headers,
      lowerStr (pyStrip l) ≠ lowerStr hdr.data) :
    has_work_experience_section text = false ∧
    process_resume text = Sum.inl "No experience section found in the resume." := by
  have hgate : has_work_experience_section text = false := by
    unfold has_work_experience_section
    rw [List.any_eq_false]
    intro hdr hmem
    intro hT
    have hall : ∀ hdr2 ∈ experience_headers, hdr2.data ≠ [] ∧
        (∀ c ∈ hdr2.data, lowerChar c ≠ '\n') ∧
        (∀ c ∈ hdr2.data.head?.toList, isPySpace (lowerChar c) = false) ∧
        (∀ c ∈ hdr2.data.getLast?.toList, isPySpace (lowerChar c) = false) := by
      decide
    obtain ⟨h1, h2, h3, h4⟩ := hall hdr hmem
    obtain ⟨l, hlmem, hleq⟩ := wholeLine_hit hT h1 h2 h3 h4
    exact h l hlmem hdr hmem hleq
  refine ⟨hgate, ?_⟩
  unfold process_resume
  rw [hgate]
  simp

/-- C3 applied at a concrete input: a resume consisting only of an
education section triggers the no-experience sentinel. -/
theorem C3_no_experience_header_sentinel_witness :
    has_work_experience_section "EDUCATION\nBSc" = false ∧
    process_resume "EDUCATION\nBSc" =
      Sum.inl "No experience section found in the resume." :=
  C3_no_experience_header_sentinel "EDUCATION\nBSc" (by decide)

end ARS

namespace ARS

/-! ## takeWhile utilities -/

theorem takeWhile_all_append {f : Char → Bool} {xs : List Char} (ys : List Char)
    (h : ∀ x ∈ xs, f x = true) :
    (xs ++ ys).takeWhile f = xs ++ ys.takeWhile f := by
  induction xs with
  | nil => rfl
  | cons x xt ih =>
    rw [List.cons_append, List.takeWhile_cons, if_pos (h x (by simp)),
      ih (fun y hy => h y (by simp [hy])), List.cons_append]

theorem takeWhile_all {f : Char → Bool} {l : List Char} (h : ∀ x ∈ l, f x = true) :
    l.takeWhile f = l := by
  induction l with
  | nil => rfl
  | cons c t ih =>
    rw [List.takeWhile_cons, if_pos (h c (by simp)),
      ih (fun y hy => h y (by simp [hy]))]

theorem takeWhile_sub {f g : Char → Bool} (hfg : ∀ c, f c = true → g c = true) :
    ∀ l : List Char, (l.takeWhile g).takeWhile f = l.takeWhile f := by
  intro l
  induction l with
  | nil => rfl
  | cons c t ih =>
    by_cases hf : f c = true
    · rw [List.takeWhile_cons, if_pos (hfg c hf), List.takeWhile_cons, if_pos hf,
        ih, List.takeWhile_cons, if_pos hf]
    · rw [List.takeWhile_cons]
      by_cases hg : g c = true
      · rw [if_pos hg, List.takeWhile_cons, if_neg hf, List.takeWhile_cons, if_neg hf]
      · rw [if_neg hg, List.takeWhile_cons, if_neg hf]
        rfl

theorem takeWhile_append_ge {f : Char → Bool} (xs ys : List Char) :
    (xs.takeWhile f).length ≤ ((xs ++ ys).takeWhile f).length := by
  induction xs with
  | nil => simp
  | cons c t ih =>
    rw [List.cons_append, List.takeWhile_cons, List.takeWhile_cons]
    by_cases hf : f c = true
    · rw [if_pos hf, if_pos hf]
      simpa using ih
    · rw [if_neg hf, if_neg hf]

theorem drop_eq_cons_of_charAt {l : List Char} {n : Nat} {c : Char}
    (h : charAt l n = some c) : l.drop n = c :: l.drop (n + 1) := by
  induction l generalizing n with
  | nil => simp [charAt] at h
  | cons x t ih =>
    cases n with
    | zero =>
      obtain rfl : x = c := by simpa [charAt] using h
      rfl
    | succ k => exact ih h

theorem drop_slice_split {s : List Char} {a b : Nat} (hab : a ≤ b) :
    s.drop a = slice s a b ++ s.drop b := by
  unfold slice
  conv_lhs => rw [← List.take_append_drop (b - a) (s.drop a)]
  rw [List.drop_drop, show a + (b - a) = b from by omega]

theorem slice_length (s : List Char) (a b : Nat) :
    (slice s a b).length = min (b - a) (s.length - a) := by
  simp [slice]

/-! ## The e-mail matcher: eliminations and completeness -/

theorem findDomDot_elim {M : List Char} {n d : Nat} {run : List Char}
    (h : findDomDot M n = some (d, run)) :
    1 ≤ d ∧ d ≤ n ∧ charAt M d = some '.' ∧
    run = (M.drop (d + 1)).takeWhile Char.isAlpha ∧ 2 ≤ run.length := by
  induction n with
  | zero => simp [findDomDot] at h
  | succ m ih =>
    simp only [findDomDot] at h
    split at h
    · next hc =>
      rw [Option.some.injEq, Prod.mk.injEq] at h
      obtain ⟨rfl, rfl⟩ := h
      exact ⟨by omega, le_refl _, hc.1, rfl, hc.2⟩
    · obtain ⟨a1, a2, a3, a4, a5⟩ := ih h
      exact ⟨a1, by omega, a3, a4, a5⟩

theorem findDomDot_complete {M : List Char} {p : Nat}
    (hp1 : 1 ≤ p) (hdot : charAt M p = some '.')
    (hrun : 2 ≤ ((M.drop (p + 1)).takeWhile Char.isAlpha).length) :
    ∀ n, p ≤ n → findDomDot M n ≠ none := by
  intro n
  induction n with
  | zero => intro hpn; omega
  | succ m ih =>
    intro hpn
    simp only [findDomDot]
    split
    · simp
    · next hc =>
      apply ih
      rcases Nat.lt_or_ge p (m + 1) with hlt | hge
      · omega
      · exfalso
        have hpe : p = m + 1 := by omega
        subst hpe
        exact hc ⟨hdot, hrun⟩

theorem emailHere_elim {s m : List Char} (h : emailHere s = some m) :
    ∃ rest d run,
      s.takeWhile localChar ≠ [] ∧
      s.drop (s.takeWhile localChar).length = '@' :: rest ∧
      findDomDot (rest.takeWhile domainChar)
        ((rest.takeWhile domainChar).length - 1) = some (d, run) ∧
      m = s.takeWhile localChar ++ '@' ::
        ((rest.takeWhile domainChar).take d ++ '.' :: run) := by
  unfold emailHere at h
  simp only at h
  by_cases ha : (s.takeWhile localChar).isEmpty
  · rw [if_pos ha] at h
    exact absurd h (by simp)
  · rw [if_neg ha] at h
    cases hdrop : s.drop (s.takeWhile localChar).length with
    | nil =>
      rw [hdrop] at h
      exact absurd (h : none = some m) (by simp)
    | cons c rest =>
      rw [hdrop] at h
      by_cases hc : c = '@'
      · subst hc
        have h2 : (if ('@':Char) = '@' then
            match findDomDot (rest.takeWhile domainChar)
                ((rest.takeWhile domainChar).length - 1) with
            | some (d, run) => some (s.takeWhile localChar ++ '@' ::
                ((rest.takeWhile domainChar).take d ++ '.' :: run))
            | none => none
          else none) = some m := h
        rw [if_pos rfl] at h2
        cases hfd : findDomDot (rest.takeWhile domainChar)
            ((rest.takeWhile domainChar).length - 1) with
        | none =>
          rw [hfd] at h2
          exact absurd (h2 : none = some m) (by simp)
        | some dr =>
          obtain ⟨d, run⟩ := dr
          rw [hfd] at h2
          refine ⟨rest, d, run, ?_, rfl, hfd, ?_⟩
          · intro h0
            rw [h0] at ha
            exact ha rfl
          · exact (Option.some.inj (h2 : some _ = some m)).symm
      · have h2 : (if c = '@' then
            match findDomDot (rest.takeWhile domainChar)
                ((rest.takeWhile domainChar).length - 1) with
            | some (d, run) => some (s.takeWhile localChar ++ '@' ::
                ((rest.takeWhile domainChar).take d ++ '.' :: run))
            | none => none
          else none) = some m := h
        rw [if_neg hc] at h2
        exact absurd h2 (by simp)

end ARS

namespace ARS

/-! ## The leftmost e-mail scan -/

theorem findEmail_elim {s m : List Char} (h : findEmail s = some m) :
    ∃ i, emailHere (s.drop i) = some m ∧
      ∀ i', i' < i → emailHere (s.drop i') = none := by
  induction s with
  | nil => simp [findEmail] at h
  | cons c t ih =>
    simp only [findEmail] at h
    cases hE : emailHere (c :: t) with
    | some m0 =>
      rw [hE] at h
      obtain rfl : m0 = m := Option.some.inj (h : some m0 = some m)
      exact ⟨0, by simpa using hE, fun i' hi' => by omega⟩
    | none =>
      rw [hE] at h
      obtain ⟨i, hiS, hiB⟩ := ih (h : findEmail t = some m)
      refine ⟨i + 1, hiS, ?_⟩
      intro i' hi'
      cases i' with
      | zero => simpa using hE
      | succ i'' => exact hiB i'' (by omega)

theorem findEmail_none {s : List Char} (h : findEmail s = none) :
    ∀ i, emailHere (s.drop i) = none := by
  induction s with
  | nil =>
    intro i
    rw [List.drop_nil]
    rfl
  | cons c t ih =>
    intro i
    simp only [findEmail] at h
    cases hE : emailHere (c :: t) with
    | some m0 =>
      rw [hE] at h
      exact absurd (h : some m0 = none) (by simp)
    | none =>
      rw [hE] at h
      cases i with
      | zero => simpa using hE
      | succ i' => exact ih (h : findEmail t = none) i'

/-! ## Completeness: a shaped occurrence forces a match -/

theorem emailHere_of_shape {L D R2 : List Char}
    (hL : L ≠ []) (hLc : ∀ c ∈ L, localChar c = true)
    (hD : D ≠ []) (hDc : ∀ c ∈ D, domainChar c = true)
    (hT : 2 ≤ (R2.takeWhile Char.isAlpha).length) :
    emailHere (L ++ '@' :: (D ++ '.' :: R2)) ≠ none := by
  have ha : (L ++ '@' :: (D ++ '.' :: R2)).takeWhile localChar = L := by
    rw [takeWhile_all_append _ hLc, List.takeWhile_cons,
      if_neg (by decide : ¬ localChar '@' = true)]
    simp
  have hdrop : (L ++ '@' :: (D ++ '.' :: R2)).drop L.length =
      '@' :: (D ++ '.' :: R2) := List.drop_left L _
  have hM : (D ++ '.' :: R2).takeWhile domainChar =
      D ++ '.' :: R2.takeWhile domainChar := by
    rw [takeWhile_all_append _ hDc, List.takeWhile_cons,
      if_pos (by decide : domainChar '.' = true)]
  have hdotM : charAt ((D ++ '.' :: R2).takeWhile domainChar) D.length = some '.' := by
    rw [hM]
    unfold charAt
    rw [List.get?_append_right (le_refl D.length), Nat.sub_self]
    rfl
  have hMd : ((D ++ '.' :: R2).takeWhile domainChar).drop (D.length + 1) =
      R2.takeWhile domainChar := by
    rw [hM, show D ++ '.' :: R2.takeWhile domainChar =
        (D ++ ['.']) ++ R2.takeWhile domainChar from by simp,
      show D.length + 1 = (D ++ ['.']).length from by simp, List.drop_left]
  have hrunM : 2 ≤ ((((D ++ '.' :: R2).takeWhile domainChar).drop
      (D.length + 1)).takeWhile Char.isAlpha).length := by
    rw [hMd, takeWhile_sub (fun c hc => by simp [domainChar, Char.isAlphanum, hc]) R2]
    exact hT
  have hlenM : D.length ≤ ((D ++ '.' :: R2).takeWhile domainChar).length - 1 := by
    rw [hM]
    simp only [List.length_append, List.length_cons]
    omega
  have hfd := findDomDot_complete (by
      have := List.length_pos.mpr hD
      omega) hdotM hrunM _ hlenM
  intro hN
  unfold emailHere at hN
  simp only at hN
  rw [ha, if_neg (fun hE => hL (by simpa using hE)), hdrop] at hN
  cases hfdv : findDomDot ((D ++ '.' :: R2).takeWhile domainChar)
      (((D ++ '.' :: R2).takeWhile domainChar).length - 1) with
  | none => exact hfd hfdv
  | some dr =>
    obtain ⟨d, run⟩ := dr
    have h2 : (if ('@':Char) = '@' then
        match findDomDot ((D ++ '.' :: R2).takeWhile domainChar)
            (((D ++ '.' :: R2).takeWhile domainChar).length - 1) with
        | some (d, run) => some (L ++ '@' ::
            (((D ++ '.' :: R2).takeWhile domainChar).take d ++ '.' :: run))
        | none => none
      else none) = none := hN
    rw [if_pos rfl, hfdv] at h2
    simp at h2

/-! ## Structure of a successful match -/

theorem emailHere_some_decomp {u m : List Char} (h : emailHere u = some m) :
    ∃ L D T Z, m = L ++ '@' :: (D ++ '.' :: T) ∧ u = m ++ Z ∧
      L ≠ [] ∧ (∀ c ∈ L, localChar c = true) ∧ D ≠ [] ∧
      (∀ c ∈ D, domainChar c = true) ∧ 2 ≤ T.length ∧
      (∀ c ∈ T, Char.isAlpha c = true) := by
  obtain ⟨rest, d, run, hane, hdrop, hfd, hm⟩ := emailHere_elim h
  obtain ⟨hd1, hd2, hdot, hrun_eq, hrun_len⟩ := findDomDot_elim hfd
  have hdlt : d < (rest.takeWhile domainChar).length := charAt_lt hdot
  obtain ⟨z, hz⟩ := (List.takeWhile_prefix localChar (l := u))
  have hzeq : z = '@' :: rest := by
    have h3 := List.drop_left (u.takeWhile localChar) z
    rw [hz] at h3
    exact h3.symm.trans hdrop
  obtain ⟨z2, hz2⟩ := (List.takeWhile_prefix domainChar (l := rest))
  have hMsplit : rest.takeWhile domainChar =
      (rest.takeWhile domainChar).take d ++ '.' ::
        (rest.takeWhile domainChar).drop (d + 1) := by
    conv_lhs => rw [← List.take_append_drop d (rest.takeWhile domainChar)]
    rw [drop_eq_cons_of_charAt hdot]
  obtain ⟨z3, hz3⟩ := (List.takeWhile_prefix Char.isAlpha
    (l := (rest.takeWhile domainChar).drop (d + 1)))
  refine ⟨u.takeWhile localChar, (rest.takeWhile domainChar).take d, run,
    z3 ++ z2, hm, ?_, hane, fun c hc => List.mem_takeWhile_imp hc, ?_,
    fun c hc => List.mem_takeWhile_imp (List.mem_of_mem_take hc), hrun_len,
    fun c hc => by rw [hrun_eq] at hc; exact List.mem_takeWhile_imp hc⟩
  · rw [hm]
    calc u = u.takeWhile localChar ++ z := hz.symm
      _ = u.takeWhile localChar ++ '@' :: rest := by rw [hzeq]
      _ = u.takeWhile localChar ++ '@' :: (rest.takeWhile domainChar ++ z2) := by
          rw [hz2]
      _ = u.takeWhile localChar ++ '@' ::
          (((rest.takeWhile domainChar).take d ++ '.' ::
            (rest.takeWhile domainChar).drop (d + 1)) ++ z2) := by
          rw [← hMsplit]
      _ = u.takeWhile localChar ++ '@' ::
          (((rest.takeWhile domainChar).take d ++ '.' :: (run ++ z3)) ++ z2) := by
          rw [← hz3, ← hrun_eq]
      _ = (u.takeWhile localChar ++ '@' ::
          ((rest.takeWhile domainChar).take d ++ '.' :: run)) ++ (z3 ++ z2) := by
          simp [List.append_assoc]
  · intro h0
    have h1 := congrArg List.length h0
    rw [List.length_take] at h1
    simp only [List.length_nil] at h1
    omega

end ARS

namespace ARS

/-! ## Building and destructing the spec-side e-mail shape -/

theorem emailShapeAt_of_decomp_at {s : List Char} {i : Nat} {L D R2 : List Char}
    (hu : s.drop i = L ++ '@' :: (D ++ '.' :: R2)) (hi : i ≤ s.length)
    (hL : L ≠ []) (hLc : ∀ c ∈ L, localChar c = true)
    (hD : D ≠ []) (hDc : ∀ c ∈ D, domainChar c = true)
    (hT : 2 ≤ (R2.takeWhile Char.isAlpha).length) :
    emailShapeAt s i = true := by
  have hlen : s.length = i + (L.length + 1 + (D.length + 1 + R2.length)) := by
    have h1 := congrArg List.length hu
    rw [List.length_drop] at h1
    simp only [List.length_append, List.length_cons] at h1
    omega
  have hLpos : 0 < L.length := List.length_pos.mpr hL
  have hDpos : 0 < D.length := List.length_pos.mpr hD
  have hd1 : s.drop (i + L.length + 1) = D ++ '.' :: R2 := by
    have h2 : s.drop (i + L.length + 1) = (s.drop i).drop (L.length + 1) := by
      rw [List.drop_drop, Nat.add_assoc]
    rw [h2, hu, show L ++ '@' :: (D ++ '.' :: R2) =
        (L ++ ['@']) ++ (D ++ '.' :: R2) from by simp,
      show L.length + 1 = (L ++ ['@']).length from by simp, List.drop_left]
  have hd2 : s.drop (i + L.length + 1 + D.length + 1) = R2 := by
    have h2 : s.drop (i + L.length + 1 + D.length + 1) =
        (s.drop (i + L.length + 1)).drop (D.length + 1) := by
      rw [List.drop_drop, Nat.add_assoc]
    rw [h2, hd1, show D ++ '.' :: R2 = (D ++ ['.']) ++ R2 from by simp,
      show D.length + 1 = (D ++ ['.']).length from by simp, List.drop_left]
  unfold emailShapeAt
  rw [List.any_eq_true]
  refine ⟨i + L.length, List.mem_range.mpr (by omega), ?_⟩
  simp only [Bool.and_eq_true, decide_eq_true_eq, beq_iff_eq, List.all_eq_true]
  refine ⟨⟨⟨by omega, ?_⟩, ?_⟩, ?_⟩
  · -- local run
    intro x hx
    apply hLc
    have hsl : slice s i (i + L.length) = L := by
      unfold slice
      rw [show i + L.length - i = L.length from by omega, hu]
      rw [show L ++ '@' :: (D ++ '.' :: R2) = L ++ ('@' :: (D ++ '.' :: R2)) from rfl,
        List.take_left]
    rwa [hsl] at hx
  · -- the @
    unfold charAt
    rw [show i + L.length = i + L.length from rfl, ← List.get?_drop, hu,
      List.get?_append_right (le_refl L.length), Nat.sub_self]
    rfl
  · rw [List.any_eq_true]
    refine ⟨i + L.length + 1 + D.length, List.mem_range.mpr (by omega), ?_⟩
    simp only [Bool.and_eq_true, decide_eq_true_eq, beq_iff_eq, List.all_eq_true]
    refine ⟨⟨⟨by omega, ?_⟩, ?_⟩, ?_⟩
    · intro x hx
      apply hDc
      have hsl : slice s (i + L.length + 1) (i + L.length + 1 + D.length) = D := by
        unfold slice
        rw [show i + L.length + 1 + D.length - (i + L.length + 1) = D.length from by
            omega, hd1,
          show D ++ '.' :: R2 = D ++ ('.' :: R2) from rfl, List.take_left]
      rwa [hsl] at hx
    · unfold charAt
      rw [show i + L.length + 1 + D.length =
          (i + L.length + 1) + D.length from by omega, ← List.get?_drop, hd1,
        List.get?_append_right (le_refl D.length), Nat.sub_self]
      rfl
    · rw [hd2]
      exact hT

theorem decomp_of_emailShapeAt {s : List Char} {i : Nat}
    (h : emailShapeAt s i = true) :
    ∃ L D R2, s.drop i = L ++ '@' :: (D ++ '.' :: R2) ∧ L ≠ [] ∧
      (∀ c ∈ L, localChar c = true) ∧ D ≠ [] ∧
      (∀ c ∈ D, domainChar c = true) ∧
      2 ≤ (R2.takeWhile Char.isAlpha).length := by
  unfold emailShapeAt at h
  rw [List.any_eq_true] at h
  obtain ⟨j, hjr, hj⟩ := h
  rw [List.mem_range] at hjr
  simp only [Bool.and_eq_true, decide_eq_true_eq, beq_iff_eq, List.all_eq_true] at hj
  obtain ⟨⟨⟨hij, hLall⟩, hat⟩, hrest⟩ := hj
  rw [List.any_eq_true] at hrest
  obtain ⟨k, hkr, hk⟩ := hrest
  rw [List.mem_range] at hkr
  simp only [Bool.and_eq_true, decide_eq_true_eq, beq_iff_eq, List.all_eq_true] at hk
  obtain ⟨⟨⟨hjk, hDall⟩, hdot⟩, hTlen⟩ := hk
  have hjlen : j < s.length := charAt_lt hat
  have hklen : k < s.length := charAt_lt hdot
  refine ⟨slice s i j, slice s (j + 1) k, s.drop (k + 1), ?_, ?_, hLall, ?_, hDall,
    hTlen⟩
  · rw [drop_slice_split (show i ≤ j from by omega),
      drop_eq_cons_of_charAt hat,
      drop_slice_split (show j + 1 ≤ k from by omega),
      drop_eq_cons_of_charAt hdot]
  · intro h0
    have h1 := congrArg List.length h0
    rw [slice_length] at h1
    simp only [List.length_nil] at h1
    omega
  · intro h0
    have h1 := congrArg List.length h0
    rw [slice_length] at h1
    simp only [List.length_nil] at h1
    omega

end ARS

namespace ARS

/-- C5: after the `www.`-spacing preprocessing, if the cleaned text has
no e-mail-shaped substring then the Email field is the "Not Found"
sentinel; and if it has one, the Email field is the first left-to-right
match: an e-mail-shaped string `m` occurring at a position `i` before
which no e-mail-shaped substring begins. -/
theorem C5_email_not_found_or_first_match (phoneLib : String → Option String)
    (text filename : String) :
    ((∀ i, i < (wwwFix (crToLf text.data)).length →
        emailShapeAt (wwwFix (crToLf text.data)) i = false) →
      (extract_contact_details phoneLib text filename).Email = "Not Found") ∧
    (∀ i0, emailShapeAt (wwwFix (crToLf text.data)) i0 = true →
      ∃ i m, (extract_contact_details phoneLib text filename).Email = String.mk m ∧
        slice (wwwFix (crToLf text.data)) i (i + m.length) = m ∧
        emailShapeAt m 0 = true ∧
        ∀ i', i' < i → emailShapeAt (wwwFix (crToLf text.data)) i' = false) := by
  have hEmail : (extract_contact_details phoneLib text filename).Email =
      (match findEmail (wwwFix (crToLf text.data)) with
       | some m => String.mk m
       | none => "Not Found") := rfl
  constructor
  · intro hno
    rw [hEmail]
    cases hf : findEmail (wwwFix (crToLf text.data)) with
    | none => rfl
    | some m =>
      exfalso
      obtain ⟨i, hiS, _⟩ := findEmail_elim hf
      obtain ⟨L, D, T, Z, hmEq, huZ, hL, hLc, hD, hDc, hTlen, hTall⟩ :=
        emailHere_some_decomp hiS
      have hdecomp : (wwwFix (crToLf text.data)).drop i =
          L ++ '@' :: (D ++ '.' :: (T ++ Z)) := by
        rw [huZ, hmEq]
        simp [List.append_assoc]
      have hilt : i < (wwwFix (crToLf text.data)).length := by
        by_contra hge
        rw [List.drop_eq_nil_of_le (by omega)] at hdecomp
        exact hL (by simpa using hdecomp.symm)
      have hTZ : 2 ≤ ((T ++ Z).takeWhile Char.isAlpha).length := by
        have h1 := takeWhile_append_ge (f := Char.isAlpha) T Z
        rw [takeWhile_all hTall] at h1
        omega
      have hshape := emailShapeAt_of_decomp_at hdecomp (by omega) hL hLc hD hDc hTZ
      rw [hno i hilt] at hshape
      simp at hshape
  · intro i0 hsh0
    cases hf : findEmail (wwwFix (crToLf text.data)) with
    | none =>
      exfalso
      obtain ⟨L, D, R2, hu, hL, hLc, hD, hDc, hT⟩ := decomp_of_emailShapeAt hsh0
      apply emailHere_of_shape hL hLc hD hDc hT
      rw [← hu]
      exact findEmail_none hf i0
    | some m =>
      obtain ⟨i, hiS, hbefore⟩ := findEmail_elim hf
      obtain ⟨L, D, T, Z, hmEq, huZ, hL, hLc, hD, hDc, hTlen, hTall⟩ :=
        emailHere_some_decomp hiS
      refine ⟨i, m, ?_, ?_, ?_, ?_⟩
      · rw [hEmail, hf]
      · unfold slice
        rw [show i + m.length - i = m.length from by omega, huZ, List.take_left]
      · apply emailShapeAt_of_decomp_at (i := 0) (s := m)
          (by rw [List.drop_zero]; exact hmEq) (by omega) hL hLc hD hDc
        rw [takeWhile_all hTall]
        exact hTlen
      · intro i' hi'
        by_contra hsh'
        rw [Bool.not_eq_false] at hsh'
        obtain ⟨L', D', R2', hu', hL', hLc', hD', hDc', hT'⟩ :=
          decomp_of_emailShapeAt hsh'
        apply emailHere_of_shape hL' hLc' hD' hDc' hT'
        rw [← hu']
        exact hbefore i' hi'

unseal wwwFixGo in
/-- C5 applied at concrete inputs: a text with no e-mail shape yields
the sentinel, and a text containing `jane@ex.com` yields a first
left-to-right match. -/
theorem C5_email_not_found_or_first_match_witness :
    (extract_contact_details (fun _ => none) "no email here" "f.pdf").Email =
      "Not Found" ∧
    ∃ i m, (extract_contact_details (fun _ => none) "hi jane@ex.com" "f.pdf").Email =
        String.mk m ∧
      slice (wwwFix (crToLf ("hi jane@ex.com" : String).data)) i (i + m.length) = m ∧
      emailShapeAt m 0 = true ∧
      ∀ i', i' < i →
        emailShapeAt (wwwFix (crToLf ("hi jane@ex.com" : String).data)) i' = false :=
  ⟨(C5_email_not_found_or_first_match (fun _ => none) "no email here" "f.pdf").1
      (by decide),
   (C5_email_not_found_or_first_match (fun _ => none) "hi jane@ex.com" "f.pdf").2
      3 (by decide)⟩

end ARS

namespace ARS

/-! ## Non-emptiness of produced field strings -/

theorem mk_ne_empty {l : List Char} (h : l ≠ []) : String.mk l ≠ "" := by
  intro h0
  exact h (congrArg String.data h0)

theorem firstMatchStr_ne_nil {s : List Char} {pat : RePat} {m : List Char}
    (hmin : ∀ ts ∈ pat, 1 ≤ minToks ts)
    (h : firstMatchStr s pat = some m) : m ≠ [] := by
  unfold firstMatchStr at h
  cases hr : reSearch s pat with
  | none => rw [hr] at h; simp at h
  | some ae =>
    obtain ⟨a, e⟩ := ae
    rw [hr] at h
    simp only [Option.map_some'] at h
    obtain rfl : slice s a e = m := Option.some.inj h
    obtain ⟨ha, he, ts, hts, htr⟩ := reSearch_span hr
    have h1 := mem_tryToks_ge htr
    have h2 := hmin ts hts
    intro h0
    have h3 := congrArg List.length h0
    rw [slice_length] at h3
    simp only [List.length_nil] at h3
    omega

end ARS

namespace ARS

set_option maxHeartbeats 2000000 in
unseal wwwFixGo collapseNlRuns replaceAllSubGo in
/-- C1: totality of the extractors: every contact field is either the
`"Not Found"` sentinel, the wrapped library's answer (Phone), or a
nonempty derived string; the per-document analysis computes the four
extractors independently of one another; and on the empty text every
match-based extractor degrades to its empty value or sentinel. -/
theorem C1_extractors_total (phoneLib : String → Option String)
    (text filename : String) :
    ((extract_contact_details phoneLib text filename).Name = "Not Found" ∨
      (extract_contact_details phoneLib text filename).Name ≠ "") ∧
    ((extract_contact_details phoneLib text filename).Email = "Not Found" ∨
      (extract_contact_details phoneLib text filename).Email ≠ "") ∧
    ((extract_contact_details phoneLib text filename).Phone = "Not Found" ∨
      (∃ r, phoneLib (String.mk (wwwFix (crToLf text.data))) = some r ∧
        (extract_contact_details phoneLib text filename).Phone = r) ∨
      (extract_contact_details phoneLib text filename).Phone ≠ "") ∧
    ((extract_contact_details phoneLib text filename).Location = "Not Found" ∨
      (extract_contact_details phoneLib text filename).Location ≠ "") ∧
    (analyze phoneLib text filename).contact_details =
      extract_contact_details phoneLib text filename ∧
    (analyze phoneLib text filename).education = extract_education text ∧
    (analyze phoneLib text filename).experience = extract_experience text ∧
    (analyze phoneLib text filename).skills = extract_skills text ∧
    (text = "" → extract_education text = [] ∧ extract_experience text = [] ∧
      extract_skills text = [] ∧
      (extract_contact_details phoneLib text filename).Email = "Not Found") := by
  have hName : (extract_contact_details phoneLib text filename).Name =
      (if (extractName filename.data).isEmpty then "Not Found"
       else String.mk (extractName filename.data)) := rfl
  have hEmail : (extract_contact_details phoneLib text filename).Email =
      (match findEmail (wwwFix (crToLf text.data)) with
       | some m => String.mk m
       | none => "Not Found") := rfl
  have hPhone : (extract_contact_details phoneLib text filename).Phone =
      (match firstMatchStr (wwwFix (crToLf text.data)) phonePat1 with
       | some m => String.mk m
       | none =>
         match firstMatchStr (wwwFix (crToLf text.data)) phonePat2 with
         | some m => String.mk m
         | none =>
           match firstMatchStr (wwwFix (crToLf text.data)) phonePat3 with
           | some m => String.mk m
           | none =>
             match phoneLib (String.mk (wwwFix (crToLf text.data))) with
             | some f => f
             | none => "Not Found") := rfl
  have hLoc : (extract_contact_details phoneLib text filename).Location =
      (match findCity (((splitNl (crToLf text.data)).map pyStrip).filter
          fun l => !l.isEmpty) with
       | some kv => String.mk (pyTitle kv.1.data) ++ ", " ++ kv.2
       | none => "Not Found") := rfl
  have hA1 : (analyze phoneLib text filename).contact_details =
      extract_contact_details phoneLib text filename := rfl
  have hA2 : (analyze phoneLib text filename).education = extract_education text := rfl
  have hA3 : (analyze phoneLib text filename).experience = extract_experience text := rfl
  have hA4 : (analyze phoneLib text filename).skills = extract_skills text := rfl
  refine ⟨?_, ?_, ?_, ?_, hA1, hA2, hA3, hA4, ?_⟩
  · rw [hName]
    by_cases hN : (extractName filename.data).isEmpty
    · rw [if_pos hN]
      left
      rfl
    · rw [if_neg hN]
      right
      apply mk_ne_empty
      intro h0
      rw [h0] at hN
      exact hN rfl
  · rw [hEmail]
    cases hf : findEmail (wwwFix (crToLf text.data)) with
    | none => left; rfl
    | some m =>
      right
      obtain ⟨i, hiS, _⟩ := findEmail_elim hf
      obtain ⟨L, D, T, Z, hmEq, _, hL, _, _, _, _, _⟩ := emailHere_some_decomp hiS
      apply mk_ne_empty
      rw [hmEq]
      simp
  · rw [hPhone]
    cases h1 : firstMatchStr (wwwFix (crToLf text.data)) phonePat1 with
    | some m =>
      right; right
      exact mk_ne_empty (firstMatchStr_ne_nil (by decide) h1)
    | none =>
      cases h2 : firstMatchStr (wwwFix (crToLf text.data)) phonePat2 with
      | some m =>
        right; right
        exact mk_ne_empty (firstMatchStr_ne_nil (by decide) h2)
      | none =>
        cases h3 : firstMatchStr (wwwFix (crToLf text.data)) phonePat3 with
        | some m =>
          right; right
          exact mk_ne_empty (firstMatchStr_ne_nil (by decide) h3)
        | none =>
          cases h4 : phoneLib (String.mk (wwwFix (crToLf text.data))) with
          | some f => right; left; exact ⟨f, rfl, rfl⟩
          | none => left; rfl
  · rw [hLoc]
    cases hc : findCity (((splitNl (crToLf text.data)).map pyStrip).filter
        fun l => !l.isEmpty) with
    | none => left; rfl
    | some kv =>
      right
      intro h0
      have h1 := congrArg String.length h0
      simp only [String.length_append] at h1
      have h2 : (", " : String).length = 2 := rfl
      rw [h2] at h1
      simp at h1
  · intro hT
    subst hT
    refine ⟨by decide, by decide, by decide, ?_⟩
    rw [hEmail]
    rfl

/-- C1 applied at the empty text: the extractors degrade to empty
lists and the Email sentinel. -/
theorem C1_extractors_total_witness :
    extract_education "" = [] ∧ extract_experience "" = [] ∧
    extract_skills "" = [] ∧
    (extract_contact_details (fun _ => none) "" "f.pdf").Email = "Not Found" :=
  (C1_extractors_total (fun _ => none) "" "f.pdf").2.2.2.2.2.2.2.2 rfl

end ARS

namespace ARS

/-! ## More character-case facts -/

theorem isPySpace_upperChar (c : Char) :
    isPySpace (upperChar c) = isPySpace c := by
  rcases upperChar_spec c with ⟨h1, h2, h3⟩ | ⟨h1, h2⟩
  · have hl : isPySpace (upperChar c) = false := by
      rw [← Bool.not_eq_true, isPySpace_iff]
      omega
    have hr : isPySpace c = false := by
      rw [← Bool.not_eq_true, isPySpace_iff]
      omega
    rw [hl, hr]
  · rw [h2]

theorem lowerChar_space_fix {c : Char} (h : isPySpace c = true) :
    lowerChar c = c := by
  rcases lowerChar_spec c with ⟨h1, h2, h3⟩ | ⟨h1, h2⟩
  · rw [isPySpace_iff] at h
    omega
  · exact h2

theorem upperChar_space_fix {c : Char} (h : isPySpace c = true) :
    upperChar c = c := by
  rcases upperChar_spec c with ⟨h1, h2, h3⟩ | ⟨h1, h2⟩
  · rw [isPySpace_iff] at h
    omega
  · exact h2

theorem lowerChar_eq_symbol {d e : Char} (he : e.toNat < 97)
    (h : lowerChar d = e) : d = e := by
  rcases lowerChar_spec d with ⟨h1, h2, h3⟩ | ⟨h1, h2⟩
  · exfalso
    rw [char_eq_iff_toNat] at h
    omega
  · rw [← h2]
    exact h

theorem upperChar_eq_symbol {d e : Char} (he : e.toNat < 65 ∨ 90 < e.toNat)
    (h : upperChar d = e) : d = e := by
  rcases upperChar_spec d with ⟨h1, h2, h3⟩ | ⟨h1, h2⟩
  · exfalso
    rw [char_eq_iff_toNat] at h
    omega
  · rw [← h2]
    exact h

/-! ## Characters of the name-pipeline stages -/

theorem mem_pyTitleGo {c : Char} : ∀ {b : Bool} {s : List Char},
    c ∈ pyTitleGo b s → ∃ d ∈ s, c = lowerChar d ∨ c = upperChar d := by
  intro b s
  induction s generalizing b with
  | nil => intro h; simp [pyTitleGo] at h
  | cons x t ih =>
    intro h
    simp only [pyTitleGo, List.mem_cons] at h
    rcases h with h | h
    · refine ⟨x, by simp, ?_⟩
      by_cases hb : b
      · rw [hb] at h
        simp at h
        exact Or.inl h
      · rw [Bool.not_eq_true] at hb
        rw [hb] at h
        simp at h
        exact Or.inr h
    · obtain ⟨d, hd, hde⟩ := ih h
      exact ⟨d, by simp [hd], hde⟩

theorem mem_pyStrip {c : Char} {s : List Char} (h : c ∈ pyStrip s) : c ∈ s := by
  unfold pyStrip pyLstrip pyRstrip at h
  have h1 := (List.dropWhile_suffix isPySpace
    (l := (s.dropWhile isPySpace).reverse)).subset (List.mem_reverse.mp h)
  have h2 := (List.dropWhile_suffix isPySpace (l := s)).subset
    (List.mem_reverse.mp (by simpa using h1))
  exact h2

theorem mem_collapseWs {c : Char} : ∀ {s : List Char},
    c ∈ collapseWs s → c = ' ' ∨ c ∈ s := by
  have H : ∀ n : Nat, ∀ s : List Char, s.length ≤ n →
      c ∈ collapseWs s → c = ' ' ∨ c ∈ s := by
    intro n
    induction n with
    | zero =>
      intro s hs h
      have hnil : s = [] := by
        cases s with
        | nil => rfl
        | cons a t => simp at hs
      subst hnil
      simp [collapseWs] at h
    | succ m ih =>
      intro s hs h
      cases s with
      | nil => simp [collapseWs] at h
      | cons x t =>
        simp only [collapseWs] at h
        split at h
        · simp only [List.mem_cons] at h
          rcases h with h | h
          · exact Or.inl h
          · have hlen : (t.dropWhile isPySpace).length ≤ m := by
              have := (List.dropWhile_suffix (p := isPySpace) (l := t)).length_le
              simp only [List.length_cons] at hs
              omega
            rcases ih _ hlen h with h | h
            · exact Or.inl h
            · exact Or.inr (by
                simp only [List.mem_cons]
                exact Or.inr ((List.dropWhile_suffix isPySpace).subset h))
        · simp only [List.mem_cons] at h
          rcases h with h | h
          · exact Or.inr (by simp [h])
          · have hlen : t.length ≤ m := by
              simp only [List.length_cons] at hs
              omega
            rcases ih t hlen h with h | h
            · exact Or.inl h
            · exact Or.inr (by simp [h])
  intro s
  exact H s.length s (le_refl _)

theorem mem_removeSymbols {c : Char} {s : List Char}
    (h : c ∈ removeSymbols s) : c ∈ s :=
  (List.mem_filter.mp h).1

theorem mem_removeWordCIGo {c : Char} {w s : List Char} :
    ∀ fuel i, s.length - i ≤ fuel → c ∈ removeWordCIGo w s i → c ∈ s := by
  intro fuel
  induction fuel with
  | zero =>
    intro i hi h
    unfold removeWordCIGo at h
    rw [dif_neg (by omega)] at h
    simp at h
  | succ m ih =>
    intro i hi h
    unfold removeWordCIGo at h
    by_cases hlt : i < s.length
    · rw [dif_pos hlt] at h
      split at h
      · exact ih (i + w.length) (by omega) h
      · simp only [List.mem_cons] at h
        rcases h with h | h
        · rw [h]
          exact List.get_mem s i hlt
        · exact ih (i + 1) (by omega) h
    · rw [dif_neg hlt] at h
      simp at h

theorem mem_removeStops {c : Char} {s : List Char}
    (h : c ∈ removeStops s) : c ∈ s := by
  unfold removeStops at h
  have H : ∀ (ws : List (List Char)) (s0 : List Char),
      c ∈ ws.foldl (fun acc w => removeWordCI w acc) s0 → c ∈ s0 := by
    intro ws
    induction ws with
    | nil => intro s0 h0; simpa using h0
    | cons w ws' ih =>
      intro s0 h0
      simp only [List.foldl_cons] at h0
      have h1 := ih _ h0
      exact mem_removeWordCIGo _ 0 (le_refl _) h1
  exact H wordsToOmit s h

theorem mem_removeDigitTok {c : Char} {s : List Char}
    (h : c ∈ removeDigitTok s) : c ∈ s := by
  unfold removeDigitTok at h
  have H : ∀ fuel i, s.length - i ≤ fuel → c ∈ removeDigitTokGo s i → c ∈ s := by
    intro fuel
    induction fuel with
    | zero =>
      intro i hi h0
      unfold removeDigitTokGo at h0
      rw [dif_neg (by omega)] at h0
      simp at h0
    | succ m ih =>
      intro i hi h0
      unfold removeDigitTokGo at h0
      by_cases hlt : i < s.length
      · rw [dif_pos hlt] at h0
        split at h0
        · next hc =>
          exact ih (i + countWhile Char.isDigit s i) (by omega) h0
        · simp only [List.mem_cons] at h0
          rcases h0 with h0 | h0
          · rw [h0]
            exact List.get_mem s i hlt
          · exact ih (i + 1) (by omega) h0
      · rw [dif_neg hlt] at h0
        simp at h0
  exact H _ 0 (le_refl _) h

theorem mem_replaceChar {c a b : Char} {s : List Char}
    (h : c ∈ replaceChar a b s) : c = b ∨ c ∈ s := by
  unfold replaceChar at h
  obtain ⟨d, hd, hde⟩ := List.mem_map.mp h
  by_cases hda : d = a
  · rw [if_pos hda] at hde
    exact Or.inl hde.symm
  · rw [if_neg hda] at hde
    exact Or.inr (hde ▸ hd)

end ARS

namespace ARS

/-! ## Structure of collapsed and stripped strings -/

theorem dropWhile_head_false {f : Char → Bool} : ∀ {l : List Char} {c : Char},
    (l.dropWhile f).head? = some c → f c = false := by
  intro l
  induction l with
  | nil => intro c h; simp at h
  | cons x t ih =>
    intro c h
    rw [List.dropWhile_cons] at h
    split at h
    · exact ih h
    · next hf =>
      simp only [List.head?_cons, Option.some.injEq] at h
      rw [← h]
      exact Bool.not_eq_true _ ▸ Bool.of_not_eq_true hf

theorem collapseWs_nil : collapseWs [] = [] := by
  rw [collapseWs]

theorem collapseWs_cons_space {t : List Char} {c : Char} (h : isPySpace c = true) :
    collapseWs (c :: t) = ' ' :: collapseWs (t.dropWhile isPySpace) := by
  rw [collapseWs, if_pos h]

theorem collapseWs_cons_nonspace {t : List Char} {c : Char}
    (h : isPySpace c = false) :
    collapseWs (c :: t) = c :: collapseWs t := by
  rw [collapseWs, if_neg (by simp [h])]

theorem collapseWs_idem : ∀ {s : List Char},
    collapseWs (collapseWs s) = collapseWs s := by
  have H : ∀ n : Nat, ∀ s : List Char, s.length ≤ n →
      collapseWs (collapseWs s) = collapseWs s := by
    intro n
    induction n with
    | zero =>
      intro s hs
      have hnil : s = [] := by
        cases s with
        | nil => rfl
        | cons a t => simp at hs
      subst hnil
      rw [collapseWs_nil, collapseWs_nil]
    | succ m ih =>
      intro s hs
      cases s with
      | nil => rw [collapseWs_nil, collapseWs_nil]
      | cons x t =>
        by_cases hx : isPySpace x = true
        · rw [collapseWs_cons_space hx,
            collapseWs_cons_space (by decide : isPySpace ' ' = true)]
          have hlen : (t.dropWhile isPySpace).length ≤ m := by
            have := (List.dropWhile_suffix (p := isPySpace) (l := t)).length_le
            simp only [List.length_cons] at hs
            omega
          have hdw : (collapseWs (t.dropWhile isPySpace)).dropWhile isPySpace =
              collapseWs (t.dropWhile isPySpace) := by
            cases hcase : t.dropWhile isPySpace with
            | nil => rw [collapseWs_nil]; rfl
            | cons d w =>
              have hd : isPySpace d = false :=
                dropWhile_head_false (l := t) (by rw [hcase]; rfl)
              rw [collapseWs_cons_nonspace hd, List.dropWhile_cons,
                if_neg (by simp [hd])]
          rw [hdw, ih _ hlen]
        · rw [Bool.not_eq_true] at hx
          rw [collapseWs_cons_nonspace hx, collapseWs_cons_nonspace hx]
          have hlen : t.length ≤ m := by
            simp only [List.length_cons] at hs
            omega
          rw [ih t hlen]
  intro s
  exact H s.length s (le_refl _)

theorem collapseWs_pyLstrip_id {s : List Char} (h : collapseWs s = s) :
    collapseWs (pyLstrip s) = pyLstrip s := by
  cases s with
  | nil => simp [pyLstrip, collapseWs_nil]
  | cons x t =>
    by_cases hx : isPySpace x = true
    · rw [collapseWs_cons_space hx] at h
      have ht : collapseWs (t.dropWhile isPySpace) = t := by
        have h2 := congrArg List.tail h
        simpa using h2
      have hpl : pyLstrip (x :: t) = t.dropWhile isPySpace := by
        unfold pyLstrip
        rw [List.dropWhile_cons, if_pos (by simp [hx])]
      have hhead : t = [] ∨ ∃ d w0, t = d :: w0 ∧ isPySpace d = false := by
        cases hcase : t.dropWhile isPySpace with
        | nil =>
          left
          rw [hcase, collapseWs_nil] at ht
          exact ht.symm
        | cons d w =>
          right
          have hd : isPySpace d = false :=
            dropWhile_head_false (l := t) (by rw [hcase]; rfl)
          refine ⟨d, collapseWs w, ?_, hd⟩
          rw [← ht, hcase, collapseWs_cons_nonspace hd]
      rcases hhead with rfl | ⟨d, w0, rfl, hd⟩
      · rw [hpl]
        rw [show List.dropWhile isPySpace [] = [] from rfl, collapseWs_nil]
      · rw [hpl, List.dropWhile_cons, if_neg (by simp [hd])]
        rw [List.dropWhile_cons, if_neg (by simp [hd])] at ht
        exact ht
    · rw [Bool.not_eq_true] at hx
      have hpl : pyLstrip (x :: t) = x :: t := by
        unfold pyLstrip
        rw [List.dropWhile_cons, if_neg (by simp [hx])]
      rw [hpl]
      exact h

theorem pyRstrip_prefix (s : List Char) : ∃ W, s = pyRstrip s ++ W ∧
    ∀ x ∈ W, isPySpace x = true := by
  refine ⟨(s.reverse.takeWhile isPySpace).reverse, ?_, ?_⟩
  · unfold pyRstrip
    conv_lhs => rw [← List.reverse_reverse s,
      ← List.takeWhile_append_dropWhile isPySpace s.reverse]
    rw [List.reverse_append]
  · intro x hx
    exact List.mem_takeWhile_imp (List.mem_reverse.mp hx)

theorem pyRstrip_cons_of_ne {x : Char} {t : List Char}
    (h : t.reverse.dropWhile isPySpace ≠ []) :
    pyRstrip (x :: t) = x :: pyRstrip t := by
  unfold pyRstrip
  rw [List.reverse_cons, List.dropWhile_append]
  rw [if_neg (by simpa [List.isEmpty_iff] using h)]
  rw [List.reverse_append]
  rfl

theorem pyRstrip_cons_of_allspace {x : Char} {t : List Char}
    (h : t.reverse.dropWhile isPySpace = []) :
    pyRstrip (x :: t) = if isPySpace x then [] else [x] := by
  unfold pyRstrip
  rw [List.reverse_cons, List.dropWhile_append, if_pos (by simp [h])]
  by_cases hx : isPySpace x = true
  · rw [if_pos hx]
    simp only [List.dropWhile_cons, hx]
    rfl
  · rw [Bool.not_eq_true] at hx
    rw [if_neg (by simp [hx])]
    simp only [List.dropWhile_cons, hx]
    rfl

theorem collapseWs_pyRstrip_id : ∀ {s : List Char}, collapseWs s = s →
    collapseWs (pyRstrip s) = pyRstrip s := by
  intro s
  induction s with
  | nil =>
    intro h
    rw [show pyRstrip [] = [] from rfl, collapseWs_nil]
  | cons x t ih =>
    intro h
    by_cases hall : t.reverse.dropWhile isPySpace = []
    · rw [pyRstrip_cons_of_allspace hall]
      by_cases hx : isPySpace x = true
      · rw [if_pos hx]
        exact collapseWs_nil
      · rw [Bool.not_eq_true] at hx
        rw [if_neg (by simp [hx]), collapseWs_cons_nonspace hx, collapseWs_nil]
    · rw [pyRstrip_cons_of_ne hall]
      have hrne : pyRstrip t ≠ [] := by
        unfold pyRstrip
        intro h0
        apply hall
        have h1 := congrArg List.reverse h0
        rw [List.reverse_reverse] at h1
        simpa using h1
      by_cases hx : isPySpace x = true
      · rw [collapseWs_cons_space hx] at h
        have hx2 : x = ' ' := by
          have h2 := congrArg List.head? h
          simpa using h2.symm
        have ht : collapseWs (t.dropWhile isPySpace) = t := by
          have h2 := congrArg List.tail h
          simpa using h2
        have htc : collapseWs t = t := by
          conv_lhs => rw [← ht]
          rw [collapseWs_idem, ht]
        have hhead : ∃ d w0, t = d :: w0 ∧ isPySpace d = false := by
          cases hcase : t.dropWhile isPySpace with
          | nil =>
            exfalso
            rw [hcase, collapseWs_nil] at ht
            rw [← ht] at hrne
            exact hrne (by unfold pyRstrip; rfl)
          | cons d w =>
            have hd : isPySpace d = false :=
              dropWhile_head_false (l := t) (by rw [hcase]; rfl)
            refine ⟨d, collapseWs w, ?_, hd⟩
            rw [← ht, hcase, collapseWs_cons_nonspace hd]
        obtain ⟨d, w0, ht2, hd⟩ := hhead
        obtain ⟨W, hW, hWsp⟩ := pyRstrip_prefix t
        have hrp : ∃ w1, pyRstrip t = d :: w1 := by
          cases hrpc : pyRstrip t with
          | nil => exact absurd hrpc hrne
          | cons e w1 =>
            refine ⟨w1, ?_⟩
            have h1 : t.head? = some e := by
              rw [hW, hrpc]
              rfl
            rw [ht2] at h1
            simp only [List.head?_cons, Option.some.injEq] at h1
            rw [h1]
        obtain ⟨w1, hrp⟩ := hrp
        rw [hx2, collapseWs_cons_space (by decide)]
        rw [hrp, List.dropWhile_cons, if_neg (by simp [hd]), ← hrp, ih htc]
      · rw [Bool.not_eq_true] at hx
        rw [collapseWs_cons_nonspace hx] at h
        have ht : collapseWs t = t := by
          have h2 := congrArg List.tail h
          simpa using h2
        rw [collapseWs_cons_nonspace hx, ih ht]

end ARS

namespace ARS

/-! ## Title-casing: structure lemmas -/

theorem isAlpha_of_space {c : Char} (h : isPySpace c = true) :
    c.isAlpha = false := by
  rw [← Bool.not_eq_true, isAlpha_iff]
  rw [isPySpace_iff] at h
  omega

theorem caseMap_space_fix {c : Char} (b : Bool) (h : isPySpace c = true) :
    (if b then lowerChar c else upperChar c) = c := by
  cases b with
  | true => simpa using lowerChar_space_fix h
  | false => simpa using upperChar_space_fix h

theorem isPySpace_caseMap (b : Bool) (c : Char) :
    isPySpace (if b then lowerChar c else upperChar c) = isPySpace c := by
  cases b with
  | true => simpa using isPySpace_lowerChar c
  | false => simpa using isPySpace_upperChar c

theorem isAlpha_caseMap (b : Bool) (c : Char) :
    (if b then lowerChar c else upperChar c).isAlpha = c.isAlpha := by
  cases b with
  | true => simpa using isAlpha_lowerChar c
  | false => simpa using isAlpha_upperChar c

theorem pyTitleGo_dropWhile : ∀ (t : List Char),
    (pyTitleGo false t).dropWhile isPySpace =
      pyTitleGo false (t.dropWhile isPySpace) := by
  intro t
  induction t with
  | nil => rfl
  | cons d t' ih =>
    by_cases hd : isPySpace d = true
    · have hfix : upperChar d = d := upperChar_space_fix hd
      have halpha : d.isAlpha = false := isAlpha_of_space hd
      show (upperChar d :: pyTitleGo d.isAlpha t').dropWhile isPySpace = _
      rw [hfix, halpha, List.dropWhile_cons, if_pos (by simp [hd]),
        List.dropWhile_cons, if_pos (by simp [hd]), ih]
    · rw [Bool.not_eq_true] at hd
      have hfix : isPySpace (upperChar d) = false := by
        rw [isPySpace_upperChar]
        exact hd
      show (upperChar d :: pyTitleGo d.isAlpha t').dropWhile isPySpace = _
      rw [List.dropWhile_cons, if_neg (by simp [hfix]),
        List.dropWhile_cons, if_neg (by simp [hd])]
      rfl

theorem collapseWs_pyTitleGo : ∀ (n : Nat) (s : List Char) (b : Bool),
    s.length ≤ n → collapseWs (pyTitleGo b s) = pyTitleGo b (collapseWs s) := by
  intro n
  induction n with
  | zero =>
    intro s b hs
    have hnil : s = [] := by
      cases s with
      | nil => rfl
      | cons a t => simp at hs
    subst hnil
    show collapseWs [] = pyTitleGo b (collapseWs [])
    rw [collapseWs_nil]
    rfl
  | succ m ih =>
    intro s b hs
    cases s with
    | nil =>
      show collapseWs [] = pyTitleGo b (collapseWs [])
      rw [collapseWs_nil]
      rfl
    | cons c t =>
      by_cases hc : isPySpace c = true
      · have hfix : (if b then lowerChar c else upperChar c) = c :=
          caseMap_space_fix b hc
        have halpha : c.isAlpha = false := isAlpha_of_space hc
        show collapseWs ((if b then lowerChar c else upperChar c) ::
          pyTitleGo c.isAlpha t) = pyTitleGo b (collapseWs (c :: t))
        rw [hfix, halpha, collapseWs_cons_space hc, collapseWs_cons_space hc]
        show _ = (if b then lowerChar ' ' else upperChar ' ') ::
          pyTitleGo (' ').isAlpha (collapseWs (t.dropWhile isPySpace))
        rw [caseMap_space_fix b (by decide),
          show (' ').isAlpha = false from rfl, pyTitleGo_dropWhile,
          ih (t.dropWhile isPySpace) false (by
            have := (List.dropWhile_suffix (p := isPySpace) (l := t)).length_le
            simp only [List.length_cons] at hs
            omega)]
      · rw [Bool.not_eq_true] at hc
        have hfix : isPySpace (if b then lowerChar c else upperChar c) = false := by
          rw [isPySpace_caseMap]
          exact hc
        show collapseWs ((if b then lowerChar c else upperChar c) ::
          pyTitleGo c.isAlpha t) = pyTitleGo b (collapseWs (c :: t))
        rw [collapseWs_cons_nonspace hfix, collapseWs_cons_nonspace hc]
        show _ = (if b then lowerChar c else upperChar c) ::
          pyTitleGo c.isAlpha (collapseWs t)
        rw [ih t c.isAlpha (by simp only [List.length_cons] at hs; omega)]

theorem pyTitleGo_append : ∀ (xs ys : List Char) (b : Bool),
    pyTitleGo b (xs ++ ys) =
      pyTitleGo b xs ++ pyTitleGo (xs.foldl (fun _ c => c.isAlpha) b) ys := by
  intro xs
  induction xs with
  | nil => intro ys b; rfl
  | cons x xt ih =>
    intro ys b
    show (if b then lowerChar x else upperChar x) :: pyTitleGo x.isAlpha (xt ++ ys) = _
    rw [ih ys x.isAlpha]
    rfl

theorem pyTitleGo_idem : ∀ (s : List Char) (b : Bool),
    pyTitleGo b (pyTitleGo b s) = pyTitleGo b s := by
  intro s
  induction s with
  | nil => intro b; rfl
  | cons c t ih =>
    intro b
    show pyTitleGo b ((if b then lowerChar c else upperChar c) ::
      pyTitleGo c.isAlpha t) = _
    show (if b then lowerChar (if b then lowerChar c else upperChar c)
        else upperChar (if b then lowerChar c else upperChar c)) ::
      pyTitleGo (if b then lowerChar c else upperChar c).isAlpha
        (pyTitleGo c.isAlpha t) = _
    rw [isAlpha_caseMap, ih c.isAlpha]
    congr 1
    cases b with
    | true => simpa using lowerChar_idem c
    | false => simpa using upperChar_idem c

theorem pyRstrip_of_last {l : List Char} {c : Char} (h : l.getLast? = some c)
    (hc : isPySpace c = false) : pyRstrip l = l := by
  unfold pyRstrip
  rw [dropWhile_head_neg (by rw [List.head?_reverse]; exact h) hc,
    List.reverse_reverse]

theorem pyLstrip_of_head {l : List Char} {c : Char} (h : l.head? = some c)
    (hc : isPySpace c = false) : pyLstrip l = l :=
  dropWhile_head_neg h hc

end ARS

namespace ARS

/-! ## Identity of the name-pipeline stages under absence hypotheses -/

theorem findIdx_all_false {p : Char → Bool} :
    ∀ (l : List Char) (i : Nat), (∀ x ∈ l, p x = false) →
      l.findIdx? p i = none := by
  intro l
  induction l with
  | nil => intro i h; exact List.findIdx?_nil
  | cons x t ih =>
    intro i h
    rw [List.findIdx?_cons, if_neg (by simp [h x (by simp)])]
    exact ih (i + 1) (fun y hy => h y (by simp [hy]))

theorem lastIdx_none_of_not_mem {c : Char} {s : List Char} (h : c ∉ s) :
    lastIdx c s = none := by
  have h0 : ∀ x ∈ s.reverse, (decide (x = c)) = false := by
    intro x hx
    simp only [decide_eq_false_iff_not]
    intro he
    exact h (he ▸ List.mem_reverse.mp hx)
  unfold lastIdx
  rw [findIdx_all_false s.reverse 0 h0]
  rfl

theorem splitextBase_id {s : List Char} (h : '.' ∉ s) : splitextBase s = s := by
  unfold splitextBase
  rw [lastIdx_none_of_not_mem h]

theorem replaceChar_id {a b : Char} {s : List Char} (h : a ∉ s) :
    replaceChar a b s = s := by
  unfold replaceChar
  have hfun : ∀ c ∈ s, (if c = a then b else c) = id c := by
    intro c hc
    rw [if_neg (by rintro rfl; exact h hc)]
    rfl
  rw [List.map_congr_left hfun, List.map_id]

theorem replaceChar_not_mem {a b : Char} (hab : a ≠ b) (s : List Char) :
    a ∉ replaceChar a b s := by
  intro h
  obtain ⟨d, _, hde⟩ := List.mem_map.mp h
  by_cases hda : d = a
  · rw [if_pos hda] at hde
    exact hab hde.symm
  · rw [if_neg hda] at hde
    exact hda hde

theorem removeSymbols_id {s : List Char} (h1 : '-' ∉ s) (h2 : '(' ∉ s)
    (h3 : ')' ∉ s) : removeSymbols s = s := by
  unfold removeSymbols
  rw [List.filter_eq_self.mpr]
  intro a ha
  have ha1 : a ≠ '-' := fun he => h1 (he ▸ ha)
  have ha2 : a ≠ '(' := fun he => h2 (he ▸ ha)
  have ha3 : a ≠ ')' := fun he => h3 (he ▸ ha)
  simp [ha1, ha2, ha3]

theorem removeWordCIGo_id {w s : List Char}
    (hw : containsWordCI w s = false) :
    ∀ fuel i, s.length - i ≤ fuel → removeWordCIGo w s i = s.drop i := by
  intro fuel
  induction fuel with
  | zero =>
    intro i hi
    unfold removeWordCIGo
    rw [dif_neg (by omega), List.drop_eq_nil_of_le (by omega)]
  | succ m ih =>
    intro i hi
    unfold removeWordCIGo
    by_cases hlt : i < s.length
    · rw [dif_pos hlt]
      have hguard : ¬(0 < w.length ∧ ciAt w s i = true ∧ boundaryAt s i = true ∧
          boundaryAt s (i + w.length) = true) := by
        intro hg
        have hmem : i ∈ List.range (s.length + 1) := List.mem_range.mpr (by omega)
        have hfalse := (List.any_eq_false.mp hw) i hmem
        simp only [Bool.and_eq_true] at hfalse
        exact hfalse ⟨⟨hg.2.1, hg.2.2.1⟩, hg.2.2.2⟩
      rw [if_neg hguard, ih (i + 1) (by omega)]
      exact List.get_cons_drop s ⟨i, hlt⟩
    · rw [dif_neg hlt, List.drop_eq_nil_of_le (by omega)]

theorem removeWordCI_id {w s : List Char} (hw : containsWordCI w s = false) :
    removeWordCI w s = s := by
  unfold removeWordCI
  have h0 := removeWordCIGo_id hw s.length 0 (by omega)
  rw [List.drop_zero] at h0
  exact h0

theorem removeStops_id {s : List Char}
    (h : ∀ w ∈ wordsToOmit, containsWordCI w s = false) :
    removeStops s = s := by
  unfold removeStops
  have H : ∀ ws : List (List Char), (∀ w ∈ ws, containsWordCI w s = false) →
      ws.foldl (fun acc w => removeWordCI w acc) s = s := by
    intro ws
    induction ws with
    | nil => intro _; rfl
    | cons w ws' ih =>
      intro hws
      simp only [List.foldl_cons]
      rw [removeWordCI_id (hws w (by simp))]
      exact ih (fun w' hw' => hws w' (by simp [hw']))
  exact H wordsToOmit h

theorem removeDigitTokGo_id {s : List Char}
    (h : ∀ i, i < s.length → ¬(0 < countWhile Char.isDigit s i ∧
      boundaryAt s i = true ∧
      boundaryAt s (i + countWhile Char.isDigit s i) = true)) :
    ∀ fuel i, s.length - i ≤ fuel → removeDigitTokGo s i = s.drop i := by
  intro fuel
  induction fuel with
  | zero =>
    intro i hi
    unfold removeDigitTokGo
    rw [dif_neg (by omega), List.drop_eq_nil_of_le (by omega)]
  | succ m ih =>
    intro i hi
    unfold removeDigitTokGo
    by_cases hlt : i < s.length
    · rw [dif_pos hlt, if_neg (h i hlt), ih (i + 1) (by omega)]
      exact List.get_cons_drop s ⟨i, hlt⟩
    · rw [dif_neg hlt, List.drop_eq_nil_of_le (by omega)]

theorem removeDigitTok_id {s : List Char}
    (h : ∀ i, i < s.length → ¬(0 < countWhile Char.isDigit s i ∧
      boundaryAt s i = true ∧
      boundaryAt s (i + countWhile Char.isDigit s i) = true)) :
    removeDigitTok s = s := by
  unfold removeDigitTok
  have h0 := removeDigitTokGo_id h s.length 0 (by omega)
  rw [List.drop_zero] at h0
  exact h0

end ARS

namespace ARS

/-! ## Ends and characters of the title-cased stripped name -/

theorem pyTitleGo_head {s : List Char} {b : Bool} {c : Char}
    (h : (pyTitleGo b s).head? = some c) :
    ∃ d, s.head? = some d ∧ (c = lowerChar d ∨ c = upperChar d) := by
  cases s with
  | nil =>
    rw [show pyTitleGo b [] = [] from rfl] at h
    simp at h
  | cons x t =>
    rw [show pyTitleGo b (x :: t) =
      (if b then lowerChar x else upperChar x) :: pyTitleGo x.isAlpha t from rfl] at h
    simp only [List.head?_cons, Option.some.injEq] at h
    refine ⟨x, rfl, ?_⟩
    by_cases hb : b = true
    · rw [if_pos hb] at h
      exact Or.inl h.symm
    · rw [if_neg hb] at h
      exact Or.inr h.symm

theorem pyTitleGo_getLast {s : List Char} {b : Bool} {c : Char}
    (h : (pyTitleGo b s).getLast? = some c) :
    ∃ d, s.getLast? = some d ∧ (c = lowerChar d ∨ c = upperChar d) := by
  cases hs : s.getLast? with
  | none =>
    have hnil : s = [] := by
      cases s with
      | nil => rfl
      | cons x t =>
        rw [List.getLast?_eq_getLast (x :: t) (by simp)] at hs
        exact absurd hs (by simp)
    subst hnil
    rw [show pyTitleGo b [] = [] from rfl] at h
    simp at h
  | some d =>
    refine ⟨d, rfl, ?_⟩
    have hne : s ≠ [] := by
      intro hnil
      rw [hnil] at hs
      simp at hs
    have hd : s.getLast hne = d := by
      rw [List.getLast?_eq_getLast s hne] at hs
      exact Option.some.inj hs
    have hsplit := List.dropLast_append_getLast hne
    rw [← hsplit, pyTitleGo_append] at h
    generalize s.dropLast.foldl (fun _ c => c.isAlpha) b = b2 at h
    rw [show pyTitleGo b2 [s.getLast hne] =
      [if b2 then lowerChar (s.getLast hne) else upperChar (s.getLast hne)] from rfl,
      List.getLast?_concat] at h
    have hc := Option.some.inj h
    rw [hd] at hc
    by_cases hb : b2 = true
    · rw [if_pos hb] at hc
      exact Or.inl hc.symm
    · rw [if_neg hb] at hc
      exact Or.inr hc.symm

theorem pyStrip_head_space {u : List Char} {c : Char}
    (h : (pyStrip u).head? = some c) : isPySpace c = false := by
  obtain ⟨W, hW, -⟩ := pyRstrip_prefix (pyLstrip u)
  have hh : (pyLstrip u).head? = some c := by
    rw [hW, List.head?_append]
    show (pyStrip u).head?.or W.head? = some c
    rw [h]
    rfl
  exact dropWhile_head_false hh

theorem pyStrip_last_space {u : List Char} {c : Char}
    (h : (pyStrip u).getLast? = some c) : isPySpace c = false := by
  unfold pyStrip pyRstrip at h
  rw [List.getLast?_reverse] at h
  exact dropWhile_head_false h

theorem pyStrip_id_of_ends {l : List Char}
    (hh : ∀ c, l.head? = some c → isPySpace c = false)
    (hl : ∀ c, l.getLast? = some c → isPySpace c = false) :
    pyStrip l = l := by
  cases l with
  | nil => rfl
  | cons x t =>
    have h1 : pyLstrip (x :: t) = x :: t :=
      pyLstrip_of_head rfl (hh x rfl)
    have hne : (x :: t) ≠ ([] : List Char) := by simp
    have h2 : pyRstrip (x :: t) = x :: t :=
      pyRstrip_of_last (List.getLast?_eq_getLast (x :: t) hne)
        (hl _ (List.getLast?_eq_getLast (x :: t) hne))
    unfold pyStrip
    rw [h1, h2]

theorem pyTitle_pyStrip_head {u : List Char} {c : Char}
    (h : (pyTitle (pyStrip u)).head? = some c) : isPySpace c = false := by
  obtain ⟨d, hd, hde⟩ := pyTitleGo_head h
  have hdspace : isPySpace d = false := pyStrip_head_space hd
  rcases hde with rfl | rfl
  · rw [isPySpace_lowerChar]
    exact hdspace
  · rw [isPySpace_upperChar]
    exact hdspace

theorem pyTitle_pyStrip_last {u : List Char} {c : Char}
    (h : (pyTitle (pyStrip u)).getLast? = some c) : isPySpace c = false := by
  obtain ⟨d, hd, hde⟩ := pyTitleGo_getLast h
  have hdspace : isPySpace d = false := pyStrip_last_space hd
  rcases hde with rfl | rfl
  · rw [isPySpace_lowerChar]
    exact hdspace
  · rw [isPySpace_upperChar]
    exact hdspace

theorem pyStrip_pyTitle_pyStrip (u : List Char) :
    pyStrip (pyTitle (pyStrip u)) = pyTitle (pyStrip u) := by
  refine pyStrip_id_of_ends ?_ ?_
  · intro c hc
    exact pyTitle_pyStrip_head hc
  · intro c hc
    exact pyTitle_pyStrip_last hc

theorem collapseWs_pyTitle_pyStrip (v : List Char) :
    collapseWs (pyTitle (pyStrip (collapseWs v))) =
      pyTitle (pyStrip (collapseWs v)) := by
  have hY : collapseWs (collapseWs v) = collapseWs v := collapseWs_idem
  have hL : collapseWs (pyLstrip (collapseWs v)) = pyLstrip (collapseWs v) :=
    collapseWs_pyLstrip_id hY
  have hS : collapseWs (pyStrip (collapseWs v)) = pyStrip (collapseWs v) :=
    collapseWs_pyRstrip_id hL
  have hC := collapseWs_pyTitleGo (pyStrip (collapseWs v)).length
    (pyStrip (collapseWs v)) false (le_refl _)
  rw [hS] at hC
  exact hC

theorem pyTitle_pyTitle (s : List Char) : pyTitle (pyTitle s) = pyTitle s :=
  pyTitleGo_idem s false

theorem extractName_chars {c : Char} {f : List Char} (h : c ∈ extractName f) :
    ∃ d, (c = lowerChar d ∨ c = upperChar d) ∧
      (d = ' ' ∨ d ∈ removeSymbols (removeDigitTok (removeStops
        (replaceChar '-' ' ' (replaceChar '_' ' ' (splitextBase f)))))) := by
  unfold extractName pyTitle at h
  obtain ⟨d, hd, hde⟩ := mem_pyTitleGo h
  have hd2 := mem_pyStrip hd
  have hd3 := mem_collapseWs hd2
  exact ⟨d, hde, hd3⟩

theorem extractName_no_underscore (f : List Char) : '_' ∉ extractName f := by
  intro hmem
  obtain ⟨d, hde, hd⟩ := extractName_chars hmem
  have hdd : d = '_' := by
    rcases hde with h | h
    · exact lowerChar_eq_symbol (by decide) h.symm
    · exact upperChar_eq_symbol (Or.inr (by decide)) h.symm
  subst hdd
  rcases hd with h | h
  · exact absurd h (by decide)
  · have h2 := mem_removeDigitTok (mem_removeSymbols h)
    have h3 := mem_removeStops h2
    rcases mem_replaceChar h3 with h4 | h4
    · exact absurd h4 (by decide)
    · exact replaceChar_not_mem (by decide) (splitextBase f) h4

theorem extractName_no_dash {f : List Char} {e : Char}
    (he1 : e.toNat < 65) (he2 : e = '-' ∨ e = '(' ∨ e = ')') :
    e ∉ extractName f := by
  intro hmem
  obtain ⟨d, hde, hd⟩ := extractName_chars hmem
  have hdd : d = e := by
    rcases hde with h | h
    · exact lowerChar_eq_symbol (by omega) h.symm
    · exact upperChar_eq_symbol (Or.inl he1) h.symm
  subst hdd
  rcases hd with h | h
  · rcases he2 with rfl | rfl | rfl
    · exact absurd h (by decide)
    · exact absurd h (by decide)
    · exact absurd h (by decide)
  · have h2 := (List.mem_filter.mp h).2
    rcases he2 with rfl | rfl | rfl
    · exact absurd h2 (by decide)
    · exact absurd h2 (by decide)
    · exact absurd h2 (by decide)

end ARS

namespace ARS

/-- **C7.** Corrected form.  The name-derivation step of
`extract_contact_details` is idempotent on its own output **provided**
that output contains no dot (a dot makes the second run strip a fake
"extension"), no stop-word of the omit list as a boundary-delimited
case-insensitive whole word, and no boundary-delimited digit run.  Under
those three conditions, re-running the pipeline on its own title-cased
output returns it unchanged. -/
theorem C7_name_pipeline_idempotent_conditional (f : List Char)
    (h1 : '.' ∉ extractName f)
    (h2 : ∀ w ∈ wordsToOmit, containsWordCI w (extractName f) = false)
    (h3 : ∀ i, i < (extractName f).length →
      ¬(0 < countWhile Char.isDigit (extractName f) i ∧
        boundaryAt (extractName f) i = true ∧
        boundaryAt (extractName f)
          (i + countWhile Char.isDigit (extractName f) i) = true)) :
    extractName (extractName f) = extractName f := by
  have e1 : splitextBase (extractName f) = extractName f := splitextBase_id h1
  have e2 : replaceChar '_' ' ' (extractName f) = extractName f :=
    replaceChar_id (extractName_no_underscore f)
  have e3 : replaceChar '-' ' ' (extractName f) = extractName f :=
    replaceChar_id (extractName_no_dash (by decide) (Or.inl rfl))
  have e4 : removeStops (extractName f) = extractName f := removeStops_id h2
  have e5 : removeDigitTok (extractName f) = extractName f := removeDigitTok_id h3
  have e6 : removeSymbols (extractName f) = extractName f :=
    removeSymbols_id (extractName_no_dash (by decide) (Or.inl rfl))
      (extractName_no_dash (by decide) (Or.inr (Or.inl rfl)))
      (extractName_no_dash (by decide) (Or.inr (Or.inr rfl)))
  have e7 : collapseWs (extractName f) = extractName f :=
    collapseWs_pyTitle_pyStrip (removeSymbols (removeDigitTok (removeStops
      (replaceChar '-' ' ' (replaceChar '_' ' ' (splitextBase f))))))
  have e8 : pyStrip (extractName f) = extractName f :=
    pyStrip_pyTitle_pyStrip (collapseWs (removeSymbols (removeDigitTok (removeStops
      (replaceChar '-' ' ' (replaceChar '_' ' ' (splitextBase f)))))))
  show pyTitle (pyStrip (collapseWs (removeSymbols (removeDigitTok (removeStops
    (replaceChar '-' ' ' (replaceChar '_' ' '
      (splitextBase (extractName f))))))))) = extractName f
  rw [e1, e2, e3, e4, e5, e6, e7, e8]
  exact pyTitle_pyTitle (pyStrip (collapseWs (removeSymbols (removeDigitTok
    (removeStops (replaceChar '-' ' ' (replaceChar '_' ' ' (splitextBase f))))))))

unseal removeWordCIGo removeDigitTokGo collapseWs in
/-- **C7, counterexample.**  The claim as stated (idempotence for every
filename) is false: on the filename `j.doe.pdf` the first run keeps the
inner dot (`J.Doe`), and the second run strips `.Doe` as an extension,
leaving `J`. -/
theorem C7_name_pipeline_not_idempotent :
    extractName "j.doe.pdf".data = "J.Doe".data ∧
    extractName (extractName "j.doe.pdf".data) = "J".data ∧
    extractName (extractName "j.doe.pdf".data) ≠ extractName "j.doe.pdf".data := by
  decide

unseal removeWordCIGo removeDigitTokGo collapseWs in
/-- Witness for the corrected C7 statement at the filename
`John_Doe_Resume_2023.pdf`, whose derived name `John Doe` satisfies all
three side conditions. -/
theorem C7_name_pipeline_idempotent_conditional_witness :
    extractName (extractName "John_Doe_Resume_2023.pdf".data) =
      extractName "John_Doe_Resume_2023.pdf".data :=
  C7_name_pipeline_idempotent_conditional "John_Doe_Resume_2023.pdf".data
    (by decide) (by decide) (by decide)

end ARS
